import Mathlib

/-!
# pPIM compiler backend: ISA codec, code generator encoding, memory mapper

A shallow embedding of the parts of the pPIM compiler that carry bit-level and
address-space contracts:

* `support/isa/pPIM_isa.{h,cpp}`: `Instruction`, `encodeInstruction`,
  `decodeInstruction`;
* `backend/code_generator/code_generator.{h,cpp}`: `PIMInstruction`,
  `CodeGenerator::encodeInstruction`, `CodeGenerator::savePIMInstructions`;
* `backend/memory_mapper/memory_mapper.{h,cpp}`: `MemoryMapper` with
  `initialize`, `allocateMemory`, `mapMatrix`, `getElementLocation`.

Machine integers (`uint32_t`, `uint8_t`) are natural numbers; every place
where the C++ arithmetic can wrap carries an explicit `% 2 ^ 32`.  The two
`while` loops of the memory mapper are modelled with a fuel argument that
bounds the number of evaluations of the loop condition: a result `none`
means that the fuel ran out before the loop exited.
-/

namespace ppim

/-! ## ISA codec (`support/isa/pPIM_isa.h`, `support/isa/pPIM_isa.cpp`) -/

/-- The bit-field record `struct Instruction`.  The C++ fields are bit-fields of
widths 2, 6, 1, 1, 9 and 5; here they are natural numbers and the widths appear
as hypotheses where a statement needs them. -/
structure Instruction where
  opcode : Nat
  coreId : Nat
  readBit : Nat
  writeBit : Nat
  rowAddress : Nat
  reserved : Nat
  deriving DecidableEq, Repr

/-- The default constructor `Instruction()`: every field zero. -/
def Instruction.default : Instruction :=
  { opcode := 0, coreId := 0, readBit := 0, writeBit := 0, rowAddress := 0, reserved := 0 }

/-- The function `encodeInstruction(const Instruction&)` of `pPIM_isa.cpp`: starting
from `0`, each masked and shifted field is or-ed into the word.  Every operand
is masked before it is shifted, so no intermediate value leaves 32 bits. -/
def encodeInstruction (inst : Instruction) : Nat :=
  let encoded := 0
  let encoded := encoded ||| ((inst.opcode &&& 0x3) <<< 22)
  let encoded := encoded ||| ((inst.coreId &&& 0x3F) <<< 16)
  let encoded := encoded ||| ((inst.readBit &&& 0x1) <<< 15)
  let encoded := encoded ||| ((inst.writeBit &&& 0x1) <<< 14)
  let encoded := encoded ||| (inst.rowAddress &&& 0x1FF)
  encoded

/-- The function `decodeInstruction(uint32_t)` of `pPIM_isa.cpp`: the record is
default-constructed (so `reserved` stays `0`) and five fields are extracted. -/
def decodeInstruction (encoded : Nat) : Instruction :=
  let inst := Instruction.default
  let inst := { inst with opcode := (encoded >>> 22) &&& 0x3 }
  let inst := { inst with coreId := (encoded >>> 16) &&& 0x3F }
  let inst := { inst with readBit := (encoded >>> 15) &&& 0x1 }
  let inst := { inst with writeBit := (encoded >>> 14) &&& 0x1 }
  let inst := { inst with rowAddress := encoded &&& 0x1FF }
  inst

/-! ## Code generator (`backend/code_generator/code_generator.{h,cpp}`) -/

/-- The enumeration `enum class PIMInstructionType`, in declaration order. -/
inductive PIMInstructionType where
  | PROG
  | EXE
  | END
  | MEMORY_READ
  | MEMORY_WRITE
  deriving DecidableEq, Repr

/-- The value `static_cast<uint32_t>(type)`: the position in the declaration. -/
def PIMInstructionType.toNat : PIMInstructionType → Nat
  | .PROG => 0
  | .EXE => 1
  | .END => 2
  | .MEMORY_READ => 3
  | .MEMORY_WRITE => 4

/-- The enumeration `enum class PIMOpcode`, in declaration order. -/
inductive PIMOpcode where
  | MULTIPLY
  | ADD
  | MAC
  | RELU
  deriving DecidableEq, Repr

/-- The value `static_cast<uint32_t>(opcode)`: the position in the declaration. -/
def PIMOpcode.toNat : PIMOpcode → Nat
  | .MULTIPLY => 0
  | .ADD => 1
  | .MAC => 2
  | .RELU => 3

/-- The record `struct PIMInstruction`; `coreId` is a `uint8_t`, `address` a
`uint32_t`. -/
structure PIMInstruction where
  type : PIMInstructionType
  coreId : Nat
  opcode : PIMOpcode
  address : Nat
  deriving DecidableEq, Repr

namespace CodeGenerator

/-- The method `CodeGenerator::encodeInstruction(const PIMInstruction&)`. -/
def encodeInstruction (instr : PIMInstruction) : Nat :=
  let encodedInstr := 0
  let encodedInstr := encodedInstr ||| ((instr.type.toNat &&& 0x3) <<< 22)
  let encodedInstr :=
    if instr.type = PIMInstructionType.PROG then
      encodedInstr ||| ((instr.coreId &&& 0x3F) <<< 16)
    else if instr.type = PIMInstructionType.EXE then
      encodedInstr ||| ((instr.opcode.toNat &&& 0x3F) <<< 16)
    else encodedInstr
  let encodedInstr :=
    if instr.type = PIMInstructionType.MEMORY_READ then
      encodedInstr ||| (1 <<< 15)
    else if instr.type = PIMInstructionType.MEMORY_WRITE then
      encodedInstr ||| (1 <<< 14)
    else encodedInstr
  let encodedInstr := encodedInstr ||| (instr.address &&& 0x1FF)
  encodedInstr

/-- The four bytes of a `uint32_t` in memory order on a little-endian host. -/
def wordBytes (w : Nat) : List Nat :=
  [w % 256, (w / 2 ^ 8) % 256, (w / 2 ^ 16) % 256, (w / 2 ^ 24) % 256]

/-- The method `CodeGenerator::savePIMInstructions`.  The first argument says
whether the output file could be opened; the result is the return value together
with the bytes written: for each instruction the first three bytes of the
in-memory representation of its encoded word
(`file.write(reinterpret_cast<const char*>(&encodedInstr), 3)`). -/
def savePIMInstructions (isOpen : Bool) (instructions : List PIMInstruction) :
    Bool × List Nat :=
  if !isOpen then (false, [])
  else
    (true, instructions.foldl
      (fun file instr => file ++ (wordBytes (encodeInstruction instr)).take 3) [])

end CodeGenerator

/-! ## Memory mapper (`backend/memory_mapper/memory_mapper.{h,cpp}`) -/

/-- The record `struct PhysicalMemoryLocation` (four `uint32_t` fields). -/
structure PhysicalMemoryLocation where
  bankId : Nat
  subarrayId : Nat
  rowAddress : Nat
  columnOffset : Nat
  deriving DecidableEq, Repr

/-- The default constructor `PhysicalMemoryLocation()`. -/
def PhysicalMemoryLocation.default : PhysicalMemoryLocation :=
  { bankId := 0, subarrayId := 0, rowAddress := 0, columnOffset := 0 }

/-- The record `struct MatrixMemoryLayout`. -/
structure MatrixMemoryLayout where
  startLocation : PhysicalMemoryLocation
  rows : Nat
  cols : Nat
  rowMajor : Bool
  deriving DecidableEq, Repr

/-- The default constructor `MatrixMemoryLayout()`. -/
def MatrixMemoryLayout.default : MatrixMemoryLayout :=
  { startLocation := PhysicalMemoryLocation.default, rows := 0, cols := 0, rowMajor := true }

/-- The data members of `class MemoryMapper`.  The two `std::map`s are finite
partial functions; the keys of `ValueLocations` (pointers to LLVM values) are
represented by numbers. -/
structure MemoryMapper where
  NumBanks : Nat
  NumSubarraysPerBank : Nat
  NumRowsPerSubarray : Nat
  NumColsPerRow : Nat
  NumClustersPerSubarray : Nat
  NextAvailableBank : Nat
  NextAvailableSubarray : Nat
  NextAvailableRow : Nat
  NextAvailableCol : Nat
  MatrixLayouts : String → Option MatrixMemoryLayout
  ValueLocations : Nat → Option PhysicalMemoryLocation

namespace MemoryMapper

/-- The constructor `MemoryMapper::MemoryMapper()`. -/
def new : MemoryMapper :=
  { NumBanks := 8, NumSubarraysPerBank := 16, NumRowsPerSubarray := 512,
    NumColsPerRow := 2048, NumClustersPerSubarray := 4,
    NextAvailableBank := 0, NextAvailableSubarray := 0,
    NextAvailableRow := 0, NextAvailableCol := 0,
    MatrixLayouts := fun _ => none, ValueLocations := fun _ => none }

/-- The method `MemoryMapper::initialize` (the name is reserved in Lean). -/
def init (m : MemoryMapper) (numBanks numSubarraysPerBank numRowsPerSubarray
    numColsPerRow : Nat) : MemoryMapper :=
  { m with
    NumBanks := numBanks
    NumSubarraysPerBank := numSubarraysPerBank
    NumRowsPerSubarray := numRowsPerSubarray
    NumColsPerRow := numColsPerRow
    NextAvailableBank := 0
    NextAvailableSubarray := 0
    NextAvailableRow := 0
    NextAvailableCol := 0
    MatrixLayouts := fun _ => none
    ValueLocations := fun _ => none }

/-- The method `MemoryMapper::isMatrixMapped`. -/
def isMatrixMapped (m : MemoryMapper) (name : String) : Bool :=
  (m.MatrixLayouts name).isSome

/-- The method `MemoryMapper::getMatrixLayout`: the default layout if absent. -/
def getMatrixLayout (m : MemoryMapper) (name : String) : MatrixMemoryLayout :=
  match m.MatrixLayouts name with
  | some layout => layout
  | none => MatrixMemoryLayout.default

/-- One pass through the body of the `while` loop of `allocateMemory`
(entered only when `NextAvailableCol >= NumColsPerRow`). -/
def allocateCarryBody (m : MemoryMapper) : MemoryMapper :=
  let m := { m with NextAvailableCol := m.NextAvailableCol - m.NumColsPerRow }
  let m := { m with NextAvailableRow := (m.NextAvailableRow + 1) % 2 ^ 32 }
  if m.NextAvailableRow ≥ m.NumRowsPerSubarray then
    let m := { m with NextAvailableRow := 0 }
    let m := { m with NextAvailableSubarray := (m.NextAvailableSubarray + 1) % 2 ^ 32 }
    if m.NextAvailableSubarray ≥ m.NumSubarraysPerBank then
      let m := { m with NextAvailableSubarray := 0 }
      let m := { m with NextAvailableBank := (m.NextAvailableBank + 1) % 2 ^ 32 }
      if m.NextAvailableBank ≥ m.NumBanks then
        { m with NextAvailableBank := 0 }
      else m
    else m
  else m

/-- The `while (NextAvailableCol >= NumColsPerRow)` loop of `allocateMemory`;
the fuel bounds the number of evaluations of the loop condition. -/
def allocateCarryLoop : Nat → MemoryMapper → Option MemoryMapper
  | 0, _ => none
  | fuel + 1, m =>
    if m.NextAvailableCol ≥ m.NumColsPerRow then allocateCarryLoop fuel (allocateCarryBody m)
    else some m

/-- The method `MemoryMapper::allocateMemory`: the returned location and the
state after the call. -/
def allocateMemory (fuel : Nat) (m : MemoryMapper) (size : Nat) :
    Option (PhysicalMemoryLocation × MemoryMapper) :=
  let location : PhysicalMemoryLocation :=
    { bankId := m.NextAvailableBank, subarrayId := m.NextAvailableSubarray,
      rowAddress := m.NextAvailableRow, columnOffset := m.NextAvailableCol }
  let m := { m with NextAvailableCol := (m.NextAvailableCol + size) % 2 ^ 32 }
  match allocateCarryLoop fuel m with
  | none => none
  | some m => some (location, m)

/-- The method `MemoryMapper::mapMatrix`: the returned layout and the state
after the call. -/
def mapMatrix (fuel : Nat) (m : MemoryMapper) (name : String) (rows cols : Nat) :
    Option (MatrixMemoryLayout × MemoryMapper) :=
  if m.isMatrixMapped name then
    some (m.getMatrixLayout name, m)
  else
    let totalSize := (rows * cols) % 2 ^ 32
    match allocateMemory fuel m totalSize with
    | none => none
    | some (startLocation, m) =>
      let layout : MatrixMemoryLayout :=
        { startLocation := startLocation, rows := rows, cols := cols, rowMajor := true }
      some (layout,
        { m with MatrixLayouts := fun n => if n = name then some layout else m.MatrixLayouts n })

/-- The guard `row >= matrix.rows || col >= matrix.cols` of `getElementLocation`. -/
def indexOutOfBounds (matrix : MatrixMemoryLayout) (row col : Nat) : Bool :=
  decide (row ≥ matrix.rows) || decide (col ≥ matrix.cols)

/-- One pass through the body of the `while` loop of `getElementLocation`. -/
def elementCarryBody (m : MemoryMapper) (location : PhysicalMemoryLocation) :
    PhysicalMemoryLocation :=
  let location := { location with columnOffset := location.columnOffset - m.NumColsPerRow }
  let location := { location with rowAddress := (location.rowAddress + 1) % 2 ^ 32 }
  if location.rowAddress ≥ m.NumRowsPerSubarray then
    let location := { location with rowAddress := 0 }
    let location := { location with subarrayId := (location.subarrayId + 1) % 2 ^ 32 }
    if location.subarrayId ≥ m.NumSubarraysPerBank then
      let location := { location with subarrayId := 0 }
      let location := { location with bankId := (location.bankId + 1) % 2 ^ 32 }
      if location.bankId ≥ m.NumBanks then
        { location with bankId := 0 }
      else location
    else location
  else location

/-- The `while (location.columnOffset >= NumColsPerRow)` loop of
`getElementLocation`. -/
def elementCarryLoop (m : MemoryMapper) : Nat → PhysicalMemoryLocation →
    Option PhysicalMemoryLocation
  | 0, _ => none
  | fuel + 1, location =>
    if location.columnOffset ≥ m.NumColsPerRow then
      elementCarryLoop m fuel (elementCarryBody m location)
    else some location

/-- The method `MemoryMapper::getElementLocation`. -/
def getElementLocation (fuel : Nat) (m : MemoryMapper) (matrix : MatrixMemoryLayout)
    (row col : Nat) : Option PhysicalMemoryLocation :=
  if indexOutOfBounds matrix row col then
    some PhysicalMemoryLocation.default
  else
    let offset :=
      if matrix.rowMajor then (row * matrix.cols + col) % 2 ^ 32
      else (col * matrix.rows + row) % 2 ^ 32
    let location := matrix.startLocation
    let location :=
      { location with columnOffset := (location.columnOffset + offset) % 2 ^ 32 }
    elementCarryLoop m fuel location

/-- The allocation cursor `(NextAvailableBank, NextAvailableSubarray,
NextAvailableRow, NextAvailableCol)` as a location. -/
def cursor (m : MemoryMapper) : PhysicalMemoryLocation :=
  { bankId := m.NextAvailableBank, subarrayId := m.NextAvailableSubarray,
    rowAddress := m.NextAvailableRow, columnOffset := m.NextAvailableCol }

/-- The state with its allocation cursor replaced. -/
def withCursor (m : MemoryMapper) (l : PhysicalMemoryLocation) : MemoryMapper :=
  { m with NextAvailableBank := l.bankId, NextAvailableSubarray := l.subarrayId,
           NextAvailableRow := l.rowAddress, NextAvailableCol := l.columnOffset }

/-- The linear index of a location in the bank/subarray/row/column hierarchy:
`((b*NumSubarraysPerBank + s)*NumRowsPerSubarray + r)*NumColsPerRow + c`. -/
def linear (m : MemoryMapper) (l : PhysicalMemoryLocation) : Nat :=
  ((l.bankId * m.NumSubarraysPerBank + l.subarrayId) * m.NumRowsPerSubarray
    + l.rowAddress) * m.NumColsPerRow + l.columnOffset

/-- The number of addressable cells
`NumBanks*NumSubarraysPerBank*NumRowsPerSubarray*NumColsPerRow`. -/
def capacity (m : MemoryMapper) : Nat :=
  m.NumBanks * m.NumSubarraysPerBank * m.NumRowsPerSubarray * m.NumColsPerRow

/-- All four architecture parameters are positive. -/
def PositiveParams (m : MemoryMapper) : Prop :=
  0 < m.NumBanks ∧ 0 < m.NumSubarraysPerBank ∧ 0 < m.NumRowsPerSubarray ∧ 0 < m.NumColsPerRow

/-- The four architecture parameters are `uint32_t` values. -/
def ParamsU32 (m : MemoryMapper) : Prop :=
  m.NumBanks < 2 ^ 32 ∧ m.NumSubarraysPerBank < 2 ^ 32 ∧ m.NumRowsPerSubarray < 2 ^ 32
    ∧ m.NumColsPerRow < 2 ^ 32

/-- A location lies within the configured bounds in all four components. -/
def InRange (m : MemoryMapper) (l : PhysicalMemoryLocation) : Prop :=
  l.bankId < m.NumBanks ∧ l.subarrayId < m.NumSubarraysPerBank
    ∧ l.rowAddress < m.NumRowsPerSubarray ∧ l.columnOffset < m.NumColsPerRow

instance (m : MemoryMapper) : Decidable (PositiveParams m) := by
  unfold PositiveParams; infer_instance

instance (m : MemoryMapper) : Decidable (ParamsU32 m) := by
  unfold ParamsU32; infer_instance

instance (m : MemoryMapper) (l : PhysicalMemoryLocation) : Decidable (InRange m l) := by
  unfold InRange; infer_instance

/-- Two states with the same four architecture parameters. -/
def SameParams (m m1 : MemoryMapper) : Prop :=
  m1.NumBanks = m.NumBanks ∧ m1.NumSubarraysPerBank = m.NumSubarraysPerBank
    ∧ m1.NumRowsPerSubarray = m.NumRowsPerSubarray ∧ m1.NumColsPerRow = m.NumColsPerRow

/-- The location `allocateMemory` hands to its carry loop: the cursor with the
column advanced by `size` in 32-bit arithmetic. -/
def advanced (m : MemoryMapper) (size : Nat) : PhysicalMemoryLocation :=
  { bankId := m.NextAvailableBank, subarrayId := m.NextAvailableSubarray,
    rowAddress := m.NextAvailableRow,
    columnOffset := (m.NextAvailableCol + size) % 2 ^ 32 }

/-- The layout `mapMatrix` creates for a fresh name: row-major, at the cursor. -/
def freshLayout (m : MemoryMapper) (rows cols : Nat) : MatrixMemoryLayout :=
  { startLocation := cursor m, rows := rows, cols := cols, rowMajor := true }

/-- The state after `mapMatrix` of a fresh name, given the cursor reached by the
allocation. -/
def recordLayout (m : MemoryMapper) (l1 : PhysicalMemoryLocation) (name : String)
    (rows cols : Nat) : MemoryMapper :=
  { withCursor m l1 with
    MatrixLayouts := fun n =>
      if n = name then some (freshLayout m rows cols) else m.MatrixLayouts n }

/-- The footprint of a recorded layout, seen from a session that has handed out
`u` cells so far: the layout is row-major, starts in range, its column addition
did not wrap, and unless it is empty its cells end at or before `u`. -/
def LayoutOk (m : MemoryMapper) (u : Nat) (L : MatrixMemoryLayout) : Prop :=
  L.rowMajor = true ∧ InRange m L.startLocation
    ∧ L.startLocation.columnOffset + L.rows * L.cols < 2 ^ 32
    ∧ (L.rows * L.cols = 0 ∨ linear m L.startLocation + L.rows * L.cols ≤ u)

/-- Two layouts occupy disjoint intervals of linear indices (or one is empty). -/
def Apart (m : MemoryMapper) (L1 L2 : MatrixMemoryLayout) : Prop :=
  L1.rows * L1.cols = 0 ∨ L2.rows * L2.cols = 0
    ∨ linear m L1.startLocation + L1.rows * L1.cols ≤ linear m L2.startLocation
    ∨ linear m L2.startLocation + L2.rows * L2.cols ≤ linear m L1.startLocation

/-- The invariant of a session that has handed out `u` cells and mapped the
names in `seen`. -/
def SessionInv (m : MemoryMapper) (u : Nat) (seen : List String) : Prop :=
  u ≤ capacity m ∧ InRange m (cursor m) ∧ linear m (cursor m) = u % capacity m
    ∧ (∀ n, n ∈ seen ↔ m.isMatrixMapped n = true)
    ∧ (∀ n L, m.MatrixLayouts n = some L → LayoutOk m u L)
    ∧ (∀ n1 n2 L1 L2, n1 ≠ n2 → m.MatrixLayouts n1 = some L1 →
        m.MatrixLayouts n2 = some L2 → Apart m L1 L2)

/-- A sequence of `allocateMemory` calls: the returned locations in call order
and the final state. -/
def allocateAll (fuel : Nat) : MemoryMapper → List Nat →
    Option (List PhysicalMemoryLocation × MemoryMapper)
  | m, [] => some ([], m)
  | m, size :: rest =>
    match allocateMemory fuel m size with
    | none => none
    | some (l, m1) =>
      match allocateAll fuel m1 rest with
      | none => none
      | some (ls, m2) => some (l :: ls, m2)

/-- A call that allocates within a session: a bare `allocateMemory(size)` (as
issued by `mapValues`) or a `mapMatrix(name, rows, cols)`. -/
inductive Call where
  | allocate (size : Nat)
  | mapMatrix (name : String) (rows cols : Nat)
  deriving DecidableEq, Repr

/-- The number of cells a call asks for. -/
def Call.size : Call → Nat
  | .allocate size => size
  | .mapMatrix _ rows cols => rows * cols

/-- The state after a sequence of calls. -/
def runCalls (fuel : Nat) : MemoryMapper → List Call → Option MemoryMapper
  | m, [] => some m
  | m, Call.allocate size :: rest =>
    match allocateMemory fuel m size with
    | none => none
    | some (_, m1) => runCalls fuel m1 rest
  | m, Call.mapMatrix name rows cols :: rest =>
    match mapMatrix fuel m name rows cols with
    | none => none
    | some (_, m1) => runCalls fuel m1 rest

/-- The cells a session asks for in total: every bare allocation, and every
`mapMatrix` of a name not mapped earlier in the session (a repeated name
allocates nothing). -/
def demand : List String → List Call → Nat
  | _, [] => 0
  | seen, Call.allocate size :: rest => size + demand seen rest
  | seen, Call.mapMatrix name rows cols :: rest =>
    if name ∈ seen then demand seen rest
    else rows * cols + demand (name :: seen) rest

/-- The method `MemoryMapper::getClusterIdForLocation`, in `uint32_t` arithmetic;
`none` stands for a division by zero (`NumClustersPerSubarray = 0`, or
`rowsPerCluster = 0`). -/
def getClusterIdForLocation (m : MemoryMapper) (location : PhysicalMemoryLocation) :
    Option Nat :=
  let globalSubarrayId :=
    (location.bankId * m.NumSubarraysPerBank + location.subarrayId) % 2 ^ 32
  if m.NumClustersPerSubarray = 0 then none
  else
    let rowsPerCluster := m.NumRowsPerSubarray / m.NumClustersPerSubarray
    if rowsPerCluster = 0 then none
    else
      let clusterIdWithinSubarray := location.rowAddress / rowsPerCluster
      let globalClusterId :=
        (globalSubarrayId * m.NumClustersPerSubarray + clusterIdWithinSubarray) % 2 ^ 32
      some globalClusterId

/-- The row-major or column-major offset `getElementLocation` computes for an
element, before reduction to 32 bits. -/
def elementOffset (matrix : MatrixMemoryLayout) (row col : Nat) : Nat :=
  if matrix.rowMajor then row * matrix.cols + col else col * matrix.rows + row

/-- A session that also records, in call order, every location returned by
`allocateMemory` (called directly, or by `mapMatrix` for a name not yet mapped). -/
def runCallsLog (fuel : Nat) : MemoryMapper → List Call →
    Option (List PhysicalMemoryLocation × MemoryMapper)
  | m, [] => some ([], m)
  | m, Call.allocate size :: rest =>
    match allocateMemory fuel m size with
    | none => none
    | some (l, m1) =>
      match runCallsLog fuel m1 rest with
      | none => none
      | some (ls, m2) => some (l :: ls, m2)
  | m, Call.mapMatrix name rows cols :: rest =>
    match mapMatrix fuel m name rows cols with
    | none => none
    | some (layout, m1) =>
      match runCallsLog fuel m1 rest with
      | none => none
      | some (ls, m2) =>
        if m.isMatrixMapped name then some (ls, m2)
        else some (layout.startLocation :: ls, m2)

/-- The invariant behind normalized locations: positive `uint32_t` parameters, an
in-range cursor and in-range starts of all recorded layouts. -/
def Normalized (m : MemoryMapper) : Prop :=
  PositiveParams m ∧ ParamsU32 m ∧ InRange m (cursor m)
    ∧ ∀ n L, m.MatrixLayouts n = some L → InRange m L.startLocation

end MemoryMapper

/-! ## Matrix analyzer (`frontend/matrix_analyzer/matrix_analyzer.{h,cpp}`)

The C++ `int` values (matrix shapes, loop counters, row and column indices) are
integers with exact arithmetic: overflow of a signed `int` is undefined behaviour
in C++ and lies outside the model. -/

/-- The enumeration `enum class PIMOperationType`, in declaration order. -/
inductive PIMOperationType where
  | MAC
  | RELU
  | MAX_INDEX
  | ADD
  | MULTIPLY
  deriving DecidableEq, Repr

/-- The record `struct PIMOperation`. -/
structure PIMOperation where
  type : PIMOperationType
  lhsMatrix : String
  rhsMatrix : String
  resultMatrix : String
  lhsRow : Int
  lhsCol : Int
  rhsRow : Int
  rhsCol : Int
  resultRow : Int
  resultCol : Int
  deriving DecidableEq, Repr

/-- The default constructor `PIMOperation()`: type MAC, empty names, indices 0. -/
def PIMOperation.default : PIMOperation :=
  { type := .MAC, lhsMatrix := "", rhsMatrix := "", resultMatrix := "",
    lhsRow := 0, lhsCol := 0, rhsRow := 0, rhsCol := 0, resultRow := 0, resultCol := 0 }

/-- The class `MatrixExprAST` of `frontend/parser/ast.h`: a name and a shape. -/
structure MatrixExprAST where
  Name : String
  Rows : Int
  Cols : Int
  deriving DecidableEq, Repr

/-- The class `MatrixMultExprAST` of `frontend/parser/ast.h`; both operand pointers
are taken to be non-null, as the parser builds them. -/
structure MatrixMultExprAST where
  LHS : MatrixExprAST
  RHS : MatrixExprAST
  ResultName : String
  deriving DecidableEq, Repr

/-- The data member of `class MatrixAnalyzer`: the registered shapes. -/
structure MatrixAnalyzer where
  MatrixDimensions : String → Option (Int × Int)

namespace MatrixAnalyzer

/-- The method `MatrixAnalyzer::getMatrixDimensions`: `(0, 0)` if not found. -/
def getMatrixDimensions (a : MatrixAnalyzer) (name : String) : Int × Int :=
  match a.MatrixDimensions name with
  | some d => d
  | none => (0, 0)

/-- The method `MatrixAnalyzer::setMatrixDimensions`. -/
def setMatrixDimensions (a : MatrixAnalyzer) (name : String) (rows cols : Int) :
    MatrixAnalyzer :=
  { a with MatrixDimensions := fun n => if n = name then some (rows, cols)
                                        else a.MatrixDimensions n }

/-- The method `MatrixAnalyzer::decompose8BitMAC`: eight default-constructed
operations, each with its type and three names assigned, pushed in order. -/
def decompose8BitMAC (macOp : PIMOperation) : List PIMOperation :=
  let operations : List PIMOperation := []
  let stage1 := { PIMOperation.default with
    type := .MULTIPLY, lhsMatrix := macOp.lhsMatrix ++ "_L",
    rhsMatrix := macOp.rhsMatrix ++ "_L", resultMatrix := "V0" }
  let operations := operations ++ [stage1]
  let stage2 := { PIMOperation.default with
    type := .MULTIPLY, lhsMatrix := macOp.lhsMatrix ++ "_L",
    rhsMatrix := macOp.rhsMatrix ++ "_H", resultMatrix := "V1" }
  let operations := operations ++ [stage2]
  let stage3 := { PIMOperation.default with
    type := .MULTIPLY, lhsMatrix := macOp.lhsMatrix ++ "_H",
    rhsMatrix := macOp.rhsMatrix ++ "_L", resultMatrix := "V2" }
  let operations := operations ++ [stage3]
  let stage4 := { PIMOperation.default with
    type := .MULTIPLY, lhsMatrix := macOp.lhsMatrix ++ "_H",
    rhsMatrix := macOp.rhsMatrix ++ "_H", resultMatrix := "V3" }
  let operations := operations ++ [stage4]
  let stage5 := { PIMOperation.default with
    type := .ADD, lhsMatrix := "V0_H", rhsMatrix := "V1_L", resultMatrix := "A1" }
  let operations := operations ++ [stage5]
  let stage6 := { PIMOperation.default with
    type := .ADD, lhsMatrix := "A1", rhsMatrix := "V2_L", resultMatrix := "A2" }
  let operations := operations ++ [stage6]
  let stage7 := { PIMOperation.default with
    type := .ADD, lhsMatrix := "V1_H", rhsMatrix := "V2_H", resultMatrix := "A3" }
  let operations := operations ++ [stage7]
  let stage8 := { PIMOperation.default with
    type := .ADD, lhsMatrix := "A3", rhsMatrix := "V3",
    resultMatrix := macOp.resultMatrix }
  let operations := operations ++ [stage8]
  operations

/-- The method `MatrixAnalyzer::mapOperationsToClusters`: for every index it
computes `i % numClusters` into a local that is never used, so the operations are
unchanged; `none` stands for a modulo by zero (some index exists and
`numClusters = 0`). -/
def mapOperationsToClusters (operations : List PIMOperation) (numClusters : Int) :
    Option (List PIMOperation) :=
  if (List.range operations.length).all (fun _ => decide (numClusters ≠ 0)) then
    some operations
  else none

/-- The method `MatrixAnalyzer::getRequiredClusters`; `none` is the null pointer. -/
def getRequiredClusters (a : MatrixAnalyzer) (expr : Option MatrixMultExprAST) : Int :=
  match expr with
  | none => 0
  | some e =>
    let lhsDim := a.getMatrixDimensions e.LHS.Name
    let rhsDim := a.getMatrixDimensions e.RHS.Name
    let lhsRows := lhsDim.1
    let rhsCols := rhsDim.2
    lhsRows * rhsCols

/-- The MAC operation built for `C[i][j] += A[i][k] * B[k][j]` in the innermost
loop of `decomposeMatrixMultiplication`. -/
def macOperation (e : MatrixMultExprAST) (i j k : Int) : PIMOperation :=
  { PIMOperation.default with
    type := .MAC, lhsMatrix := e.LHS.Name, rhsMatrix := e.RHS.Name,
    resultMatrix := e.ResultName, lhsRow := i, lhsCol := k, rhsRow := k, rhsCol := j,
    resultRow := i, resultCol := j }

/-- The body of the innermost loop of `decomposeMatrixMultiplication`: push the
MAC operation; if the last operation is a MAC, pop it and append its 8-stage
decomposition. -/
def macStep (e : MatrixMultExprAST) (operations : List PIMOperation) (i j k : Int) :
    List PIMOperation :=
  let op := macOperation e i j k
  let operations := operations ++ [op]
  match operations.getLast? with
  | some back =>
    if back.type = PIMOperationType.MAC then
      let decomposedOps := decompose8BitMAC back
      let operations := operations.dropLast
      operations ++ decomposedOps
    else operations
  | none => operations

/-- The loop `for (int k = 0; k < lhsCols; k++)`. -/
def loopK (e : MatrixMultExprAST) (lhsCols : Int) (operations : List PIMOperation)
    (i j : Int) : List PIMOperation :=
  (List.range lhsCols.toNat).foldl (fun ops (k : Nat) => macStep e ops i j (k : Int)) operations

/-- The loop `for (int j = 0; j < rhsCols; j++)`. -/
def loopJ (e : MatrixMultExprAST) (rhsCols lhsCols : Int) (operations : List PIMOperation)
    (i : Int) : List PIMOperation :=
  (List.range rhsCols.toNat).foldl (fun ops (j : Nat) => loopK e lhsCols ops i (j : Int)) operations

/-- The loop `for (int i = 0; i < lhsRows; i++)`. -/
def loopI (e : MatrixMultExprAST) (lhsRows rhsCols lhsCols : Int)
    (operations : List PIMOperation) : List PIMOperation :=
  (List.range lhsRows.toNat).foldl (fun ops (i : Nat) => loopJ e rhsCols lhsCols ops (i : Int))
    operations

/-- The method `MatrixAnalyzer::decomposeMatrixMultiplication`; the argument `none`
is the null pointer, the result `none` a modulo by zero in
`mapOperationsToClusters`. -/
def decomposeMatrixMultiplication (a : MatrixAnalyzer) (expr : Option MatrixMultExprAST) :
    Option (List PIMOperation) :=
  let operations : List PIMOperation := []
  match expr with
  | none => some operations
  | some e =>
    let lhsDim := a.getMatrixDimensions e.LHS.Name
    let rhsDim := a.getMatrixDimensions e.RHS.Name
    let lhsRows := lhsDim.1
    let lhsCols := lhsDim.2
    let rhsRows := rhsDim.1
    let rhsCols := rhsDim.2
    if lhsCols ≠ rhsRows then some operations
    else
      let operations := loopI e lhsRows rhsCols lhsCols operations
      let numClusters := a.getRequiredClusters expr
      mapOperationsToClusters operations numClusters

/-- The index triples `(i, j, k)` in the iteration order of the three loops. -/
def triples (R C K : Nat) : List (Nat × Nat × Nat) :=
  (List.range R).flatMap fun i =>
    (List.range C).flatMap fun j => (List.range K).map fun k => (i, j, k)

end MatrixAnalyzer

/-! ## SIMD generator (`backend/simd/simd_generator.{h,cpp}`) -/

/-- The default constructor `PIMInstruction()`: type END, core 0, opcode ADD,
address 0. -/
def PIMInstruction.default : PIMInstruction :=
  { type := .END, coreId := 0, opcode := .ADD, address := 0 }

/-- The operation `groups[key].push_back(value)` on a `std::map` with `uint32_t`
keys, kept as a list of (key, values) in increasing key order. -/
def mapPush {α : Type} : List (Nat × List α) → Nat → α → List (Nat × List α)
  | [], key, value => [(key, [value])]
  | (k, vs) :: rest, key, value =>
    if key = k then (k, vs ++ [value]) :: rest
    else if key < k then (key, [value]) :: (k, vs) :: rest
    else (k, vs) :: mapPush rest key value

/-- The data members of `class SIMDGenerator`. -/
structure SIMDGenerator where
  ClustersPerRow : Nat
  CoresPerCluster : Nat
  deriving DecidableEq, Repr

namespace SIMDGenerator

/-- The constructor `SIMDGenerator::SIMDGenerator()`. -/
def new : SIMDGenerator :=
  { ClustersPerRow := 4, CoresPerCluster := 9 }

/-- The method `SIMDGenerator::initialize` (the name is reserved in Lean). -/
def init (_sg : SIMDGenerator) (clustersPerRow coresPerCluster : Nat) : SIMDGenerator :=
  { ClustersPerRow := clustersPerRow, CoresPerCluster := coresPerCluster }

/-- The method `SIMDGenerator::generateSIMDLUTProgramming`; the `uint32_t` value
`clusterId * CoresPerCluster + coreId` is stored into the `uint8_t` field. -/
def generateSIMDLUTProgramming (sg : SIMDGenerator) (opcode : PIMOpcode) :
    List PIMInstruction :=
  (List.range sg.ClustersPerRow).foldl
    (fun instructions (clusterId : Nat) =>
      (List.range sg.CoresPerCluster).foldl
        (fun instructions (coreId : Nat) =>
          let progInst := PIMInstruction.default
          let progInst := { progInst with type := PIMInstructionType.PROG }
          let progInst :=
            { progInst with
              coreId := ((clusterId * sg.CoresPerCluster + coreId) % 2 ^ 32) % 2 ^ 8 }
          let progInst := { progInst with opcode := opcode }
          instructions ++ [progInst])
        instructions)
    []

/-- The method `SIMDGenerator::generateSIMDCompute`. -/
def generateSIMDCompute (opcode : PIMOpcode) : List PIMInstruction :=
  let instructions : List PIMInstruction := []
  let exeInst := PIMInstruction.default
  let exeInst := { exeInst with type := PIMInstructionType.EXE }
  let exeInst := { exeInst with opcode := opcode }
  let instructions := instructions ++ [exeInst]
  let endInst := PIMInstruction.default
  let endInst := { endInst with type := PIMInstructionType.END }
  let instructions := instructions ++ [endInst]
  instructions

/-- The method `SIMDGenerator::generateSIMDMemoryAccess`. -/
def generateSIMDMemoryAccess (isRead : Bool) (addresses : List Nat) : List PIMInstruction :=
  let rowGroups : List (Nat × List Nat) :=
    addresses.foldl (fun groups addr => mapPush groups addr addr) []
  rowGroups.foldl
    (fun instructions group =>
      let memInst := PIMInstruction.default
      let memInst :=
        { memInst with
          type := if isRead then PIMInstructionType.MEMORY_READ
                  else PIMInstructionType.MEMORY_WRITE }
      let memInst := { memInst with address := group.1 }
      instructions ++ [memInst])
    []

/-- The loop of `generateMatrixMultSIMD` that pushes the row addresses of
`A[i][0..layoutA.cols)`; `none` if a `getElementLocation` runs out of fuel. -/
def readRowOfA (fuel : Nat) (memMapper : MemoryMapper) (layoutA : MatrixMemoryLayout)
    (i : Nat) (readAddresses : List Nat) : Option (List Nat) :=
  (List.range layoutA.cols).foldlM
    (fun readAddresses (k : Nat) =>
      match memMapper.getElementLocation fuel layoutA i k with
      | none => none
      | some loc => some (readAddresses ++ [loc.rowAddress]))
    readAddresses

/-- The loop of `generateMatrixMultSIMD` that pushes the row addresses of
`B[0..layoutB.rows)[j]`. -/
def readColOfB (fuel : Nat) (memMapper : MemoryMapper) (layoutB : MatrixMemoryLayout)
    (j : Nat) (readAddresses : List Nat) : Option (List Nat) :=
  (List.range layoutB.rows).foldlM
    (fun readAddresses (k : Nat) =>
      match memMapper.getElementLocation fuel layoutB k j with
      | none => none
      | some loc => some (readAddresses ++ [loc.rowAddress]))
    readAddresses

/-- The body of the inner loop of `generateMatrixMultSIMD` for one result element
`(i, j)`: reads, compute, write, appended to the instructions so far. -/
def elementStep (fuel : Nat) (memMapper : MemoryMapper)
    (layoutA layoutB layoutC : MatrixMemoryLayout) (instructions : List PIMInstruction)
    (i j : Nat) : Option (List PIMInstruction) :=
  match readRowOfA fuel memMapper layoutA i [] with
  | none => none
  | some readAddresses =>
    match readColOfB fuel memMapper layoutB j readAddresses with
    | none => none
    | some readAddresses =>
      let readInstructions := generateSIMDMemoryAccess true readAddresses
      let instructions := instructions ++ readInstructions
      let computeInstructions := generateSIMDCompute PIMOpcode.MAC
      let instructions := instructions ++ computeInstructions
      match memMapper.getElementLocation fuel layoutC i j with
      | none => none
      | some resultLoc =>
        let writeAddresses := [resultLoc.rowAddress]
        let writeInstructions := generateSIMDMemoryAccess false writeAddresses
        some (instructions ++ writeInstructions)

/-- The method `SIMDGenerator::generateMatrixMultSIMD`; `none` if a
`getElementLocation` runs out of fuel. -/
def generateMatrixMultSIMD (fuel : Nat) (sg : SIMDGenerator)
    (matrixA matrixB resultMatrix : String) (memMapper : MemoryMapper) :
    Option (List PIMInstruction) :=
  let instructions : List PIMInstruction := []
  let layoutA := memMapper.getMatrixLayout matrixA
  let layoutB := memMapper.getMatrixLayout matrixB
  let layoutC := memMapper.getMatrixLayout resultMatrix
  if layoutA.cols ≠ layoutB.rows then some instructions
  else
    let progInstructions := sg.generateSIMDLUTProgramming PIMOpcode.MAC
    let instructions := instructions ++ progInstructions
    (List.range layoutA.rows).foldlM
      (fun instructions (i : Nat) =>
        (List.range layoutB.cols).foldlM
          (fun instructions (j : Nat) =>
            elementStep fuel memMapper layoutA layoutB layoutC instructions i j)
          instructions)
      instructions

/-- The row address of the location `getElementLocation` returns for an element
(0 if the call runs out of fuel). -/
def elementRow (fuel : Nat) (memMapper : MemoryMapper) (layout : MatrixMemoryLayout)
    (row col : Nat) : Nat :=
  match memMapper.getElementLocation fuel layout row col with
  | some loc => loc.rowAddress
  | none => 0

/-- The instructions emitted for one result element `(i, j)`: the coalesced reads
of the row addresses of `A[i][0..K)` and `B[0..K')[j]`, the compute pair, and the
write of the result element. -/
def elementBlock (fuel : Nat) (memMapper : MemoryMapper)
    (layoutA layoutB layoutC : MatrixMemoryLayout) (i j : Nat) : List PIMInstruction :=
  generateSIMDMemoryAccess true
      ((List.range layoutA.cols).map (fun k => elementRow fuel memMapper layoutA i k)
        ++ (List.range layoutB.rows).map (fun k => elementRow fuel memMapper layoutB k j))
    ++ generateSIMDCompute PIMOpcode.MAC
    ++ generateSIMDMemoryAccess false [elementRow fuel memMapper layoutC i j]

/-- Every EXE instruction of a list has opcode MAC and is immediately followed by
an END instruction. -/
def ExeThenEnd (l : List PIMInstruction) : Prop :=
  ∀ (idx : Nat) (x : PIMInstruction), l[idx]? = some x → x.type = PIMInstructionType.EXE →
    x.opcode = PIMOpcode.MAC
    ∧ ∃ y, l[idx + 1]? = some y ∧ y.type = PIMInstructionType.END

/-- The default session of `CodeGenerator::generateMatrixMultiplicationCode` for a
`rowsA x colsA` by `colsA x colsB` multiply: a fresh `MemoryMapper` with A, B and
the result mapped in that order. -/
def multiplySession (fuel : Nat) (rowsA colsA colsB : Nat) : Option MemoryMapper :=
  MemoryMapper.runCalls fuel MemoryMapper.new
    [MemoryMapper.Call.mapMatrix "A" rowsA colsA, MemoryMapper.Call.mapMatrix "B" colsA colsB,
     MemoryMapper.Call.mapMatrix "C" rowsA colsB]

/-- The index pairs `(i, j)` in row-major order. -/
def pairs (R C : Nat) : List (Nat × Nat) :=
  (List.range R).flatMap fun i => (List.range C).map fun j => (i, j)

end SIMDGenerator

/-- The enumerator of `PIMOpcode` at a given position: the opcode a key of a
`std::map<PIMOpcode, ...>` stands for (keys are compared by position). -/
def PIMOpcode.ofKey : Nat → PIMOpcode
  | 0 => .MULTIPLY
  | 1 => .ADD
  | 2 => .MAC
  | _ => .RELU

/-- The five vectors filled by the first loop of `SIMDGenerator::mapToSIMD`. -/
structure SIMDBuckets where
  simdInstructions : List PIMInstruction
  progInstructions : List PIMInstruction
  exeInstructions : List PIMInstruction
  memReadInstructions : List PIMInstruction
  memWriteInstructions : List PIMInstruction
  deriving DecidableEq, Repr

namespace SIMDGenerator

/-- The body of the first loop of `mapToSIMD`: the `switch (inst.type)`. -/
def classify (b : SIMDBuckets) (inst : PIMInstruction) : SIMDBuckets :=
  match inst.type with
  | .PROG => { b with progInstructions := b.progInstructions ++ [inst] }
  | .EXE => { b with exeInstructions := b.exeInstructions ++ [inst] }
  | .MEMORY_READ => { b with memReadInstructions := b.memReadInstructions ++ [inst] }
  | .MEMORY_WRITE => { b with memWriteInstructions := b.memWriteInstructions ++ [inst] }
  | _ => { b with simdInstructions := b.simdInstructions ++ [inst] }

/-- The loop `opcodeGroups[inst.opcode].push_back(inst)` of `mapToSIMD`; the map is
kept in increasing order of the position of the opcode. -/
def opcodeGroups (instructions : List PIMInstruction) : List (Nat × List PIMInstruction) :=
  instructions.foldl (fun groups inst => mapPush groups inst.opcode.toNat inst) []

/-- The method `SIMDGenerator::mapToSIMD`. -/
def mapToSIMD (sg : SIMDGenerator) (instructions : List PIMInstruction) : List PIMInstruction :=
  let b := instructions.foldl classify
    { simdInstructions := [], progInstructions := [], exeInstructions := [],
      memReadInstructions := [], memWriteInstructions := [] }
  let simdInstructions := b.simdInstructions
  let simdInstructions :=
    if !b.progInstructions.isEmpty then
      (opcodeGroups b.progInstructions).foldl
        (fun simdInstructions group =>
          simdInstructions ++ sg.generateSIMDLUTProgramming (PIMOpcode.ofKey group.1))
        simdInstructions
    else simdInstructions
  let simdInstructions :=
    if !b.exeInstructions.isEmpty then
      (opcodeGroups b.exeInstructions).foldl
        (fun simdInstructions group =>
          simdInstructions ++ generateSIMDCompute (PIMOpcode.ofKey group.1))
        simdInstructions
    else simdInstructions
  let simdInstructions :=
    if !b.memReadInstructions.isEmpty then
      let readAddresses :=
        b.memReadInstructions.foldl (fun readAddresses inst => readAddresses ++ [inst.address]) []
      simdInstructions ++ generateSIMDMemoryAccess true readAddresses
    else simdInstructions
  let simdInstructions :=
    if !b.memWriteInstructions.isEmpty then
      let writeAddresses :=
        b.memWriteInstructions.foldl
          (fun writeAddresses inst => writeAddresses ++ [inst.address]) []
      simdInstructions ++ generateSIMDMemoryAccess false writeAddresses
    else simdInstructions
  simdInstructions

/-- The opcodes of the instructions of a given type, in input order. -/
def opcodesOf (t : PIMInstructionType) (l : List PIMInstruction) : List PIMOpcode :=
  (l.filter (fun x => decide (x.type = t))).map (fun x => x.opcode)

/-- The addresses of the instructions of a given type, in input order. -/
def addressesOf (t : PIMInstructionType) (l : List PIMInstruction) : List Nat :=
  (l.filter (fun x => decide (x.type = t))).map (fun x => x.address)

/-- The four opcodes in increasing order of position. -/
def allOpcodes : List PIMOpcode :=
  [PIMOpcode.MULTIPLY, PIMOpcode.ADD, PIMOpcode.MAC, PIMOpcode.RELU]

end SIMDGenerator

/-! ## Instruction selector
(`backend/instruction_selector/instruction_selector.{h,cpp}`) -/

namespace InstructionSelector

/-- The method `InstructionSelector::generateLUTProgrammingInstructions`; the
`opcode` field of `progInst` is not assigned and keeps the value of the default
constructor. -/
def generateLUTProgrammingInstructions (opcode : PIMOpcode) : List PIMInstruction :=
  let instructions : List PIMInstruction := []
  let coresToProgram : List Nat := []
  let coresToProgram :=
    match opcode with
    | .ADD => (List.range' 0 5).foldl (fun cores (i : Nat) => cores ++ [i]) coresToProgram
    | .MULTIPLY => (List.range' 5 4).foldl (fun cores (i : Nat) => cores ++ [i]) coresToProgram
    | .MAC => (List.range' 0 9).foldl (fun cores (i : Nat) => cores ++ [i]) coresToProgram
    | .RELU => coresToProgram ++ [0]
  coresToProgram.foldl
    (fun instructions (coreId : Nat) =>
      let progInst := PIMInstruction.default
      let progInst := { progInst with type := PIMInstructionType.PROG }
      let progInst := { progInst with coreId := coreId }
      instructions ++ [progInst])
    instructions

/-- The method `InstructionSelector::generateMemoryAccessInstruction`. -/
def generateMemoryAccessInstruction (isRead : Bool) (address : Nat) : PIMInstruction :=
  let inst := PIMInstruction.default
  let inst :=
    if isRead then { inst with type := PIMInstructionType.MEMORY_READ }
    else { inst with type := PIMInstructionType.MEMORY_WRITE }
  { inst with address := address &&& 0x1FF }

/-- The method `InstructionSelector::generateSIMDInstructions`; `vectorSize` is
not used by the body. -/
def generateSIMDInstructions (opcode : PIMOpcode) (_vectorSize : Int) : List PIMInstruction :=
  let instructions : List PIMInstruction := []
  let progInstructions := generateLUTProgrammingInstructions opcode
  let instructions := instructions ++ progInstructions
  let exeInst := PIMInstruction.default
  let exeInst := { exeInst with type := PIMInstructionType.EXE }
  let exeInst := { exeInst with opcode := opcode }
  let instructions := instructions ++ [exeInst]
  let endInst := PIMInstruction.default
  let endInst := { endInst with type := PIMInstructionType.END }
  let instructions := instructions ++ [endInst]
  instructions

end InstructionSelector

/-! ## Bit-field arithmetic -/

/-- Or-ing a shifted field over a value that fits below the shift is addition. -/
theorem shiftLeft_or_eq_add (a b k : Nat) (h : b < 2 ^ k) :
    (a <<< k) ||| b = a * 2 ^ k + b := by
  rw [Nat.shiftLeft_eq, Nat.mul_comm, ← Nat.mul_add_lt_is_or h]

/-- The five-field word as a sum, for fields already reduced to their widths. -/
theorem pack_eq_sum (o c r w a : Nat) (hc : c < 64) (hr : r < 2) (hw : w < 2)
    (ha : a < 512) :
    ((((0 ||| (o <<< 22)) ||| (c <<< 16)) ||| (r <<< 15)) ||| (w <<< 14)) ||| a
      = o * 2 ^ 22 + c * 2 ^ 16 + r * 2 ^ 15 + w * 2 ^ 14 + a := by
  have h1 : (w <<< 14) ||| a = w * 2 ^ 14 + a :=
    shiftLeft_or_eq_add w a 14 (by omega)
  have h2 : (r <<< 15) ||| (w * 2 ^ 14 + a) = r * 2 ^ 15 + (w * 2 ^ 14 + a) :=
    shiftLeft_or_eq_add r _ 15 (by omega)
  have h3 : (c <<< 16) ||| (r * 2 ^ 15 + (w * 2 ^ 14 + a))
      = c * 2 ^ 16 + (r * 2 ^ 15 + (w * 2 ^ 14 + a)) :=
    shiftLeft_or_eq_add c _ 16 (by omega)
  have h4 : (o <<< 22) ||| (c * 2 ^ 16 + (r * 2 ^ 15 + (w * 2 ^ 14 + a)))
      = o * 2 ^ 22 + (c * 2 ^ 16 + (r * 2 ^ 15 + (w * 2 ^ 14 + a))) :=
    shiftLeft_or_eq_add o _ 22 (by omega)
  rw [Nat.zero_or, Nat.or_assoc, Nat.or_assoc, Nat.or_assoc, h1, h2, h3, h4]
  omega

theorem and_3 (x : Nat) : x &&& 0x3 = x % 4 := Nat.and_pow_two_sub_one_eq_mod x 2
theorem and_3F (x : Nat) : x &&& 0x3F = x % 64 := Nat.and_pow_two_sub_one_eq_mod x 6
theorem and_1 (x : Nat) : x &&& 0x1 = x % 2 := Nat.and_pow_two_sub_one_eq_mod x 1
theorem and_1FF (x : Nat) : x &&& 0x1FF = x % 512 := Nat.and_pow_two_sub_one_eq_mod x 9

/-- Closed form of the ISA encoder. -/
theorem encodeInstruction_eq (i : Instruction) :
    encodeInstruction i
      = (i.opcode % 4) * 2 ^ 22 + (i.coreId % 64) * 2 ^ 16 + (i.readBit % 2) * 2 ^ 15
        + (i.writeBit % 2) * 2 ^ 14 + i.rowAddress % 512 := by
  unfold encodeInstruction
  simp only [and_3, and_3F, and_1, and_1FF]
  exact pack_eq_sum _ _ _ _ _ (Nat.mod_lt _ (by norm_num)) (Nat.mod_lt _ (by norm_num))
    (Nat.mod_lt _ (by norm_num)) (Nat.mod_lt _ (by norm_num))

/-- The code generator's word in the five-field shape of the ISA word. -/
theorem CodeGenerator.encodePIM_pack (p : PIMInstruction) :
    CodeGenerator.encodeInstruction p
      = ((((0 ||| ((p.type.toNat &&& 0x3) <<< 22))
          ||| ((if p.type = PIMInstructionType.PROG then p.coreId &&& 0x3F
                else if p.type = PIMInstructionType.EXE then p.opcode.toNat &&& 0x3F
                else 0) <<< 16))
          ||| ((if p.type = PIMInstructionType.MEMORY_READ then 1 else 0) <<< 15))
          ||| ((if p.type = PIMInstructionType.MEMORY_WRITE then 1 else 0) <<< 14))
          ||| (p.address &&& 0x1FF) := by
  obtain ⟨t, c, o, a⟩ := p
  cases t <;> simp [CodeGenerator.encodeInstruction]

/-- Closed form of the code generator's encoder. -/
theorem CodeGenerator.encodePIM_eq (p : PIMInstruction) :
    CodeGenerator.encodeInstruction p
      = (p.type.toNat % 4) * 2 ^ 22
        + (if p.type = PIMInstructionType.PROG then p.coreId % 64
           else if p.type = PIMInstructionType.EXE then p.opcode.toNat % 64
           else 0) * 2 ^ 16
        + (if p.type = PIMInstructionType.MEMORY_READ then 1 else 0) * 2 ^ 15
        + (if p.type = PIMInstructionType.MEMORY_WRITE then 1 else 0) * 2 ^ 14
        + p.address % 512 := by
  rw [CodeGenerator.encodePIM_pack]
  simp only [and_3, and_3F, and_1FF]
  apply pack_eq_sum
  · split_ifs
    · exact Nat.mod_lt _ (by norm_num)
    · exact Nat.mod_lt _ (by norm_num)
    · norm_num
  · split_ifs <;> norm_num
  · split_ifs <;> norm_num
  · exact Nat.mod_lt _ (by norm_num)

/-- The bytes written for a list are the bytes of the head followed by the bytes
of the tail. -/
theorem CodeGenerator.foldl_bytes (acc : List Nat) (l : List PIMInstruction) :
    l.foldl (fun file instr =>
        file ++ (CodeGenerator.wordBytes (CodeGenerator.encodeInstruction instr)).take 3) acc
      = acc ++ l.foldl (fun file instr =>
        file ++ (CodeGenerator.wordBytes (CodeGenerator.encodeInstruction instr)).take 3) [] := by
  induction l generalizing acc with
  | nil => simp
  | cons x xs ih =>
    simp only [List.foldl_cons, List.nil_append]
    rw [ih (acc ++ _), ih (List.take 3 _), List.append_assoc]

/-- The bytes written by `savePIMInstructions` to an opened file, unfolded one
instruction at a time. -/
theorem CodeGenerator.save_cons (x : PIMInstruction) (xs : List PIMInstruction) :
    (CodeGenerator.savePIMInstructions true (x :: xs)).2
      = [CodeGenerator.encodeInstruction x % 256,
         (CodeGenerator.encodeInstruction x / 2 ^ 8) % 256,
         (CodeGenerator.encodeInstruction x / 2 ^ 16) % 256]
        ++ (CodeGenerator.savePIMInstructions true xs).2 := by
  simp only [CodeGenerator.savePIMInstructions, Bool.not_true, Bool.false_eq_true, if_false,
    List.foldl_cons, List.nil_append]
  rw [CodeGenerator.foldl_bytes]
  rfl

/-! ## Claims about the ISA codec and the code generator -/

/-- C1: for every `Instruction` whose fields are within their declared widths,
decoding the encoded word gives back opcode, coreId, readBit, writeBit and
rowAddress, and the decoded reserved field is 0. -/
theorem decode_encode_roundtrip (i : Instruction)
    (ho : i.opcode < 4) (hc : i.coreId < 64) (hr : i.readBit < 2) (hw : i.writeBit < 2)
    (ha : i.rowAddress < 512) :
    (decodeInstruction (encodeInstruction i)).opcode = i.opcode
    ∧ (decodeInstruction (encodeInstruction i)).coreId = i.coreId
    ∧ (decodeInstruction (encodeInstruction i)).readBit = i.readBit
    ∧ (decodeInstruction (encodeInstruction i)).writeBit = i.writeBit
    ∧ (decodeInstruction (encodeInstruction i)).rowAddress = i.rowAddress
    ∧ (decodeInstruction (encodeInstruction i)).reserved = 0 := by
  have he := encodeInstruction_eq i
  simp only [decodeInstruction, Instruction.default, Nat.shiftRight_eq_div_pow,
    and_3, and_3F, and_1, and_1FF]
  rw [he]
  refine ⟨?_, ?_, ?_, ?_, ?_, trivial⟩ <;> omega

/-- Witness for C1: the instruction with opcode 2, core 37, read bit 1, write bit 0,
row 300 and a non-zero reserved field. -/
theorem decode_encode_roundtrip_witness :
    (2 < 4 ∧ 37 < 64 ∧ 1 < 2 ∧ 0 < 2 ∧ 300 < 512)
    ∧ (decodeInstruction (encodeInstruction
        { opcode := 2, coreId := 37, readBit := 1, writeBit := 0, rowAddress := 300,
          reserved := 5 })).coreId = 37 :=
  ⟨by decide,
   (decode_encode_roundtrip
      { opcode := 2, coreId := 37, readBit := 1, writeBit := 0, rowAddress := 300,
        reserved := 5 }
      (by decide) (by decide) (by decide) (by decide) (by decide)).2.1⟩

/-- C2: for every `Instruction`, the encoded word is the sum of the five fields
reduced to their widths and placed at bits 22, 16, 15, 14 and 0; it is below
`2^24` and its bits 13..9 are zero, whatever the reserved field holds. -/
theorem encodeInstruction_layout (i : Instruction) :
    encodeInstruction i
      = (i.opcode % 4) * 2 ^ 22 + (i.coreId % 64) * 2 ^ 16 + (i.readBit % 2) * 2 ^ 15
        + (i.writeBit % 2) * 2 ^ 14 + i.rowAddress % 512
    ∧ encodeInstruction i < 2 ^ 24
    ∧ (encodeInstruction i / 2 ^ 9) % 32 = 0
    ∧ ∀ v, encodeInstruction { i with reserved := v } = encodeInstruction i := by
  have he := encodeInstruction_eq i
  refine ⟨he, ?_, ?_, fun v => ?_⟩
  · omega
  · omega
  · rw [encodeInstruction_eq, he]

/-- C3 (what the code does): bits 23..22 of the code generator's word hold the
position of the kind in `PIMInstructionType` reduced modulo 4, that is 00 for
PROG, 01 for EXE, 10 for END, 11 for MEMORY_READ and 00 again for MEMORY_WRITE;
this is not the kind code of the ISA table (00 memory, 01 PROG, 10 EXE, 11 END). -/
theorem CodeGenerator.kind_bits (p : PIMInstruction) :
    (CodeGenerator.encodeInstruction p / 2 ^ 22) % 4
      = match p.type with
        | .PROG => 0
        | .EXE => 1
        | .END => 2
        | .MEMORY_READ => 3
        | .MEMORY_WRITE => 0 := by
  have he := CodeGenerator.encodePIM_eq p
  obtain ⟨t, c, o, a⟩ := p
  cases t <;>
    simp only [PIMInstructionType.toNat, reduceCtorEq, if_true, if_false] at he ⊢ <;> omega

/-- C4: the non-kind fields of the code generator's word: bits 21..16 hold
`coreId mod 64` for PROG, the opcode number for EXE and 0 otherwise; bit 15 is set
exactly for MEMORY_READ, bit 14 exactly for MEMORY_WRITE; bits 8..0 hold
`address mod 512`; bits 13..9 and 31..24 are zero. -/
theorem CodeGenerator.field_bits (p : PIMInstruction) :
    (CodeGenerator.encodeInstruction p / 2 ^ 16) % 64
        = (match p.type with
           | .PROG => p.coreId % 64
           | .EXE => p.opcode.toNat
           | _ => 0)
    ∧ ((CodeGenerator.encodeInstruction p / 2 ^ 15) % 2 = 1
        ↔ p.type = PIMInstructionType.MEMORY_READ)
    ∧ ((CodeGenerator.encodeInstruction p / 2 ^ 14) % 2 = 1
        ↔ p.type = PIMInstructionType.MEMORY_WRITE)
    ∧ CodeGenerator.encodeInstruction p % 512 = p.address % 512
    ∧ (CodeGenerator.encodeInstruction p / 2 ^ 9) % 32 = 0
    ∧ (CodeGenerator.encodeInstruction p / 2 ^ 24) % 256 = 0
    ∧ CodeGenerator.encodeInstruction p < 2 ^ 32 := by
  have he := CodeGenerator.encodePIM_eq p
  obtain ⟨t, c, o, a⟩ := p
  cases t <;> cases o <;>
    simp only [PIMInstructionType.toNat, PIMOpcode.toNat, reduceCtorEq, if_true, if_false,
      iff_false, iff_true] at he ⊢ <;> omega

/-- C5: to an opened file `savePIMInstructions` writes exactly `3 * |L|` bytes, and
for every `k < |L|` the bytes at `3k`, `3k+1`, `3k+2` are the three low bytes, lowest
first, of the encoded word of the `k`-th instruction. -/
theorem CodeGenerator.save_bytes (L : List PIMInstruction) :
    (CodeGenerator.savePIMInstructions true L).1 = true
    ∧ (CodeGenerator.savePIMInstructions true L).2.length = 3 * L.length
    ∧ ∀ (k : Nat) (p : PIMInstruction), L[k]? = some p →
        (CodeGenerator.savePIMInstructions true L).2[3 * k]?
          = some (CodeGenerator.encodeInstruction p % 256)
        ∧ (CodeGenerator.savePIMInstructions true L).2[3 * k + 1]?
          = some ((CodeGenerator.encodeInstruction p / 2 ^ 8) % 256)
        ∧ (CodeGenerator.savePIMInstructions true L).2[3 * k + 2]?
          = some ((CodeGenerator.encodeInstruction p / 2 ^ 16) % 256) := by
  refine ⟨rfl, ?_, ?_⟩
  · induction L with
    | nil => rfl
    | cons x xs ih =>
      rw [CodeGenerator.save_cons, List.length_append, ih]
      simp only [List.length_cons, List.length_nil]
      omega
  · induction L with
    | nil => intro k p h; simp at h
    | cons x xs ih =>
      intro k p h
      rw [CodeGenerator.save_cons]
      cases k with
      | zero =>
        simp only [List.getElem?_cons_zero, Option.some.injEq] at h
        subst h
        simp
      | succ k =>
        simp only [List.getElem?_cons_succ] at h
        have h3 := ih k p h
        have e0 : 3 * (k + 1) = 3 * k + 3 := by ring
        have e1 : 3 * (k + 1) + 1 = 3 * k + 1 + 3 := by ring
        have e2 : 3 * (k + 1) + 2 = 3 * k + 2 + 3 := by ring
        have hshift : ∀ n, ([CodeGenerator.encodeInstruction x % 256,
            (CodeGenerator.encodeInstruction x / 2 ^ 8) % 256,
            (CodeGenerator.encodeInstruction x / 2 ^ 16) % 256]
            ++ (CodeGenerator.savePIMInstructions true xs).2)[n + 3]?
            = (CodeGenerator.savePIMInstructions true xs).2[n]? := by
          intro n
          rw [List.getElem?_append_right (by simp)]
          simp
        rw [e1, e2, e0, hshift, hshift, hshift]
        exact h3

/-- Witness for C5: a PROG for core 5 followed by a MEMORY_READ at address 300;
the second instruction's low byte sits at offset 3. -/
theorem CodeGenerator.save_bytes_witness :
    [({ type := .PROG, coreId := 5, opcode := .ADD, address := 0 } : PIMInstruction),
      { type := .MEMORY_READ, coreId := 0, opcode := .ADD, address := 300 }][1]?
        = some { type := .MEMORY_READ, coreId := 0, opcode := .ADD, address := 300 }
    ∧ (CodeGenerator.savePIMInstructions true
        [{ type := .PROG, coreId := 5, opcode := .ADD, address := 0 },
         { type := .MEMORY_READ, coreId := 0, opcode := .ADD, address := 300 }]).2[3 * 1]?
        = some (CodeGenerator.encodeInstruction
            { type := .MEMORY_READ, coreId := 0, opcode := .ADD, address := 300 } % 256) :=
  ⟨rfl,
   ((CodeGenerator.save_bytes
      [{ type := .PROG, coreId := 5, opcode := .ADD, address := 0 },
       { type := .MEMORY_READ, coreId := 0, opcode := .ADD, address := 300 }]).2.2 1
      { type := .MEMORY_READ, coreId := 0, opcode := .ADD, address := 300 } rfl).1⟩

/-! ## The carry chain of the memory mapper -/

namespace MemoryMapper

/-- One pass of the carry chain on a location whose bank, subarray and row are in
range: they stay in range, the column drops by `NumColsPerRow`, and the linear
index is kept, or drops by exactly the capacity when the bank wraps to 0. -/
theorem elementCarryBody_spec (m : MemoryMapper) (hp : PositiveParams m) (hu : ParamsU32 m)
    (l : PhysicalMemoryLocation) (hb : l.bankId < m.NumBanks)
    (hs : l.subarrayId < m.NumSubarraysPerBank) (hr : l.rowAddress < m.NumRowsPerSubarray)
    (hc : m.NumColsPerRow ≤ l.columnOffset) :
    (elementCarryBody m l).bankId < m.NumBanks
    ∧ (elementCarryBody m l).subarrayId < m.NumSubarraysPerBank
    ∧ (elementCarryBody m l).rowAddress < m.NumRowsPerSubarray
    ∧ (elementCarryBody m l).columnOffset = l.columnOffset - m.NumColsPerRow
    ∧ (linear m (elementCarryBody m l) = linear m l
        ∨ linear m l = capacity m + linear m (elementCarryBody m l)) := by
  obtain ⟨b, s, r, c⟩ := l
  obtain ⟨hB, hS, hR, hC⟩ := hp
  obtain ⟨uB, uS, uR, uC⟩ := hu
  simp only at hb hs hr hc
  obtain ⟨d, rfl⟩ := Nat.exists_eq_add_of_le hc
  have e1 : (r + 1) % 2 ^ 32 = r + 1 := Nat.mod_eq_of_lt (by omega)
  have e2 : (s + 1) % 2 ^ 32 = s + 1 := Nat.mod_eq_of_lt (by omega)
  have e3 : (b + 1) % 2 ^ 32 = b + 1 := Nat.mod_eq_of_lt (by omega)
  simp only [elementCarryBody, linear, capacity, e1, e2, e3, Nat.add_sub_cancel_left, ge_iff_le]
  by_cases h1 : m.NumRowsPerSubarray ≤ r + 1
  · have hR1 : m.NumRowsPerSubarray = r + 1 := by omega
    by_cases h2 : m.NumSubarraysPerBank ≤ s + 1
    · have hS1 : m.NumSubarraysPerBank = s + 1 := by omega
      by_cases h3 : m.NumBanks ≤ b + 1
      · have hB1 : m.NumBanks = b + 1 := by omega
        simp only [h1, h2, h3, if_true]
        refine ⟨hB, hS, hR, trivial, Or.inr ?_⟩
        rw [hR1, hS1, hB1]
        ring
      · simp only [h1, h2, h3, if_true, if_false]
        refine ⟨by omega, hS, hR, trivial, Or.inl ?_⟩
        rw [hR1, hS1]
        ring
    · simp only [h1, h2, if_true, if_false]
      refine ⟨hb, by omega, hR, trivial, Or.inl ?_⟩
      rw [hR1]
      ring
  · simp only [h1, if_false]
    refine ⟨hb, hs, by omega, trivial, Or.inl ?_⟩
    ring

/-- The number of cells is positive when the parameters are. -/
theorem capacity_pos (m : MemoryMapper) (hp : PositiveParams m) : 0 < capacity m := by
  obtain ⟨hB, hS, hR, hC⟩ := hp
  unfold capacity
  positivity

/-- An in-range location has a linear index below the capacity. -/
theorem linear_lt_capacity (m : MemoryMapper) (l : PhysicalMemoryLocation)
    (h : InRange m l) : linear m l < capacity m := by
  obtain ⟨hb, hs, hr, hc⟩ := h
  unfold linear capacity
  have h1 : l.bankId * m.NumSubarraysPerBank + l.subarrayId + 1
      ≤ m.NumBanks * m.NumSubarraysPerBank := by nlinarith
  have h2 : (l.bankId * m.NumSubarraysPerBank + l.subarrayId) * m.NumRowsPerSubarray
      + l.rowAddress + 1 ≤ m.NumBanks * m.NumSubarraysPerBank * m.NumRowsPerSubarray := by
    nlinarith
  nlinarith

/-- The carry loop of `getElementLocation` exits once the fuel exceeds
`columnOffset / NumColsPerRow`; it yields an in-range location with the same
linear index modulo the capacity. -/
theorem elementCarryLoop_spec (m : MemoryMapper) (hp : PositiveParams m) (hu : ParamsU32 m)
    (fuel : Nat) (l : PhysicalMemoryLocation) (hb : l.bankId < m.NumBanks)
    (hs : l.subarrayId < m.NumSubarraysPerBank) (hr : l.rowAddress < m.NumRowsPerSubarray)
    (hf : l.columnOffset / m.NumColsPerRow < fuel) :
    ∃ l1, elementCarryLoop m fuel l = some l1 ∧ InRange m l1
      ∧ linear m l1 = linear m l % capacity m := by
  induction fuel generalizing l with
  | zero => exact absurd hf (Nat.not_lt_zero _)
  | succ n ih =>
    unfold elementCarryLoop
    by_cases hc : m.NumColsPerRow ≤ l.columnOffset
    · simp only [ge_iff_le, hc, if_true]
      obtain ⟨b1, s1, r1, c1, hl⟩ := elementCarryBody_spec m hp hu l hb hs hr hc
      have hC := hp.2.2.2
      have hf1 : (elementCarryBody m l).columnOffset / m.NumColsPerRow < n := by
        rw [c1]
        have := Nat.div_eq_sub_div hC hc
        omega
      obtain ⟨l1, e1, r1, k1⟩ := ih (elementCarryBody m l) b1 s1 r1 hf1
      refine ⟨l1, e1, r1, ?_⟩
      rw [k1]
      rcases hl with hl | hl
      · rw [hl]
      · rw [hl, Nat.add_mod_left]
    · simp only [ge_iff_le, hc, if_false]
      refine ⟨l, rfl, ⟨hb, hs, hr, by omega⟩, ?_⟩
      exact (Nat.mod_eq_of_lt (linear_lt_capacity m l ⟨hb, hs, hr, by omega⟩)).symm

/-- The loop body of `allocateMemory` is the loop body of `getElementLocation`
run on the allocation cursor. -/
theorem allocateCarryBody_eq (m : MemoryMapper) :
    allocateCarryBody m = withCursor m (elementCarryBody m (cursor m)) := by
  simp only [allocateCarryBody, elementCarryBody, withCursor, cursor]
  split_ifs <;> rfl

/-- The element carry loop reads only the architecture parameters. -/
theorem elementCarryLoop_withCursor (m : MemoryMapper) (c : PhysicalMemoryLocation)
    (fuel : Nat) (l : PhysicalMemoryLocation) :
    elementCarryLoop (withCursor m c) fuel l = elementCarryLoop m fuel l := by
  induction fuel generalizing l with
  | zero => rfl
  | succ n ih =>
    unfold elementCarryLoop
    have hb : elementCarryBody (withCursor m c) l = elementCarryBody m l := rfl
    have hc : (withCursor m c).NumColsPerRow = m.NumColsPerRow := rfl
    rw [hb, hc, ih]

/-- The loop of `allocateMemory` is the loop of `getElementLocation` run on the
allocation cursor. -/
theorem allocateCarryLoop_eq (fuel : Nat) (m : MemoryMapper) :
    allocateCarryLoop fuel m = (elementCarryLoop m fuel (cursor m)).map (withCursor m) := by
  induction fuel generalizing m with
  | zero => rfl
  | succ n ih =>
    unfold allocateCarryLoop elementCarryLoop
    have hc : (cursor m).columnOffset = m.NextAvailableCol := rfl
    rw [hc]
    by_cases h : m.NumColsPerRow ≤ m.NextAvailableCol
    · simp only [ge_iff_le, h, if_true]
      rw [ih, allocateCarryBody_eq, elementCarryLoop_withCursor]
      rfl
    · simp only [ge_iff_le, h, if_false]
      rfl

/-- From an in-range cursor `allocateMemory` returns the old cursor and moves the
cursor to an in-range location, changing nothing else. -/
theorem allocateMemory_returns (m : MemoryMapper) (hp : PositiveParams m) (hu : ParamsU32 m)
    (hin : InRange m (cursor m)) (size fuel : Nat)
    (hf : ((m.NextAvailableCol + size) % 2 ^ 32) / m.NumColsPerRow < fuel) :
    ∃ l1, allocateMemory fuel m size = some (cursor m, withCursor m l1) ∧ InRange m l1
      ∧ linear m l1 = linear m (advanced m size) % capacity m := by
  obtain ⟨hb, hs, hr, _⟩ := hin
  obtain ⟨l1, e1, r1, k1⟩ :=
    elementCarryLoop_spec m hp hu fuel (advanced m size) hb hs hr hf
  refine ⟨l1, ?_, r1, k1⟩
  unfold allocateMemory
  simp only []
  rw [allocateCarryLoop_eq]
  have h0 : elementCarryLoop (withCursor m (advanced m size)) fuel
      (cursor (withCursor m (advanced m size))) = some l1 := by
    rw [elementCarryLoop_withCursor]
    exact e1
  have h1 : ({ m with NextAvailableCol := (m.NextAvailableCol + size) % 2 ^ 32 } : MemoryMapper)
      = withCursor m (advanced m size) := rfl
  rw [h1, h0]
  rfl

/-- Fuel `2^32` is enough for every call of `allocateMemory`. -/
theorem allocate_fuel (m : MemoryMapper) (size fuel : Nat)
    (hf : 2 ^ 32 ≤ fuel) :
    ((m.NextAvailableCol + size) % 2 ^ 32) / m.NumColsPerRow < fuel := by
  have h1 : (m.NextAvailableCol + size) % 2 ^ 32 < 2 ^ 32 := Nat.mod_lt _ (by norm_num)
  have h2 := Nat.div_le_self ((m.NextAvailableCol + size) % 2 ^ 32) m.NumColsPerRow
  omega

/-- Without 32-bit wrap the advanced cursor is `size` cells further. -/
theorem linear_advanced (m : MemoryMapper) (size : Nat)
    (hsz : m.NextAvailableCol + size < 2 ^ 32) :
    linear m (advanced m size) = linear m (cursor m) + size := by
  simp only [linear, advanced, cursor, Nat.mod_eq_of_lt hsz]
  ring

/-- The column of an in-range location is its linear index modulo the row
length. -/
theorem linear_mod_cols (m : MemoryMapper) (l : PhysicalMemoryLocation)
    (h : l.columnOffset < m.NumColsPerRow) :
    linear m l % m.NumColsPerRow = l.columnOffset := by
  unfold linear
  rw [Nat.mul_add_mod_of_lt h]

/-- The row length divides the capacity. -/
theorem cols_dvd_capacity (m : MemoryMapper) : m.NumColsPerRow ∣ capacity m :=
  Dvd.intro_left _ rfl

/-- The column of a cursor whose linear index is `u mod capacity`. -/
theorem cursor_col (m : MemoryMapper) (u : Nat) (hin : InRange m (cursor m))
    (hlin : linear m (cursor m) = u % capacity m) :
    m.NextAvailableCol = u % m.NumColsPerRow := by
  have h := linear_mod_cols m (cursor m) hin.2.2.2
  rw [hlin, Nat.mod_mod_of_dvd _ (cols_dvd_capacity m)] at h
  exact h.symm

/-- Prefix sums grow with the prefix. -/
theorem take_sum_mono (l : List Nat) (i j : Nat) (h : i ≤ j) :
    (l.take i).sum ≤ (l.take j).sum := by
  have e : l.take i = (l.take j).take i := by
    rw [List.take_take, Nat.min_eq_left h]
  rw [e]
  exact List.Sublist.sum_le_sum (List.take_sublist _ _) (fun _ _ => Nat.zero_le _)

/-- A prefix sum is at most the whole sum. -/
theorem take_sum_le (l : List Nat) (k : Nat) : (l.take k).sum ≤ l.sum :=
  List.Sublist.sum_le_sum (List.take_sublist _ _) (fun _ _ => Nat.zero_le _)

/-- A prefix sum extended by the next element. -/
theorem take_sum_succ (l : List Nat) (k s : Nat) (h : l[k]? = some s) :
    (l.take (k + 1)).sum = (l.take k).sum + s := by
  obtain ⟨hk, hs⟩ := List.getElem?_eq_some.mp h
  rw [List.sum_take_succ l k hk, hs]

/-- A sequence of allocations from an in-range cursor of linear index
`u mod capacity`, none of whose column additions wraps: every call returns, the
`k`-th returned location is in range with linear index `u` plus the sizes before
it (modulo the capacity), and so is the final cursor. -/
theorem allocateAll_spec (fuel : Nat) (hf : 2 ^ 32 ≤ fuel) (sizes : List Nat) :
    ∀ (m : MemoryMapper) (u : Nat), PositiveParams m → ParamsU32 m → InRange m (cursor m) →
      linear m (cursor m) = u % capacity m →
      (∀ k sz, sizes[k]? = some sz →
        (u + (sizes.take k).sum) % m.NumColsPerRow + sz < 2 ^ 32) →
      ∃ locs m1, allocateAll fuel m sizes = some (locs, m1)
        ∧ SameParams m m1 ∧ InRange m (cursor m1)
        ∧ linear m (cursor m1) = (u + sizes.sum) % capacity m
        ∧ locs.length = sizes.length
        ∧ ∀ k l, locs[k]? = some l →
            InRange m l ∧ linear m l = (u + (sizes.take k).sum) % capacity m := by
  induction sizes with
  | nil =>
    intro m u _ _ hin hlin _
    refine ⟨[], m, rfl, ⟨rfl, rfl, rfl, rfl⟩, hin, by simpa using hlin, rfl, ?_⟩
    intro k l h
    simp at h
  | cons s rest ih =>
    intro m u hp hu hin hlin hfit
    have h0 : u % m.NumColsPerRow + s < 2 ^ 32 := by
      have := hfit 0 s (by simp)
      simpa using this
    have hcol := cursor_col m u hin hlin
    have hsz : m.NextAvailableCol + s < 2 ^ 32 := by rw [hcol]; exact h0
    obtain ⟨l1, e1, r1, k1⟩ :=
      allocateMemory_returns m hp hu hin s fuel (allocate_fuel m s fuel hf)
    have k2 : linear m l1 = (u + s) % capacity m := by
      rw [k1, linear_advanced m s hsz, hlin, Nat.mod_add_mod]
    have hfit1 : ∀ k sz, rest[k]? = some sz →
        (u + s + (rest.take k).sum) % (withCursor m l1).NumColsPerRow + sz < 2 ^ 32 := by
      intro k sz h
      have := hfit (k + 1) sz (by simpa using h)
      simpa [Nat.add_assoc] using this
    obtain ⟨locs, m1, e2, sp, c2, lin2, len2, all2⟩ :=
      ih (withCursor m l1) (u + s) hp hu r1 k2 hfit1
    refine ⟨cursor m :: locs, m1, ?_, sp, c2, ?_, by simp [len2], ?_⟩
    · simp only [allocateAll, e1, e2]
    · have : linear m (cursor m1) = (u + s + rest.sum) % capacity m := lin2
      rw [this, List.sum_cons, Nat.add_assoc]
    · intro k l h
      cases k with
      | zero =>
        simp only [List.getElem?_cons_zero, Option.some.injEq] at h
        subst h
        exact ⟨hin, by simpa using hlin⟩
      | succ k =>
        simp only [List.getElem?_cons_succ] at h
        obtain ⟨a1, a2⟩ := all2 k l h
        refine ⟨a1, ?_⟩
        have : linear m l = (u + s + (rest.take k).sum) % capacity m := a2
        rw [this, List.take_succ_cons, List.sum_cons, Nat.add_assoc]

/-- With positive parameters only the origin has linear index 0. -/
theorem linear_eq_zero (m : MemoryMapper) (hp : PositiveParams m)
    (l : PhysicalMemoryLocation) (h : linear m l = 0) :
    l = PhysicalMemoryLocation.default := by
  obtain ⟨b, s, r, c⟩ := l
  obtain ⟨_, hS, hR, hC⟩ := hp
  simp only [linear, Nat.add_eq_zero_iff, Nat.mul_eq_zero] at h
  obtain ⟨h1, rfl⟩ := h
  obtain ⟨h2, rfl⟩ := h1.resolve_right (by omega)
  obtain ⟨h3, rfl⟩ := h2.resolve_right (by omega)
  have h4 := h3.resolve_right (by omega)
  subst h4
  rfl

/-! ### Sessions of `allocateMemory` and `mapMatrix` calls -/

/-- A footprint stays valid when more cells are handed out. -/
theorem LayoutOk.mono (m : MemoryMapper) (u v : Nat) (L : MatrixMemoryLayout)
    (h : LayoutOk m u L) (huv : u ≤ v) : LayoutOk m v L := by
  obtain ⟨h1, h2, h3, h4⟩ := h
  refine ⟨h1, h2, h3, ?_⟩
  rcases h4 with h4 | h4
  · exact Or.inl h4
  · exact Or.inr (by omega)

/-- A bare allocation keeps the session invariant. -/
theorem step_allocate (m : MemoryMapper) (u : Nat) (seen : List String) (size fuel : Nat)
    (hp : PositiveParams m) (hu : ParamsU32 m) (inv : SessionInv m u seen)
    (hsz : size + m.NumColsPerRow ≤ 2 ^ 32) (hcap : u + size ≤ capacity m)
    (hf : 2 ^ 32 ≤ fuel) :
    ∃ l1, allocateMemory fuel m size = some (cursor m, withCursor m l1)
      ∧ SessionInv (withCursor m l1) (u + size) seen := by
  obtain ⟨_, hin, hlin, hseen, hok, hap⟩ := inv
  obtain ⟨l1, e1, r1, k1⟩ :=
    allocateMemory_returns m hp hu hin size fuel (allocate_fuel m size fuel hf)
  have hcol : m.NextAvailableCol < m.NumColsPerRow := hin.2.2.2
  have k2 : linear m l1 = (u + size) % capacity m := by
    rw [k1, linear_advanced m size (by omega), hlin, Nat.mod_add_mod]
  refine ⟨l1, e1, hcap, r1, k2, hseen, ?_, hap⟩
  intro n L h
  exact LayoutOk.mono m u (u + size) L (hok n L h) (by omega)

/-- Mapping a fresh name keeps the session invariant and records the name. -/
theorem step_mapMatrix (m : MemoryMapper) (u : Nat) (seen : List String) (name : String)
    (rows cols fuel : Nat)
    (hp : PositiveParams m) (hu : ParamsU32 m) (inv : SessionInv m u seen)
    (hfresh : m.isMatrixMapped name = false)
    (hsz : rows * cols + m.NumColsPerRow ≤ 2 ^ 32) (hcap : u + rows * cols ≤ capacity m)
    (hf : 2 ^ 32 ≤ fuel) :
    ∃ l1, mapMatrix fuel m name rows cols
        = some (freshLayout m rows cols, recordLayout m l1 name rows cols)
      ∧ SessionInv (recordLayout m l1 name rows cols) (u + rows * cols) (name :: seen) := by
  have hC := hp.2.2.2
  have hmod : (rows * cols) % 2 ^ 32 = rows * cols := Nat.mod_eq_of_lt (by omega)
  obtain ⟨l1, e1, inv1⟩ := step_allocate m u seen (rows * cols) fuel hp hu inv hsz hcap hf
  obtain ⟨_, hin, hlin, hseen, hok, hap⟩ := inv
  obtain ⟨c1, i1, k1, _, ok1, _⟩ := inv1
  have hcol : m.NextAvailableCol < m.NumColsPerRow := hin.2.2.2
  have hnew : ∀ L, L = freshLayout m rows cols →
      LayoutOk m (u + rows * cols) L
      ∧ (L.rows * L.cols = 0 ∨ linear m L.startLocation = u) := by
    intro L hL
    subst hL
    have hfit : (freshLayout m rows cols).startLocation.columnOffset
        + (freshLayout m rows cols).rows * (freshLayout m rows cols).cols < 2 ^ 32 := by
      show m.NextAvailableCol + rows * cols < 2 ^ 32
      omega
    by_cases hz : rows * cols = 0
    · exact ⟨⟨rfl, hin, hfit, Or.inl hz⟩, Or.inl hz⟩
    · have hlt : u < capacity m := by omega
      have hs : linear m (cursor m) = u := by rw [hlin, Nat.mod_eq_of_lt hlt]
      refine ⟨⟨rfl, hin, hfit, Or.inr ?_⟩, Or.inr hs⟩
      show linear m (cursor m) + rows * cols ≤ u + rows * cols
      omega
  refine ⟨l1, ?_, c1, i1, k1, ?_, ?_, ?_⟩
  · unfold mapMatrix
    simp only [hfresh, Bool.false_eq_true, if_false, hmod, e1]
    rfl
  · intro n
    by_cases hn : n = name
    · subst hn
      simp [isMatrixMapped, recordLayout]
    · have := hseen n
      simp only [isMatrixMapped, recordLayout, hn, if_false, List.mem_cons, false_or] at this ⊢
      exact this
  · intro n L h
    by_cases hn : n = name
    · simp only [recordLayout, hn, if_true, Option.some.injEq] at h
      exact (hnew L h.symm).1
    · simp only [recordLayout, hn, if_false] at h
      exact ok1 n L h
  · intro n1 n2 L1 L2 hne h1 h2
    by_cases hn1 : n1 = name
    · have hn2 : n2 ≠ name := fun h => hne (hn1.trans h.symm)
      simp only [recordLayout, hn1, if_true, Option.some.injEq] at h1
      simp only [recordLayout, hn2, if_false] at h2
      obtain ⟨_, hs1⟩ := hnew L1 h1.symm
      obtain ⟨_, _, _, o2⟩ := hok n2 L2 h2
      rcases hs1 with hs1 | hs1
      · exact Or.inl hs1
      · rcases o2 with o2 | o2
        · exact Or.inr (Or.inl o2)
        · refine Or.inr (Or.inr (Or.inr ?_))
          show linear m L2.startLocation + L2.rows * L2.cols ≤ linear m L1.startLocation
          omega
    · simp only [recordLayout, hn1, if_false] at h1
      by_cases hn2 : n2 = name
      · simp only [recordLayout, hn2, if_true, Option.some.injEq] at h2
        obtain ⟨_, hs2⟩ := hnew L2 h2.symm
        obtain ⟨_, _, _, o1⟩ := hok n1 L1 h1
        rcases hs2 with hs2 | hs2
        · exact Or.inr (Or.inl hs2)
        · rcases o1 with o1 | o1
          · exact Or.inl o1
          · refine Or.inr (Or.inr (Or.inl ?_))
            show linear m L1.startLocation + L1.rows * L1.cols ≤ linear m L2.startLocation
            omega
      · simp only [recordLayout, hn2, if_false] at h2
        exact hap n1 n2 L1 L2 hne h1 h2

/-- A session whose calls each fit 32 bits and whose demand fits the capacity
runs to the end and keeps the session invariant. -/
theorem runCalls_inv (fuel : Nat) (hf : 2 ^ 32 ≤ fuel) (calls : List Call) :
    ∀ (m : MemoryMapper) (u : Nat) (seen : List String), PositiveParams m → ParamsU32 m →
      SessionInv m u seen →
      (∀ call ∈ calls, call.size + m.NumColsPerRow ≤ 2 ^ 32) →
      u + demand seen calls ≤ capacity m →
      ∃ m1 u1 seen1, runCalls fuel m calls = some m1 ∧ PositiveParams m1 ∧ ParamsU32 m1
        ∧ SessionInv m1 u1 seen1 := by
  induction calls with
  | nil =>
    intro m u seen hp hu inv _ _
    exact ⟨m, u, seen, rfl, hp, hu, inv⟩
  | cons call rest ih =>
    intro m u seen hp hu inv hfit hdem
    have hfit0 := hfit call (List.mem_cons_self _ _)
    have hfitr : ∀ c ∈ rest, c.size + m.NumColsPerRow ≤ 2 ^ 32 :=
      fun c hc => hfit c (List.mem_cons_of_mem _ hc)
    cases call with
    | allocate size =>
      simp only [demand] at hdem
      obtain ⟨l1, e1, inv1⟩ :=
        step_allocate m u seen size fuel hp hu inv hfit0 (by omega) hf
      obtain ⟨m1, u1, seen1, e2, r2⟩ :=
        ih (withCursor m l1) (u + size) seen hp hu inv1 hfitr
          (by show u + size + demand seen rest ≤ capacity m; omega)
      refine ⟨m1, u1, seen1, ?_, r2⟩
      simp only [runCalls, e1, e2]
    | mapMatrix name rows cols =>
      by_cases hm : m.isMatrixMapped name = true
      · have hin : name ∈ seen := (inv.2.2.2.1 name).mpr hm
        simp only [demand, hin, if_true] at hdem
        obtain ⟨m1, u1, seen1, e2, r2⟩ := ih m u seen hp hu inv hfitr hdem
        refine ⟨m1, u1, seen1, ?_, r2⟩
        simp only [runCalls, mapMatrix, hm, if_true, e2]
      · have hnin : name ∉ seen := fun h => hm ((inv.2.2.2.1 name).mp h)
        simp only [demand, hnin, if_false] at hdem
        have hfresh : m.isMatrixMapped name = false := by simpa using hm
        obtain ⟨l1, e1, inv1⟩ :=
          step_mapMatrix m u seen name rows cols fuel hp hu inv hfresh hfit0 (by omega) hf
        obtain ⟨m1, u1, seen1, e2, r2⟩ :=
          ih (recordLayout m l1 name rows cols) (u + rows * cols) (name :: seen) hp hu inv1
            hfitr
            (by show u + rows * cols + demand (name :: seen) rest ≤ capacity m; omega)
        refine ⟨m1, u1, seen1, ?_, r2⟩
        simp only [runCalls, e1, e2]

/-- The offset of an in-bounds element lies within the matrix. -/
theorem offset_lt (rows cols r c : Nat) (hr : r < rows) (hc : c < cols) :
    r * cols + c < rows * cols := by
  have h1 : (r + 1) * cols ≤ rows * cols := Nat.mul_le_mul_right cols hr
  have h2 : (r + 1) * cols = r * cols + cols := by ring
  omega

/-- Row-major offsets of distinct in-bounds indices are distinct. -/
theorem offset_inj (cols r1 c1 r2 c2 : Nat) (h1 : c1 < cols) (h2 : c2 < cols)
    (h : r1 * cols + c1 = r2 * cols + c2) : r1 = r2 ∧ c1 = c2 := by
  have hc : c1 = c2 := by
    have := congrArg (fun x => x % cols) h
    simpa [Nat.mul_add_mod_of_lt h1, Nat.mul_add_mod_of_lt h2] using this
  subst hc
  have hr : r1 * cols = r2 * cols := by omega
  exact ⟨Nat.eq_of_mul_eq_mul_right (by omega) hr, rfl⟩

/-- For a recorded layout, `getElementLocation` of an in-bounds element returns an
in-range location whose linear index is the start index plus the row-major
offset. -/
theorem element_linear (m : MemoryMapper) (hp : PositiveParams m) (hu : ParamsU32 m)
    (u : Nat) (hcap : u ≤ capacity m) (L : MatrixMemoryLayout) (hok : LayoutOk m u L)
    (r c fuel : Nat) (hr : r < L.rows) (hc : c < L.cols) (hf : 2 ^ 32 ≤ fuel) :
    ∃ p, getElementLocation fuel m L r c = some p ∧ InRange m p
      ∧ linear m p = linear m L.startLocation + (r * L.cols + c) := by
  obtain ⟨hmaj, ⟨sb, ss, sr, sc⟩, hwrap, hend⟩ := hok
  have hoff := offset_lt L.rows L.cols r c hr hc
  have hend1 : linear m L.startLocation + L.rows * L.cols ≤ u :=
    hend.resolve_left (by omega)
  have e1 : (r * L.cols + c) % 2 ^ 32 = r * L.cols + c := Nat.mod_eq_of_lt (by omega)
  have e2 : (L.startLocation.columnOffset + (r * L.cols + c)) % 2 ^ 32
      = L.startLocation.columnOffset + (r * L.cols + c) := Nat.mod_eq_of_lt (by omega)
  have hfuel : (L.startLocation.columnOffset + (r * L.cols + c)) / m.NumColsPerRow < fuel := by
    have := Nat.div_le_self (L.startLocation.columnOffset + (r * L.cols + c)) m.NumColsPerRow
    omega
  obtain ⟨p, ep, rp, kp⟩ := elementCarryLoop_spec m hp hu fuel
    { L.startLocation with
      columnOffset := L.startLocation.columnOffset + (r * L.cols + c) } sb ss sr hfuel
  have hlin : linear m { L.startLocation with
      columnOffset := L.startLocation.columnOffset + (r * L.cols + c) }
      = linear m L.startLocation + (r * L.cols + c) := by
    simp only [linear]
    ring
  refine ⟨p, ?_, rp, ?_⟩
  · have hib : indexOutOfBounds L r c = false := by
      simp [indexOutOfBounds, hr, hc]
    simp only [getElementLocation, hib, Bool.false_eq_true, if_false, hmaj, if_true, e1, e2]
    exact ep
  · rw [kp, hlin, Nat.mod_eq_of_lt (by omega)]

end MemoryMapper

/-! ## Claims about the allocator -/

/-- C6: from a state with positive `uint32_t` parameters and an in-range cursor,
for a size with `col + size < 2^32`, `allocateMemory` (given fuel for
`(col + size) / NumColsPerRow` passes of its loop) returns the cursor as it was,
changes nothing but the cursor, and the new cursor has linear index
`(old index + size) mod capacity`. -/
theorem MemoryMapper.allocateMemory_linear (m : MemoryMapper)
    (hp : MemoryMapper.PositiveParams m) (hu : MemoryMapper.ParamsU32 m)
    (hin : MemoryMapper.InRange m m.cursor) (size : Nat)
    (hsz : m.NextAvailableCol + size < 2 ^ 32) (fuel : Nat)
    (hf : (m.NextAvailableCol + size) / m.NumColsPerRow < fuel) :
    ∃ m1, MemoryMapper.allocateMemory fuel m size = some (m.cursor, m1)
      ∧ m1 = m.withCursor m1.cursor
      ∧ MemoryMapper.linear m m1.cursor
          = (MemoryMapper.linear m m.cursor + size) % MemoryMapper.capacity m := by
  have hf1 : ((m.NextAvailableCol + size) % 2 ^ 32) / m.NumColsPerRow < fuel := by
    rw [Nat.mod_eq_of_lt hsz]; exact hf
  obtain ⟨l1, e1, _, k1⟩ := MemoryMapper.allocateMemory_returns m hp hu hin size fuel hf1
  refine ⟨m.withCursor l1, e1, rfl, ?_⟩
  rw [← MemoryMapper.linear_advanced m size hsz]
  exact k1

/-- Witness for C6: the default mapper with the cursor at (7,15,511,2000) and
size 100: the column overflows and the carry runs through row, subarray and bank. -/
theorem MemoryMapper.allocateMemory_linear_witness :
    (2000 + 100 < 2 ^ 32 ∧ (2000 + 100) / 2048 < 2)
    ∧ ∃ m1, MemoryMapper.allocateMemory 2
          (MemoryMapper.new.withCursor
            { bankId := 7, subarrayId := 15, rowAddress := 511, columnOffset := 2000 }) 100
        = some ({ bankId := 7, subarrayId := 15, rowAddress := 511, columnOffset := 2000 }, m1) :=
  ⟨by decide,
   let ⟨m1, e, _⟩ :=
     MemoryMapper.allocateMemory_linear
       (MemoryMapper.new.withCursor
         { bankId := 7, subarrayId := 15, rowAddress := 511, columnOffset := 2000 })
       (by decide) (by decide) (by decide) 100 (by decide) 2 (by decide)
   ⟨m1, e⟩⟩

/-- C7 (as stated, refuted): with positive parameters and sizes summing to at most
the capacity the start indices need not be non-decreasing, and ranges can overlap.
After `initialize(1,1,1,2)` the sizes 1, 1, 0 (sum 2 = capacity) give the starts
(0,0,0,0), (0,0,0,1), (0,0,0,0), of linear indices 0, 1, 0.  After
`initialize(4,1,1,2^31)` the sizes `2^31-1`, `2^31+1`, 1 (sum `2^32+1`, capacity
`2^33`) wrap the 32-bit column addition of the second call, and the third call
returns (0,0,0,0) again, inside the range of the first. -/
theorem MemoryMapper.allocate_starts_counterexample :
    ([1, 1, 0].sum ≤ MemoryMapper.capacity (MemoryMapper.new.init 1 1 1 2)
      ∧ (MemoryMapper.allocateAll 8 (MemoryMapper.new.init 1 1 1 2) [1, 1, 0]).map
          (fun r => r.1.map (MemoryMapper.linear (MemoryMapper.new.init 1 1 1 2)))
        = some [0, 1, 0])
    ∧ ([2 ^ 31 - 1, 2 ^ 31 + 1, 1].sum
          ≤ MemoryMapper.capacity (MemoryMapper.new.init 4 1 1 (2 ^ 31))
      ∧ (MemoryMapper.allocateAll 8 (MemoryMapper.new.init 4 1 1 (2 ^ 31))
            [2 ^ 31 - 1, 2 ^ 31 + 1, 1]).map
          (fun r => r.1.map (MemoryMapper.linear (MemoryMapper.new.init 4 1 1 (2 ^ 31))))
        = some [0, 2 ^ 31 - 1, 0]) := by
  refine ⟨⟨by decide, by decide⟩, ⟨by decide, by decide⟩⟩

/-- C7 (amended): after `initialize` with positive `uint32_t` parameters, for sizes
whose sum is at most the capacity and none of whose column additions wraps
(the cursor column, which is the sum of the earlier sizes modulo `NumColsPerRow`,
plus the size stays below `2^32`), every call returns, the ranges
`[linear(start_i), linear(start_i) + size_i)` are pairwise disjoint, and the start
indices are non-decreasing in call order as long as the sizes before the last
call sum to less than the capacity. -/
theorem MemoryMapper.allocate_ranges_disjoint (prior : MemoryMapper) (b s r c : Nat)
    (hpos : 0 < b ∧ 0 < s ∧ 0 < r ∧ 0 < c)
    (hu32 : b < 2 ^ 32 ∧ s < 2 ^ 32 ∧ r < 2 ^ 32 ∧ c < 2 ^ 32)
    (sizes : List Nat) (hsum : sizes.sum ≤ b * s * r * c)
    (hfit : ∀ k sz, sizes[k]? = some sz → (sizes.take k).sum % c + sz < 2 ^ 32)
    (fuel : Nat) (hf : 2 ^ 32 ≤ fuel) :
    ∃ locs m1, MemoryMapper.allocateAll fuel (prior.init b s r c) sizes = some (locs, m1)
      ∧ locs.length = sizes.length
      ∧ (∀ (i j : Nat) li lj si sj, i < j → locs[i]? = some li → locs[j]? = some lj →
          sizes[i]? = some si → sizes[j]? = some sj →
          ∀ x, ¬ (MemoryMapper.linear (prior.init b s r c) li ≤ x
                  ∧ x < MemoryMapper.linear (prior.init b s r c) li + si
                  ∧ MemoryMapper.linear (prior.init b s r c) lj ≤ x
                  ∧ x < MemoryMapper.linear (prior.init b s r c) lj + sj))
      ∧ (sizes.dropLast.sum < b * s * r * c →
          ∀ (i j : Nat) li lj, i ≤ j → locs[i]? = some li → locs[j]? = some lj →
            MemoryMapper.linear (prior.init b s r c) li
              ≤ MemoryMapper.linear (prior.init b s r c) lj) := by
  have hcap : MemoryMapper.capacity (prior.init b s r c) = b * s * r * c := rfl
  obtain ⟨locs, m1, e, _, _, _, len, all⟩ :=
    MemoryMapper.allocateAll_spec fuel hf sizes (prior.init b s r c) 0 hpos hu32
      ⟨hpos.1, hpos.2.1, hpos.2.2.1, hpos.2.2.2⟩ (by simp [MemoryMapper.linear, MemoryMapper.cursor,
        MemoryMapper.init])
      (by intro k sz h; simpa using hfit k sz h)
  refine ⟨locs, m1, e, len, ?_, ?_⟩
  · intro i j li lj si sj hij hli hlj hsi hsj x hx
    obtain ⟨x1, x2, x3, x4⟩ := hx
    have ki := (all i li hli).2
    have kj := (all j lj hlj).2
    rw [Nat.zero_add, hcap] at ki kj
    have s1 := MemoryMapper.take_sum_succ sizes i si hsi
    have s2 := MemoryMapper.take_sum_succ sizes j sj hsj
    have s3 := MemoryMapper.take_sum_mono sizes (i + 1) j hij
    have s4 := MemoryMapper.take_sum_le sizes (j + 1)
    have pi : (sizes.take i).sum < b * s * r * c := by omega
    have pj : (sizes.take j).sum < b * s * r * c := by omega
    rw [Nat.mod_eq_of_lt pi] at ki
    rw [Nat.mod_eq_of_lt pj] at kj
    omega
  · intro hlast i j li lj hij hli hlj
    have ki := (all i li hli).2
    have kj := (all j lj hlj).2
    rw [Nat.zero_add, hcap] at ki kj
    have hj : j < sizes.length := by
      rw [← len]
      exact (List.getElem?_eq_some.mp hlj).1
    have s1 := MemoryMapper.take_sum_mono sizes i j hij
    have s2 := MemoryMapper.take_sum_mono sizes j (sizes.length - 1) (by omega)
    rw [List.dropLast_eq_take] at hlast
    rw [ki, kj, Nat.mod_eq_of_lt (by omega), Nat.mod_eq_of_lt (by omega)]
    exact s1

/-- Witness for C7: `initialize(2,2,2,4)` (capacity 32) and the sizes 5, 0, 27. -/
theorem MemoryMapper.allocate_ranges_disjoint_witness :
    ([5, 0, 27].sum ≤ 2 * 2 * 2 * 4)
    ∧ ∃ locs m1, MemoryMapper.allocateAll (2 ^ 32) (MemoryMapper.new.init 2 2 2 4) [5, 0, 27]
          = some (locs, m1) ∧ locs.length = [5, 0, 27].length :=
  ⟨by decide,
   let ⟨locs, m1, e, len, _⟩ :=
     MemoryMapper.allocate_ranges_disjoint MemoryMapper.new 2 2 2 4
       (by decide) (by decide) [5, 0, 27] (by decide)
       (by
         intro k sz h
         have hk : k < 3 := (List.getElem?_eq_some.mp h).1
         have hs : sz ≤ 27 := by
           obtain ⟨_, hv⟩ := List.getElem?_eq_some.mp h
           rcases k with _ | _ | _ | k
           · simp at hv; omega
           · simp at hv; omega
           · simp at hv; omega
           · omega
         have : ([5, 0, 27].take k).sum % 4 < 4 := Nat.mod_lt _ (by decide)
         omega)
       (2 ^ 32) (le_refl _)
   ⟨locs, m1, e, len⟩⟩

/-- C8 (as stated, refuted): 32-bit wrap lets two matrices share a cell although
their element counts fit the capacity.  After `initialize(4,1,1,2^31)` (capacity
`2^33`): mapping A as 65536 x 65536 allocates `2^32 mod 2^32 = 0` cells, so B
(1 x 1) starts at (0,0,0,0) as well and A[0][0], B[0][0] coincide; and mapping A as
`1 x (2^31-1)`, B as `1 x (2^31+1)`, C as 1 x 1 wraps the column addition of B's
allocation to 0, so C[0][0] coincides with A[0][0]. -/
theorem MemoryMapper.mapped_overlap_counterexample :
    (MemoryMapper.demand []
        [MemoryMapper.Call.mapMatrix "A" 65536 65536, MemoryMapper.Call.mapMatrix "B" 1 1]
        ≤ MemoryMapper.capacity (MemoryMapper.new.init 4 1 1 (2 ^ 31))
      ∧ (MemoryMapper.runCalls 8 (MemoryMapper.new.init 4 1 1 (2 ^ 31))
          [MemoryMapper.Call.mapMatrix "A" 65536 65536,
           MemoryMapper.Call.mapMatrix "B" 1 1]).map
          (fun m1 => (m1.MatrixLayouts "A", m1.MatrixLayouts "B",
            MemoryMapper.getElementLocation 8 m1 (m1.getMatrixLayout "A") 0 0,
            MemoryMapper.getElementLocation 8 m1 (m1.getMatrixLayout "B") 0 0))
        = some
            (some { startLocation := PhysicalMemoryLocation.default, rows := 65536,
                    cols := 65536, rowMajor := true },
             some { startLocation := PhysicalMemoryLocation.default, rows := 1,
                    cols := 1, rowMajor := true },
             some PhysicalMemoryLocation.default, some PhysicalMemoryLocation.default))
    ∧ (MemoryMapper.demand []
        [MemoryMapper.Call.mapMatrix "A" 1 (2 ^ 31 - 1),
         MemoryMapper.Call.mapMatrix "B" 1 (2 ^ 31 + 1), MemoryMapper.Call.mapMatrix "C" 1 1]
        ≤ MemoryMapper.capacity (MemoryMapper.new.init 4 1 1 (2 ^ 31))
      ∧ (MemoryMapper.runCalls 8 (MemoryMapper.new.init 4 1 1 (2 ^ 31))
          [MemoryMapper.Call.mapMatrix "A" 1 (2 ^ 31 - 1),
           MemoryMapper.Call.mapMatrix "B" 1 (2 ^ 31 + 1),
           MemoryMapper.Call.mapMatrix "C" 1 1]).map
          (fun m1 => (m1.MatrixLayouts "A", m1.MatrixLayouts "C",
            MemoryMapper.getElementLocation 8 m1 (m1.getMatrixLayout "A") 0 0,
            MemoryMapper.getElementLocation 8 m1 (m1.getMatrixLayout "C") 0 0))
        = some
            (some { startLocation := PhysicalMemoryLocation.default, rows := 1,
                    cols := 2 ^ 31 - 1, rowMajor := true },
             some { startLocation := PhysicalMemoryLocation.default, rows := 1,
                    cols := 1, rowMajor := true },
             some PhysicalMemoryLocation.default, some PhysicalMemoryLocation.default)) := by
  refine ⟨⟨by decide, by decide⟩, ⟨by decide, by decide⟩⟩

/-- C8 (amended): in a session started by `initialize` with positive `uint32_t`
parameters, made of `allocateMemory` and `mapMatrix` calls whose demand fits the
capacity and each of whose requested sizes (`size`, resp. `rows*cols`) is at most
`2^32 - NumColsPerRow` (so that neither `rows*cols` nor the column addition wraps),
every call returns; afterwards in-bounds elements of two distinct mapped names
have distinct locations under `getElementLocation`, and so have distinct
in-bounds index pairs of one mapped matrix. -/
theorem MemoryMapper.mapped_matrices_disjoint (prior : MemoryMapper) (b s r c : Nat)
    (hpos : 0 < b ∧ 0 < s ∧ 0 < r ∧ 0 < c)
    (hu32 : b < 2 ^ 32 ∧ s < 2 ^ 32 ∧ r < 2 ^ 32 ∧ c < 2 ^ 32)
    (calls : List MemoryMapper.Call)
    (hdem : MemoryMapper.demand [] calls ≤ b * s * r * c)
    (hfit : ∀ call ∈ calls, call.size + c ≤ 2 ^ 32)
    (fuel : Nat) (hf : 2 ^ 32 ≤ fuel) :
    ∃ m1, MemoryMapper.runCalls fuel (prior.init b s r c) calls = some m1
      ∧ (∀ n1 n2 L1 L2 r1 c1 r2 c2, n1 ≠ n2 →
          m1.MatrixLayouts n1 = some L1 → m1.MatrixLayouts n2 = some L2 →
          r1 < L1.rows → c1 < L1.cols → r2 < L2.rows → c2 < L2.cols →
          ∃ p1 p2, MemoryMapper.getElementLocation fuel m1 L1 r1 c1 = some p1
            ∧ MemoryMapper.getElementLocation fuel m1 L2 r2 c2 = some p2 ∧ p1 ≠ p2)
      ∧ (∀ n L r1 c1 r2 c2, m1.MatrixLayouts n = some L →
          r1 < L.rows → c1 < L.cols → r2 < L.rows → c2 < L.cols → (r1, c1) ≠ (r2, c2) →
          ∃ p1 p2, MemoryMapper.getElementLocation fuel m1 L r1 c1 = some p1
            ∧ MemoryMapper.getElementLocation fuel m1 L r2 c2 = some p2 ∧ p1 ≠ p2) := by
  have inv0 : MemoryMapper.SessionInv (prior.init b s r c) 0 [] := by
    refine ⟨Nat.zero_le _, ⟨hpos.1, hpos.2.1, hpos.2.2.1, hpos.2.2.2⟩, ?_, ?_, ?_, ?_⟩
    · simp [MemoryMapper.linear, MemoryMapper.cursor, MemoryMapper.init]
    · intro n
      simp [MemoryMapper.isMatrixMapped, MemoryMapper.init]
    · intro n L h
      simp [MemoryMapper.init] at h
    · intro n1 n2 L1 L2 _ h
      simp [MemoryMapper.init] at h
  obtain ⟨m1, u1, seen1, e, hp1, hu1, hcap1, _, _, _, hok, hap⟩ :=
    MemoryMapper.runCalls_inv fuel hf calls (prior.init b s r c) 0 [] hpos hu32 inv0 hfit
      (by show 0 + MemoryMapper.demand [] calls ≤ b * s * r * c; omega)
  refine ⟨m1, e, ?_, ?_⟩
  · intro n1 n2 L1 L2 r1 c1 r2 c2 hne h1 h2 hr1 hc1 hr2 hc2
    obtain ⟨p1, e1, _, k1⟩ :=
      MemoryMapper.element_linear m1 hp1 hu1 u1 hcap1 L1 (hok n1 L1 h1) r1 c1 fuel hr1 hc1 hf
    obtain ⟨p2, e2, _, k2⟩ :=
      MemoryMapper.element_linear m1 hp1 hu1 u1 hcap1 L2 (hok n2 L2 h2) r2 c2 fuel hr2 hc2 hf
    refine ⟨p1, p2, e1, e2, ?_⟩
    intro hp
    rw [hp, k2] at k1
    have o1 := MemoryMapper.offset_lt L1.rows L1.cols r1 c1 hr1 hc1
    have o2 := MemoryMapper.offset_lt L2.rows L2.cols r2 c2 hr2 hc2
    rcases hap n1 n2 L1 L2 hne h1 h2 with h | h | h | h <;> omega
  · intro n L r1 c1 r2 c2 h hr1 hc1 hr2 hc2 hne
    obtain ⟨p1, e1, _, k1⟩ :=
      MemoryMapper.element_linear m1 hp1 hu1 u1 hcap1 L (hok n L h) r1 c1 fuel hr1 hc1 hf
    obtain ⟨p2, e2, _, k2⟩ :=
      MemoryMapper.element_linear m1 hp1 hu1 u1 hcap1 L (hok n L h) r2 c2 fuel hr2 hc2 hf
    refine ⟨p1, p2, e1, e2, ?_⟩
    intro hp
    rw [hp, k2] at k1
    obtain ⟨a1, a2⟩ := MemoryMapper.offset_inj L.cols r2 c2 r1 c1 hc2 hc1 (by omega)
    exact hne (by rw [a1, a2])

/-- Witness for C8: after `initialize(2,2,2,4)` (capacity 32) the session maps A as
2 x 3, allocates one cell, maps B as 3 x 2 and maps A again. -/
theorem MemoryMapper.mapped_matrices_disjoint_witness :
    (MemoryMapper.demand []
        [MemoryMapper.Call.mapMatrix "A" 2 3, MemoryMapper.Call.allocate 1,
         MemoryMapper.Call.mapMatrix "B" 3 2, MemoryMapper.Call.mapMatrix "A" 5 5]
        ≤ 2 * 2 * 2 * 4)
    ∧ ∃ m1, MemoryMapper.runCalls (2 ^ 32) (MemoryMapper.new.init 2 2 2 4)
          [MemoryMapper.Call.mapMatrix "A" 2 3, MemoryMapper.Call.allocate 1,
           MemoryMapper.Call.mapMatrix "B" 3 2, MemoryMapper.Call.mapMatrix "A" 5 5]
          = some m1
        ∧ ∀ L1 L2, m1.MatrixLayouts "A" = some L1 → m1.MatrixLayouts "B" = some L2 →
            1 < L1.rows → 2 < L1.cols → 0 < L2.rows → 0 < L2.cols →
            ∃ p1 p2, MemoryMapper.getElementLocation (2 ^ 32) m1 L1 1 2 = some p1
              ∧ MemoryMapper.getElementLocation (2 ^ 32) m1 L2 0 0 = some p2 ∧ p1 ≠ p2 :=
  ⟨by decide,
   let ⟨m1, e, h, _⟩ :=
     MemoryMapper.mapped_matrices_disjoint MemoryMapper.new 2 2 2 4
       (by decide) (by decide)
       [MemoryMapper.Call.mapMatrix "A" 2 3, MemoryMapper.Call.allocate 1,
        MemoryMapper.Call.mapMatrix "B" 3 2, MemoryMapper.Call.mapMatrix "A" 5 5]
       (by decide) (by decide) (2 ^ 32) (le_refl _)
   ⟨m1, e, fun L1 L2 h1 h2 a1 a2 a3 a4 =>
     h "A" "B" L1 L2 1 2 0 0 (by decide) h1 h2 a1 a2 a3 a4⟩⟩

/-- C9 (as stated, refuted): after `initialize(3,1,1,2^31)` the sizes `2^31-1`,
`2^31+1`, `2^31` sum to exactly the capacity `3*2^31`, but the column addition
of the second call wraps modulo `2^32` and the final cursor is (1,0,0,0). -/
theorem MemoryMapper.wraparound_counterexample :
    [2 ^ 31 - 1, 2 ^ 31 + 1, 2 ^ 31].sum
        = MemoryMapper.capacity (MemoryMapper.new.init 3 1 1 (2 ^ 31))
    ∧ (MemoryMapper.allocateAll 8 (MemoryMapper.new.init 3 1 1 (2 ^ 31))
          [2 ^ 31 - 1, 2 ^ 31 + 1, 2 ^ 31]).map (fun r => r.2.cursor)
        = some { bankId := 1, subarrayId := 0, rowAddress := 0, columnOffset := 0 } := by
  refine ⟨by decide, by decide⟩

/-- C9 (amended): after `initialize` with positive `uint32_t` parameters, for sizes
that sum to exactly the capacity and none of whose column additions wraps, every
call returns without error, the cursor ends at (0,0,0,0), and the next
`allocateMemory`, whatever its size, returns (0,0,0,0), the location returned by
the first allocation of the session. -/
theorem MemoryMapper.wraparound_to_origin (prior : MemoryMapper) (b s r c : Nat)
    (hpos : 0 < b ∧ 0 < s ∧ 0 < r ∧ 0 < c)
    (hu32 : b < 2 ^ 32 ∧ s < 2 ^ 32 ∧ r < 2 ^ 32 ∧ c < 2 ^ 32)
    (sizes : List Nat) (hsum : sizes.sum = b * s * r * c)
    (hfit : ∀ k sz, sizes[k]? = some sz → (sizes.take k).sum % c + sz < 2 ^ 32)
    (fuel : Nat) (hf : 2 ^ 32 ≤ fuel) :
    ∃ locs m1, MemoryMapper.allocateAll fuel (prior.init b s r c) sizes = some (locs, m1)
      ∧ m1.cursor = PhysicalMemoryLocation.default
      ∧ locs.head? = some PhysicalMemoryLocation.default
      ∧ ∀ size, ∃ m2, MemoryMapper.allocateMemory fuel m1 size
          = some (PhysicalMemoryLocation.default, m2) := by
  have hcap : MemoryMapper.capacity (prior.init b s r c) = b * s * r * c := rfl
  have hp0 : MemoryMapper.PositiveParams (prior.init b s r c) := hpos
  obtain ⟨locs, m1, e, sp, cin, clin, len, all⟩ :=
    MemoryMapper.allocateAll_spec fuel hf sizes (prior.init b s r c) 0 hpos hu32
      ⟨hpos.1, hpos.2.1, hpos.2.2.1, hpos.2.2.2⟩ (by simp [MemoryMapper.linear, MemoryMapper.cursor,
        MemoryMapper.init])
      (by intro k sz h; simpa using hfit k sz h)
  rw [Nat.zero_add, hcap, hsum, Nat.mod_self] at clin
  have hc1 := MemoryMapper.linear_eq_zero _ hp0 _ clin
  obtain ⟨e1, e2, e3, e4⟩ := sp
  have hp1 : MemoryMapper.PositiveParams m1 := by
    unfold MemoryMapper.PositiveParams
    rw [e1, e2, e3, e4]
    exact hpos
  have hu1 : MemoryMapper.ParamsU32 m1 := by
    unfold MemoryMapper.ParamsU32
    rw [e1, e2, e3, e4]
    exact hu32
  have hin1 : MemoryMapper.InRange m1 m1.cursor := by
    unfold MemoryMapper.InRange
    rw [e1, e2, e3, e4]
    exact cin
  refine ⟨locs, m1, e, hc1, ?_, ?_⟩
  · cases sizes with
    | nil =>
      have hcp := MemoryMapper.capacity_pos _ hp0
      rw [hcap] at hcp
      simp at hsum
      omega
    | cons sz rest =>
      cases locs with
      | nil => simp at len
      | cons l ls =>
        have h0 := (all 0 l (by simp)).2
        simp only [List.take_zero, List.sum_nil, Nat.add_zero, Nat.zero_mod] at h0
        rw [List.head?_cons, MemoryMapper.linear_eq_zero _ hp0 _ h0]
  · intro size
    obtain ⟨l2, e2, _, _⟩ := MemoryMapper.allocateMemory_returns m1 hp1 hu1 hin1 size fuel
      (MemoryMapper.allocate_fuel m1 size fuel hf)
    rw [hc1] at e2
    exact ⟨_, e2⟩

/-- Witness for C9: `initialize(2,1,2,3)` (capacity 12) and the sizes 7, 5. -/
theorem MemoryMapper.wraparound_to_origin_witness :
    ([7, 5].sum = 2 * 1 * 2 * 3)
    ∧ ∃ locs m1, MemoryMapper.allocateAll (2 ^ 32) (MemoryMapper.new.init 2 1 2 3) [7, 5]
          = some (locs, m1) ∧ m1.cursor = PhysicalMemoryLocation.default :=
  ⟨by decide,
   let ⟨locs, m1, e, hc, _⟩ :=
     MemoryMapper.wraparound_to_origin MemoryMapper.new 2 1 2 3
       (by decide) (by decide) [7, 5] (by decide)
       (by
         intro k sz h
         have hs : sz ≤ 7 := by
           obtain ⟨hk, hv⟩ := List.getElem?_eq_some.mp h
           rcases k with _ | _ | k
           · simp at hv; omega
           · simp at hv; omega
           · have hk2 : k + 1 + 1 < 2 := hk
             omega
         have : ([7, 5].take k).sum % 3 < 3 := Nat.mod_lt _ (by decide)
         omega)
       (2 ^ 32) (le_refl _)
   ⟨locs, m1, e, hc⟩⟩

/-- C10: whatever the prior state and the arguments, after `initialize` the cursor
is (0,0,0,0), no matrix name is mapped, no value location is recorded, the four
architecture parameters are the arguments, and `NumClustersPerSubarray` is
unchanged. -/
theorem MemoryMapper.init_resets (prior : MemoryMapper) (b s r c : Nat) :
    (prior.init b s r c).cursor = PhysicalMemoryLocation.default
    ∧ (∀ name, (prior.init b s r c).isMatrixMapped name = false)
    ∧ (∀ name, (prior.init b s r c).getMatrixLayout name = MatrixMemoryLayout.default)
    ∧ (∀ v, (prior.init b s r c).ValueLocations v = none)
    ∧ (prior.init b s r c).NumBanks = b
    ∧ (prior.init b s r c).NumSubarraysPerBank = s
    ∧ (prior.init b s r c).NumRowsPerSubarray = r
    ∧ (prior.init b s r c).NumColsPerRow = c
    ∧ (prior.init b s r c).NumClustersPerSubarray = prior.NumClustersPerSubarray :=
  ⟨rfl, fun _ => rfl, fun _ => rfl, fun _ => rfl, rfl, rfl, rfl, rfl, rfl⟩

/-! ## Claims about `mapMatrix` and `getElementLocation` -/

namespace MemoryMapper

/-- The column after one pass of the carry chain, whatever the location. -/
theorem elementCarryBody_col (m : MemoryMapper) (l : PhysicalMemoryLocation) :
    (elementCarryBody m l).columnOffset = l.columnOffset - m.NumColsPerRow := by
  unfold elementCarryBody
  simp only []
  split_ifs <;> rfl

/-- With `NumColsPerRow >= 1` the carry loop exits from every location once the
fuel exceeds `columnOffset / NumColsPerRow`. -/
theorem elementCarryLoop_terminates (m : MemoryMapper) (hC : 0 < m.NumColsPerRow)
    (fuel : Nat) (l : PhysicalMemoryLocation)
    (hf : l.columnOffset / m.NumColsPerRow < fuel) :
    ∃ l1, elementCarryLoop m fuel l = some l1 := by
  induction fuel generalizing l with
  | zero => exact absurd hf (Nat.not_lt_zero _)
  | succ n ih =>
    unfold elementCarryLoop
    by_cases hc : m.NumColsPerRow ≤ l.columnOffset
    · simp only [ge_iff_le, hc, if_true]
      apply ih
      rw [elementCarryBody_col]
      have := Nat.div_eq_sub_div hC hc
      omega
    · simp only [ge_iff_le, hc, if_false]
      exact ⟨l, rfl⟩

/-- With `NumColsPerRow >= 1` and fuel `2^32`, `allocateMemory` returns from every
state. -/
theorem allocateMemory_terminates (m : MemoryMapper) (hC : 0 < m.NumColsPerRow)
    (size fuel : Nat) (hf : 2 ^ 32 ≤ fuel) :
    ∃ l1, allocateMemory fuel m size = some (cursor m, withCursor m l1) := by
  obtain ⟨l1, e1⟩ := elementCarryLoop_terminates m hC fuel (advanced m size)
    (allocate_fuel m size fuel hf)
  refine ⟨l1, ?_⟩
  unfold allocateMemory
  simp only []
  rw [allocateCarryLoop_eq]
  have h0 : elementCarryLoop (withCursor m (advanced m size)) fuel
      (cursor (withCursor m (advanced m size))) = some l1 := by
    rw [elementCarryLoop_withCursor]
    exact e1
  have h1 : ({ m with NextAvailableCol := (m.NextAvailableCol + size) % 2 ^ 32 } : MemoryMapper)
      = withCursor m (advanced m size) := rfl
  rw [h1, h0]
  rfl

/-- Whenever `allocateMemory` returns, it returns the old cursor and a state that
differs from the old one in the cursor only. -/
theorem allocateMemory_shape (fuel : Nat) (m : MemoryMapper) (size : Nat)
    (l : PhysicalMemoryLocation) (m1 : MemoryMapper)
    (h : allocateMemory fuel m size = some (l, m1)) :
    ∃ l1, l = cursor m ∧ m1 = withCursor m l1 := by
  unfold allocateMemory at h
  simp only [] at h
  rw [allocateCarryLoop_eq] at h
  have h1 : ({ m with NextAvailableCol := (m.NextAvailableCol + size) % 2 ^ 32 } : MemoryMapper)
      = withCursor m (advanced m size) := rfl
  rw [h1, elementCarryLoop_withCursor] at h
  cases hc : elementCarryLoop m fuel (cursor (withCursor m (advanced m size))) with
  | none => rw [hc] at h; simp at h
  | some l1 =>
    rw [hc] at h
    simp only [Option.map_some', Option.some.injEq, Prod.mk.injEq] at h
    exact ⟨l1, h.1.symm, h.2.symm⟩

/-- The result of `mapMatrix` for a fresh name in terms of `allocateMemory`. -/
theorem mapMatrix_new_eq (fuel : Nat) (m : MemoryMapper) (name : String) (rows cols : Nat)
    (hfresh : m.isMatrixMapped name = false) :
    (allocateMemory fuel m ((rows * cols) % 2 ^ 32) = none →
      mapMatrix fuel m name rows cols = none)
    ∧ (∀ l1, allocateMemory fuel m ((rows * cols) % 2 ^ 32)
          = some (cursor m, withCursor m l1) →
        mapMatrix fuel m name rows cols
          = some (freshLayout m rows cols, recordLayout m l1 name rows cols)) := by
  unfold mapMatrix
  simp only [hfresh, Bool.false_eq_true, if_false]
  refine ⟨?_, ?_⟩
  · intro h
    rw [h]
  · intro l1 h
    rw [h]
    rfl

end MemoryMapper

/-- C11: if `name` is already mapped with stored layout `L`, then `mapMatrix` of
that name returns `L` for all `rows2`, `cols2` (whatever the fuel) and leaves the
whole allocator state unchanged. -/
theorem MemoryMapper.mapMatrix_idempotent (fuel : Nat) (m : MemoryMapper) (name : String)
    (L : MatrixMemoryLayout) (rows2 cols2 : Nat) (h : m.MatrixLayouts name = some L) :
    MemoryMapper.mapMatrix fuel m name rows2 cols2 = some (L, m) := by
  unfold MemoryMapper.mapMatrix
  simp [MemoryMapper.isMatrixMapped, MemoryMapper.getMatrixLayout, h]

/-- Witness for C11: in the default mapper with "A" recorded as a 2 x 3 matrix at
(0,0,0,0), mapping "A" again as 5 x 7 returns the 2 x 3 layout. -/
theorem MemoryMapper.mapMatrix_idempotent_witness :
    (MemoryMapper.recordLayout MemoryMapper.new ⟨0, 0, 0, 6⟩ "A" 2 3).MatrixLayouts "A"
        = some (MemoryMapper.freshLayout MemoryMapper.new 2 3)
    ∧ MemoryMapper.mapMatrix 0 (MemoryMapper.recordLayout MemoryMapper.new ⟨0, 0, 0, 6⟩ "A" 2 3)
          "A" 5 7
        = some (MemoryMapper.freshLayout MemoryMapper.new 2 3,
                MemoryMapper.recordLayout MemoryMapper.new ⟨0, 0, 0, 6⟩ "A" 2 3) :=
  ⟨rfl, MemoryMapper.mapMatrix_idempotent 0 _ "A" _ 5 7 rfl⟩

/-- C12: if `name` is not yet mapped, `mapMatrix` returns exactly when
`allocateMemory(rows*cols mod 2^32)` does (always, for `NumColsPerRow >= 1` and
fuel `2^32`); it returns the row-major layout starting at the old cursor, its new
state has the cursor and everything else of the state after that allocation, except
that `name` is mapped to the returned layout; other names keep their layouts. -/
theorem MemoryMapper.mapMatrix_fresh (fuel : Nat) (m : MemoryMapper) (name : String)
    (rows cols : Nat) (hfresh : m.isMatrixMapped name = false) :
    (MemoryMapper.allocateMemory fuel m ((rows * cols) % 2 ^ 32) = none →
        MemoryMapper.mapMatrix fuel m name rows cols = none)
    ∧ (∀ l m1, MemoryMapper.allocateMemory fuel m ((rows * cols) % 2 ^ 32) = some (l, m1) →
        ∃ m2, MemoryMapper.mapMatrix fuel m name rows cols
            = some ({ startLocation := m.cursor, rows := rows, cols := cols,
                      rowMajor := true }, m2)
          ∧ m2.cursor = m1.cursor
          ∧ m2.isMatrixMapped name = true
          ∧ m2.getMatrixLayout name
              = { startLocation := m.cursor, rows := rows, cols := cols, rowMajor := true }
          ∧ (∀ other, other ≠ name → m2.MatrixLayouts other = m.MatrixLayouts other)
          ∧ m2.ValueLocations = m.ValueLocations
          ∧ MemoryMapper.SameParams m m2)
    ∧ (0 < m.NumColsPerRow → 2 ^ 32 ≤ fuel →
        ∃ x, MemoryMapper.mapMatrix fuel m name rows cols = some x) := by
  have key := MemoryMapper.mapMatrix_new_eq fuel m name rows cols hfresh
  refine ⟨key.1, ?_, ?_⟩
  · intro l m1 h
    obtain ⟨l1, hl, hm⟩ := MemoryMapper.allocateMemory_shape fuel m _ l m1 h
    subst hl hm
    refine ⟨_, key.2 l1 h, rfl, ?_, ?_, ?_, rfl, ⟨rfl, rfl, rfl, rfl⟩⟩
    · simp [MemoryMapper.isMatrixMapped, MemoryMapper.recordLayout]
    · simp [MemoryMapper.getMatrixLayout, MemoryMapper.recordLayout,
        MemoryMapper.freshLayout]
    · intro other ho
      simp [MemoryMapper.recordLayout, ho]
  · intro hC hf
    obtain ⟨l1, e1⟩ :=
      MemoryMapper.allocateMemory_terminates m hC ((rows * cols) % 2 ^ 32) fuel hf
    exact ⟨_, key.2 l1 e1⟩

/-- Witness for C12: the default mapper, the fresh name "A", shape 2 x 3. -/
theorem MemoryMapper.mapMatrix_fresh_witness :
    MemoryMapper.new.isMatrixMapped "A" = false
    ∧ ∃ x, MemoryMapper.mapMatrix (2 ^ 32) MemoryMapper.new "A" 2 3 = some x :=
  ⟨rfl, (MemoryMapper.mapMatrix_fresh (2 ^ 32) MemoryMapper.new "A" 2 3 rfl).2.2
    (by decide) (le_refl _)⟩

/-- C13: `getElementLocation` takes its out-of-bounds branch exactly when
`row >= rows` or `col >= cols`; in that branch it returns (0,0,0,0) whatever the
start location (and whatever the fuel); for in-bounds indices it runs the carry
loop on the start location with the column advanced by the offset. -/
theorem MemoryMapper.getElementLocation_bounds (matrix : MatrixMemoryLayout)
    (row col : Nat) :
    (MemoryMapper.indexOutOfBounds matrix row col = true
        ↔ (row ≥ matrix.rows ∨ col ≥ matrix.cols))
    ∧ (∀ fuel m start, (row ≥ matrix.rows ∨ col ≥ matrix.cols) →
        MemoryMapper.getElementLocation fuel m { matrix with startLocation := start } row col
          = some PhysicalMemoryLocation.default)
    ∧ (∀ fuel m, row < matrix.rows → col < matrix.cols →
        MemoryMapper.indexOutOfBounds matrix row col = false
        ∧ MemoryMapper.getElementLocation fuel m matrix row col
          = MemoryMapper.elementCarryLoop m fuel
              { matrix.startLocation with
                columnOffset := (matrix.startLocation.columnOffset
                  + (MemoryMapper.elementOffset matrix row col) % 2 ^ 32) % 2 ^ 32 }) := by
  have hiff : MemoryMapper.indexOutOfBounds matrix row col = true
      ↔ (row ≥ matrix.rows ∨ col ≥ matrix.cols) := by
    simp [MemoryMapper.indexOutOfBounds]
  refine ⟨hiff, ?_, ?_⟩
  · intro fuel m start h
    have h1 : MemoryMapper.indexOutOfBounds { matrix with startLocation := start } row col
        = true := hiff.mpr h
    simp [MemoryMapper.getElementLocation, h1]
  · intro fuel m hr hc
    have h1 : MemoryMapper.indexOutOfBounds matrix row col = false := by
      simp [MemoryMapper.indexOutOfBounds, hr, hc]
    refine ⟨h1, ?_⟩
    simp only [MemoryMapper.getElementLocation, h1, Bool.false_eq_true, if_false,
      MemoryMapper.elementOffset]
    split_ifs <;> rfl

/-- Witness for C13: a 3 x 4 layout starting at (1,2,3,4); index (3,0) is out of
bounds and gives (0,0,0,0), index (2,3) is in bounds. -/
theorem MemoryMapper.getElementLocation_bounds_witness :
    ((3 ≥ 3 ∨ 0 ≥ 4)
      ∧ MemoryMapper.getElementLocation 0 MemoryMapper.new
          { startLocation := ⟨1, 2, 3, 4⟩, rows := 3, cols := 4, rowMajor := true } 3 0
        = some PhysicalMemoryLocation.default)
    ∧ ((2 < 3 ∧ 3 < 4)
      ∧ MemoryMapper.indexOutOfBounds
          { startLocation := ⟨0, 0, 0, 0⟩, rows := 3, cols := 4, rowMajor := true } 2 3
        = false) :=
  ⟨⟨by decide,
    (MemoryMapper.getElementLocation_bounds
      { startLocation := ⟨0, 0, 0, 0⟩, rows := 3, cols := 4, rowMajor := true } 3 0).2.1
      0 MemoryMapper.new ⟨1, 2, 3, 4⟩ (by decide)⟩,
   ⟨by decide,
    ((MemoryMapper.getElementLocation_bounds
      { startLocation := ⟨0, 0, 0, 0⟩, rows := 3, cols := 4, rowMajor := true } 2 3).2.2
      0 MemoryMapper.new (by decide) (by decide)).1⟩⟩

namespace MemoryMapper

/-- The result of `allocateMemory` in terms of the carry loop of
`getElementLocation`. -/
theorem allocateMemory_eq (fuel : Nat) (m : MemoryMapper) (size : Nat) :
    allocateMemory fuel m size
      = (elementCarryLoop m fuel (advanced m size)).map
          (fun l1 => (cursor m, withCursor m l1)) := by
  unfold allocateMemory
  simp only []
  rw [allocateCarryLoop_eq]
  have h1 : ({ m with NextAvailableCol := (m.NextAvailableCol + size) % 2 ^ 32 } : MemoryMapper)
      = withCursor m (advanced m size) := rfl
  have h2 : cursor (withCursor m (advanced m size)) = advanced m size := rfl
  rw [h1, elementCarryLoop_withCursor, h2]
  cases elementCarryLoop m fuel (advanced m size) with
  | none => rfl
  | some l1 => rfl

/-- An in-bounds `getElementLocation` on a layout whose start is in range returns
an in-range location whose linear index is the start index plus the 32-bit column
sum, modulo the capacity. -/
theorem getElementLocation_spec (m : MemoryMapper) (hp : PositiveParams m) (hu : ParamsU32 m)
    (L : MatrixMemoryLayout) (hin : InRange m L.startLocation) (row col fuel : Nat)
    (hr : row < L.rows) (hc : col < L.cols) (hf : 2 ^ 32 ≤ fuel) :
    ∃ p, getElementLocation fuel m L row col = some p ∧ InRange m p
      ∧ linear m p
        = linear m { L.startLocation with
            columnOffset := (L.startLocation.columnOffset
              + (elementOffset L row col) % 2 ^ 32) % 2 ^ 32 } % capacity m := by
  obtain ⟨sb, ss, sr, _⟩ := hin
  have hlt : (L.startLocation.columnOffset + (elementOffset L row col) % 2 ^ 32) % 2 ^ 32
      < 2 ^ 32 := Nat.mod_lt _ (by norm_num)
  have hfuel : ((L.startLocation.columnOffset + (elementOffset L row col) % 2 ^ 32) % 2 ^ 32)
      / m.NumColsPerRow < fuel := by
    have := Nat.div_le_self
      ((L.startLocation.columnOffset + (elementOffset L row col) % 2 ^ 32) % 2 ^ 32)
      m.NumColsPerRow
    omega
  obtain ⟨p, ep, rp, kp⟩ := elementCarryLoop_spec m hp hu fuel
    { L.startLocation with
      columnOffset := (L.startLocation.columnOffset
        + (elementOffset L row col) % 2 ^ 32) % 2 ^ 32 } sb ss sr hfuel
  refine ⟨p, ?_, rp, kp⟩
  have hib : indexOutOfBounds L row col = false := by
    simp [indexOutOfBounds, hr, hc]
  rw [← ep]
  simp only [getElementLocation, hib, Bool.false_eq_true, if_false, elementOffset]
  split_ifs <;> rfl

/-- States with the same parameters have the same notion of range. -/
theorem InRange.congr (m m1 : MemoryMapper) (h : SameParams m m1)
    (l : PhysicalMemoryLocation) : InRange m1 l ↔ InRange m l := by
  obtain ⟨e1, e2, e3, e4⟩ := h
  unfold InRange
  rw [e1, e2, e3, e4]

/-- Every session from a normalized state runs to the end, stays normalized and
returns only in-range locations. -/
theorem runCallsLog_normalized (fuel : Nat) (hf : 2 ^ 32 ≤ fuel) (calls : List Call) :
    ∀ (m : MemoryMapper), Normalized m →
      ∃ locs m1, runCallsLog fuel m calls = some (locs, m1) ∧ Normalized m1
        ∧ SameParams m m1 ∧ ∀ l ∈ locs, InRange m l := by
  induction calls with
  | nil =>
    intro m hn
    exact ⟨[], m, rfl, hn, ⟨rfl, rfl, rfl, rfl⟩, by simp⟩
  | cons call rest ih =>
    intro m hn
    obtain ⟨hp, hu, hin, hlay⟩ := hn
    cases call with
    | allocate size =>
      obtain ⟨l1, e1, r1, _⟩ :=
        allocateMemory_returns m hp hu hin size fuel (allocate_fuel m size fuel hf)
      obtain ⟨locs, m1, e2, n2, sp2, in2⟩ := ih (withCursor m l1) ⟨hp, hu, r1, hlay⟩
      refine ⟨cursor m :: locs, m1, ?_, n2, sp2, ?_⟩
      · simp only [runCallsLog, e1, e2]
      · intro l hl
        rcases List.mem_cons.mp hl with h | h
        · rw [h]; exact hin
        · exact in2 l h
    | mapMatrix name rows cols =>
      by_cases hm : m.isMatrixMapped name = true
      · obtain ⟨locs, m1, e2, n2, sp2, in2⟩ := ih m ⟨hp, hu, hin, hlay⟩
        refine ⟨locs, m1, ?_, n2, sp2, in2⟩
        simp only [runCallsLog, mapMatrix, hm, if_true, e2]
      · have hfresh : m.isMatrixMapped name = false := by simpa using hm
        obtain ⟨l1, e1, r1, _⟩ :=
          allocateMemory_returns m hp hu hin ((rows * cols) % 2 ^ 32) fuel
            (allocate_fuel m _ fuel hf)
        have e3 := (mapMatrix_new_eq fuel m name rows cols hfresh).2 l1 e1
        have hn1 : Normalized (recordLayout m l1 name rows cols) := by
          refine ⟨hp, hu, r1, ?_⟩
          intro n L h
          by_cases hnn : n = name
          · simp only [recordLayout, hnn, if_true, Option.some.injEq] at h
            rw [← h]
            exact hin
          · simp only [recordLayout, hnn, if_false] at h
            exact hlay n L h
        obtain ⟨locs, m1, e2, n2, sp2, in2⟩ := ih (recordLayout m l1 name rows cols) hn1
        refine ⟨cursor m :: locs, m1, ?_, n2, sp2, ?_⟩
        · simp only [runCallsLog, e3, e2, hfresh, Bool.false_eq_true, if_false]
          rfl
        · intro l hl
          rcases List.mem_cons.mp hl with h | h
          · rw [h]; exact hin
          · exact in2 l h

/-- The logging session reaches the same state as the plain session. -/
theorem runCallsLog_state (fuel : Nat) (calls : List Call) :
    ∀ (m : MemoryMapper), (runCallsLog fuel m calls).map (fun x => x.2) = runCalls fuel m calls := by
  induction calls with
  | nil => intro m; rfl
  | cons call rest ih =>
    intro m
    cases call with
    | allocate size =>
      simp only [runCallsLog, runCalls]
      cases allocateMemory fuel m size with
      | none => rfl
      | some x =>
        simp only []
        rw [← ih x.2]
        cases runCallsLog fuel x.2 rest with
        | none => rfl
        | some y => rfl
    | mapMatrix name rows cols =>
      simp only [runCallsLog, runCalls]
      cases mapMatrix fuel m name rows cols with
      | none => rfl
      | some x =>
        simp only []
        rw [← ih x.2]
        cases runCallsLog fuel x.2 rest with
        | none => rfl
        | some y =>
          simp only []
          split_ifs <;> rfl

end MemoryMapper

/-- C14: for positive `uint32_t` parameters, a layout whose start is in range and an
in-bounds `(row, col)` whose column sum `start.columnOffset + offset` stays below
`2^32` (offset `row*cols + col` if row-major, `col*rows + row` otherwise),
`getElementLocation` returns a location with linear index
`(linear(start) + offset) mod capacity` and with all four components in range. -/
theorem MemoryMapper.getElementLocation_linear (m : MemoryMapper)
    (hp : MemoryMapper.PositiveParams m) (hu : MemoryMapper.ParamsU32 m)
    (L : MatrixMemoryLayout) (hin : MemoryMapper.InRange m L.startLocation)
    (row col : Nat) (hr : row < L.rows) (hc : col < L.cols)
    (hov : L.startLocation.columnOffset
      + (if L.rowMajor then row * L.cols + col else col * L.rows + row) < 2 ^ 32)
    (fuel : Nat) (hf : 2 ^ 32 ≤ fuel) :
    ∃ p, MemoryMapper.getElementLocation fuel m L row col = some p
      ∧ MemoryMapper.linear m p
          = (MemoryMapper.linear m L.startLocation
              + (if L.rowMajor then row * L.cols + col else col * L.rows + row))
            % MemoryMapper.capacity m
      ∧ p.bankId < m.NumBanks ∧ p.subarrayId < m.NumSubarraysPerBank
      ∧ p.rowAddress < m.NumRowsPerSubarray ∧ p.columnOffset < m.NumColsPerRow := by
  obtain ⟨p, ep, rp, kp⟩ :=
    MemoryMapper.getElementLocation_spec m hp hu L hin row col fuel hr hc hf
  refine ⟨p, ep, ?_, rp⟩
  have hoff : MemoryMapper.elementOffset L row col
      = (if L.rowMajor then row * L.cols + col else col * L.rows + row) := rfl
  rw [kp, hoff, Nat.mod_eq_of_lt (a := (if L.rowMajor then row * L.cols + col
    else col * L.rows + row)) (by omega), Nat.mod_eq_of_lt hov]
  congr 1
  simp only [MemoryMapper.linear]
  ring

/-- Witness for C14: the default mapper, a column-major 3 x 4 layout starting at
(7,15,511,2040), element (2,3): the column sum 2040 + 11 carries through row,
subarray and bank. -/
theorem MemoryMapper.getElementLocation_linear_witness :
    (2 < 3 ∧ 3 < 4)
    ∧ ∃ p, MemoryMapper.getElementLocation (2 ^ 32) MemoryMapper.new
        { startLocation := ⟨7, 15, 511, 2040⟩, rows := 3, cols := 4, rowMajor := false } 2 3
        = some p ∧ p.bankId < 8 :=
  ⟨by decide,
   let ⟨p, e, _, hb, _⟩ :=
     MemoryMapper.getElementLocation_linear MemoryMapper.new (by decide) (by decide)
       { startLocation := ⟨7, 15, 511, 2040⟩, rows := 3, cols := 4, rowMajor := false }
       (by decide) 2 3 (by decide) (by decide) (by decide) (2 ^ 32) (le_refl _)
   ⟨p, e, hb⟩⟩

/-- C15: for a row-major layout and an in-bounds `(row, col)`, `getElementLocation`
yields exactly the cursor that `allocateMemory(row*cols + col)` leaves when the
allocation cursor is placed at the layout start (for every configuration and every
fuel; both return when `NumColsPerRow >= 1` and the fuel is `2^32`).  With the
default parameters, element (2,3) of a 3 x 4 row-major matrix at (0,0,0,0) is at
(0,0,0,11). -/
theorem MemoryMapper.carry_chains_agree (m : MemoryMapper) (L : MatrixMemoryLayout)
    (row col fuel : Nat) (hmaj : L.rowMajor = true) (hr : row < L.rows) (hc : col < L.cols) :
    MemoryMapper.getElementLocation fuel m L row col
        = (MemoryMapper.allocateMemory fuel (m.withCursor L.startLocation)
            (row * L.cols + col)).map (fun x => x.2.cursor)
    ∧ (0 < m.NumColsPerRow → 2 ^ 32 ≤ fuel →
        ∃ p, MemoryMapper.getElementLocation fuel m L row col = some p)
    ∧ MemoryMapper.getElementLocation (fuel + 1) MemoryMapper.new
        { startLocation := ⟨0, 0, 0, 0⟩, rows := 3, cols := 4, rowMajor := true } 2 3
        = some ⟨0, 0, 0, 11⟩ := by
  have hib : MemoryMapper.indexOutOfBounds L row col = false := by
    simp [MemoryMapper.indexOutOfBounds, hr, hc]
  have hadv : MemoryMapper.advanced (m.withCursor L.startLocation) (row * L.cols + col)
      = { L.startLocation with
          columnOffset := (L.startLocation.columnOffset
            + (row * L.cols + col) % 2 ^ 32) % 2 ^ 32 } := by
    simp only [MemoryMapper.advanced, MemoryMapper.withCursor, Nat.add_mod_mod]
  have hget : MemoryMapper.getElementLocation fuel m L row col
      = MemoryMapper.elementCarryLoop m fuel
          { L.startLocation with
            columnOffset := (L.startLocation.columnOffset
              + (row * L.cols + col) % 2 ^ 32) % 2 ^ 32 } := by
    simp only [MemoryMapper.getElementLocation, hib, Bool.false_eq_true, if_false, hmaj,
      if_true]
  refine ⟨?_, ?_, rfl⟩
  · rw [MemoryMapper.allocateMemory_eq, MemoryMapper.elementCarryLoop_withCursor, hadv, hget]
    cases MemoryMapper.elementCarryLoop m fuel
        { L.startLocation with
          columnOffset := (L.startLocation.columnOffset
            + (row * L.cols + col) % 2 ^ 32) % 2 ^ 32 } with
    | none => rfl
    | some l1 => rfl
  · intro hC hf
    rw [hget]
    apply MemoryMapper.elementCarryLoop_terminates m hC
    have h1 : (L.startLocation.columnOffset + (row * L.cols + col) % 2 ^ 32) % 2 ^ 32
        < 2 ^ 32 := Nat.mod_lt _ (by norm_num)
    have h2 := Nat.div_le_self
      ((L.startLocation.columnOffset + (row * L.cols + col) % 2 ^ 32) % 2 ^ 32)
      m.NumColsPerRow
    show ((L.startLocation.columnOffset + (row * L.cols + col) % 2 ^ 32) % 2 ^ 32)
      / m.NumColsPerRow < fuel
    omega

/-- Witness for C15: `initialize(2,2,2,4)`, a 3 x 4 row-major layout starting at
(0,1,1,3), element (2,3). -/
theorem MemoryMapper.carry_chains_agree_witness :
    (2 < 3 ∧ 3 < 4)
    ∧ MemoryMapper.getElementLocation 5 (MemoryMapper.new.init 2 2 2 4)
        { startLocation := ⟨0, 1, 1, 3⟩, rows := 3, cols := 4, rowMajor := true } 2 3
      = (MemoryMapper.allocateMemory 5
          ((MemoryMapper.new.init 2 2 2 4).withCursor ⟨0, 1, 1, 3⟩) (2 * 4 + 3)).map
          (fun x => x.2.cursor) :=
  ⟨by decide,
   (MemoryMapper.carry_chains_agree (MemoryMapper.new.init 2 2 2 4)
      { startLocation := ⟨0, 1, 1, 3⟩, rows := 3, cols := 4, rowMajor := true }
      2 3 5 rfl (by decide) (by decide)).1⟩

/-- C16 (as stated, refuted): the cluster id is computed in `uint32_t` arithmetic.
With the default parameters the location (bank `2^28`, subarray 0, row 0) gives 0,
not `(2^28*16 + 0)*4 + 0 = 2^34`; and with `NumClustersPerSubarray = 0` (which
satisfies `NumRowsPerSubarray >= NumClustersPerSubarray`) the method divides by
zero. -/
theorem MemoryMapper.clusterId_counterexample :
    (MemoryMapper.new.NumRowsPerSubarray ≥ MemoryMapper.new.NumClustersPerSubarray
      ∧ MemoryMapper.getClusterIdForLocation MemoryMapper.new ⟨2 ^ 28, 0, 0, 0⟩ = some 0
      ∧ (2 ^ 28 * 16 + 0) * 4 + 0 / (512 / 4) = 2 ^ 34)
    ∧ MemoryMapper.getClusterIdForLocation
        { MemoryMapper.new with NumClustersPerSubarray := 0 } ⟨1, 2, 130, 0⟩ = none := by
  refine ⟨⟨by decide, by decide, by decide⟩, by decide⟩

/-- C16 (amended): for `1 <= NumClustersPerSubarray <= NumRowsPerSubarray` and every
location, `getClusterIdForLocation` returns
`(bankId*NumSubarraysPerBank + subarrayId)*NumClustersPerSubarray
 + rowAddress div (NumRowsPerSubarray div NumClustersPerSubarray)` reduced modulo
`2^32`, hence that value itself whenever it is below `2^32`; with the default
parameters the location (bank 1, subarray 2, row 130) yields 73. -/
theorem MemoryMapper.clusterId_formula (m : MemoryMapper) (l : PhysicalMemoryLocation)
    (hk : 0 < m.NumClustersPerSubarray)
    (hrk : m.NumClustersPerSubarray ≤ m.NumRowsPerSubarray) :
    MemoryMapper.getClusterIdForLocation m l
        = some (((l.bankId * m.NumSubarraysPerBank + l.subarrayId) * m.NumClustersPerSubarray
            + l.rowAddress / (m.NumRowsPerSubarray / m.NumClustersPerSubarray)) % 2 ^ 32)
    ∧ ((l.bankId * m.NumSubarraysPerBank + l.subarrayId) * m.NumClustersPerSubarray
          + l.rowAddress / (m.NumRowsPerSubarray / m.NumClustersPerSubarray) < 2 ^ 32 →
        MemoryMapper.getClusterIdForLocation m l
          = some ((l.bankId * m.NumSubarraysPerBank + l.subarrayId) * m.NumClustersPerSubarray
              + l.rowAddress / (m.NumRowsPerSubarray / m.NumClustersPerSubarray)))
    ∧ (∀ c, MemoryMapper.getClusterIdForLocation MemoryMapper.new ⟨1, 2, 130, c⟩ = some 73) := by
  have hk0 : m.NumClustersPerSubarray ≠ 0 := by omega
  have hq : m.NumRowsPerSubarray / m.NumClustersPerSubarray ≠ 0 := by
    have := Nat.div_pos hrk hk
    omega
  have h1 : MemoryMapper.getClusterIdForLocation m l
      = some (((l.bankId * m.NumSubarraysPerBank + l.subarrayId) * m.NumClustersPerSubarray
          + l.rowAddress / (m.NumRowsPerSubarray / m.NumClustersPerSubarray)) % 2 ^ 32) := by
    simp only [MemoryMapper.getClusterIdForLocation, hk0, hq, if_false]
    congr 1
    rw [Nat.add_mod, Nat.mul_mod, Nat.mod_mod, ← Nat.mul_mod, ← Nat.add_mod]
  refine ⟨h1, ?_, ?_⟩
  · intro hlt
    rw [h1, Nat.mod_eq_of_lt hlt]
  · intro c
    simp [MemoryMapper.getClusterIdForLocation, MemoryMapper.new]

/-- Witness for C16: the default parameters and the location (3, 7, 300, 9). -/
theorem MemoryMapper.clusterId_formula_witness :
    (0 < 4 ∧ 4 ≤ 512)
    ∧ MemoryMapper.getClusterIdForLocation MemoryMapper.new ⟨3, 7, 300, 9⟩
      = some (((3 * 16 + 7) * 4 + 300 / (512 / 4)) % 2 ^ 32) :=
  ⟨by decide,
   (MemoryMapper.clusterId_formula MemoryMapper.new ⟨3, 7, 300, 9⟩
      (by decide) (by decide)).1⟩

/-- C17: after `initialize` with positive `uint32_t` parameters, every sequence of
`allocateMemory` and `mapMatrix` calls runs to the end; afterwards the cursor is
in range, and so are every location that `allocateMemory` returned during the
session, every recorded layout start and every in-bounds `getElementLocation`
result. -/
theorem MemoryMapper.locations_normalized (prior : MemoryMapper) (b s r c : Nat)
    (hpos : 0 < b ∧ 0 < s ∧ 0 < r ∧ 0 < c)
    (hu32 : b < 2 ^ 32 ∧ s < 2 ^ 32 ∧ r < 2 ^ 32 ∧ c < 2 ^ 32)
    (calls : List MemoryMapper.Call) (fuel : Nat) (hf : 2 ^ 32 ≤ fuel) :
    ∃ locs m1, MemoryMapper.runCallsLog fuel (prior.init b s r c) calls = some (locs, m1)
      ∧ MemoryMapper.runCalls fuel (prior.init b s r c) calls = some m1
      ∧ (m1.NumBanks = b ∧ m1.NumSubarraysPerBank = s ∧ m1.NumRowsPerSubarray = r
          ∧ m1.NumColsPerRow = c)
      ∧ MemoryMapper.InRange m1 m1.cursor
      ∧ (∀ l ∈ locs, MemoryMapper.InRange m1 l)
      ∧ (∀ n L, m1.MatrixLayouts n = some L → MemoryMapper.InRange m1 L.startLocation)
      ∧ (∀ n L row col, m1.MatrixLayouts n = some L → row < L.rows → col < L.cols →
          ∃ p, MemoryMapper.getElementLocation fuel m1 L row col = some p
            ∧ MemoryMapper.InRange m1 p) := by
  have hn0 : MemoryMapper.Normalized (prior.init b s r c) := by
    refine ⟨hpos, hu32, ⟨hpos.1, hpos.2.1, hpos.2.2.1, hpos.2.2.2⟩, ?_⟩
    intro n L h
    simp [MemoryMapper.init] at h
  obtain ⟨locs, m1, e, ⟨hp1, hu1, hin1, hlay1⟩, sp, hlocs⟩ :=
    MemoryMapper.runCallsLog_normalized fuel hf calls (prior.init b s r c) hn0
  refine ⟨locs, m1, e, ?_, sp, hin1, ?_, hlay1, ?_⟩
  · rw [← MemoryMapper.runCallsLog_state, e]
    rfl
  · intro l hl
    exact (MemoryMapper.InRange.congr _ m1 sp l).mpr (hlocs l hl)
  · intro n L row col h hr hc
    obtain ⟨p, ep, rp, _⟩ :=
      MemoryMapper.getElementLocation_spec m1 hp1 hu1 L (hlay1 n L h) row col fuel hr hc hf
    exact ⟨p, ep, rp⟩

/-- Witness for C17: `initialize(2,2,2,4)`, then map "A" as 70000 x 70000 (its size
wraps 32 bits), allocate 9 cells and map "B" as 3 x 2. -/
theorem MemoryMapper.locations_normalized_witness :
    (0 < 2 ∧ 0 < 2 ∧ 0 < 2 ∧ 0 < 4)
    ∧ ∃ locs m1, MemoryMapper.runCallsLog (2 ^ 32) (MemoryMapper.new.init 2 2 2 4)
          [MemoryMapper.Call.mapMatrix "A" 70000 70000, MemoryMapper.Call.allocate 9,
           MemoryMapper.Call.mapMatrix "B" 3 2] = some (locs, m1)
        ∧ MemoryMapper.InRange m1 m1.cursor :=
  ⟨by decide,
   let ⟨locs, m1, e, _, _, h, _⟩ :=
     MemoryMapper.locations_normalized MemoryMapper.new 2 2 2 4 (by decide) (by decide)
       [MemoryMapper.Call.mapMatrix "A" 70000 70000, MemoryMapper.Call.allocate 9,
        MemoryMapper.Call.mapMatrix "B" 3 2] (2 ^ 32) (le_refl _)
   ⟨locs, m1, e, h⟩⟩

/-! ## The matrix analyzer -/

namespace MatrixAnalyzer

/-- A loop that appends a block per element is a `flatMap`. -/
theorem foldl_append_flatMap {α β : Type} (f : α → List β) (l : List α) (init : List β) :
    l.foldl (fun acc x => acc ++ f x) init = init ++ l.flatMap f := by
  induction l generalizing init with
  | nil => simp
  | cons x xs ih =>
    simp only [List.foldl_cons, List.flatMap_cons]
    rw [ih, List.append_assoc]

/-- The loop body replaces the pushed MAC by its decomposition. -/
theorem macStep_eq (e : MatrixMultExprAST) (ops : List PIMOperation) (i j k : Int) :
    macStep e ops i j k = ops ++ decompose8BitMAC (macOperation e i j k) := by
  simp only [macStep, List.getLast?_concat, List.dropLast_concat]
  rfl

/-- The three nested loops as one `flatMap` over the index triples. -/
theorem loopI_eq (e : MatrixMultExprAST) (lhsRows rhsCols lhsCols : Int) :
    loopI e lhsRows rhsCols lhsCols []
      = (triples lhsRows.toNat rhsCols.toNat lhsCols.toNat).flatMap
          (fun t => decompose8BitMAC (macOperation e (t.1 : Int) (t.2.1 : Int) (t.2.2 : Int))) := by
  have hK : ∀ ops i j, loopK e lhsCols ops i j
      = ops ++ (List.range lhsCols.toNat).flatMap
          (fun (k : Nat) => decompose8BitMAC (macOperation e i j (k : Int))) := by
    intro ops i j
    unfold loopK
    simp only [macStep_eq]
    exact foldl_append_flatMap _ _ _
  have hJ : ∀ ops i, loopJ e rhsCols lhsCols ops i
      = ops ++ (List.range rhsCols.toNat).flatMap (fun (j : Nat) =>
          (List.range lhsCols.toNat).flatMap
            (fun (k : Nat) => decompose8BitMAC (macOperation e i (j : Int) (k : Int)))) := by
    intro ops i
    unfold loopJ
    simp only [hK]
    exact foldl_append_flatMap _ _ _
  unfold loopI
  simp only [hJ]
  rw [foldl_append_flatMap, List.nil_append]
  simp only [triples, List.flatMap_assoc, List.flatMap_map]

/-- The decomposition of one MAC has 8 operations. -/
theorem decompose8BitMAC_length (op : PIMOperation) : (decompose8BitMAC op).length = 8 := rfl

/-- In a concatenation of blocks of equal length `n`, element `n*b + t` is element
`t` of block `b`. -/
theorem flatMap_getElem_block {α β : Type} (f : α → List β) (n : Nat)
    (hlen : ∀ x, (f x).length = n) (l : List α) :
    ∀ b t, t < n → (l.flatMap f)[n * b + t]? = (l[b]?).bind (fun x => (f x)[t]?) := by
  induction l with
  | nil => intro b t _; simp
  | cons x xs ih =>
    intro b t ht
    rw [List.flatMap_cons]
    cases b with
    | zero =>
      simp only [Nat.mul_zero, Nat.zero_add, List.getElem?_cons_zero, Option.some_bind]
      exact List.getElem?_append_left (by rw [hlen]; exact ht)
    | succ b =>
      rw [List.getElem?_append_right (by rw [hlen]; nlinarith)]
      simp only [List.getElem?_cons_succ]
      rw [← ih b t ht, hlen]
      congr 1
      rw [Nat.mul_succ]
      omega

/-- The length of a concatenation of blocks of equal length. -/
theorem flatMap_length_block {α β : Type} (f : α → List β) (n : Nat)
    (hlen : ∀ x, (f x).length = n) (l : List α) :
    (l.flatMap f).length = n * l.length := by
  induction l with
  | nil => simp
  | cons x xs ih =>
    rw [List.flatMap_cons, List.length_append, ih, hlen, List.length_cons, Nat.mul_succ]
    omega

/-- The number of index triples. -/
theorem triples_length (R C K : Nat) : (triples R C K).length = R * C * K := by
  unfold triples
  have h1 : ∀ i : Nat, ((List.range C).flatMap fun j =>
      (List.range K).map fun k => (i, j, k)).length = K * C := by
    intro i
    rw [flatMap_length_block _ K (fun j => by simp), List.length_range]
  rw [flatMap_length_block _ (K * C) h1, List.length_range]
  ring

/-- When the loop produced anything, the cluster count is not zero. -/
theorem triples_nonempty_clusters (lhsRows rhsCols : Int) (K : Nat)
    (h : triples lhsRows.toNat rhsCols.toNat K ≠ []) : lhsRows * rhsCols ≠ 0 := by
  have hlen : (triples lhsRows.toNat rhsCols.toNat K).length ≠ 0 := by
    intro h0
    exact h (List.length_eq_zero.mp h0)
  rw [triples_length] at hlen
  have h1 : lhsRows.toNat ≠ 0 := by
    intro h0
    apply hlen
    rw [h0]
    simp
  have h2 : rhsCols.toNat ≠ 0 := by
    intro h0
    apply hlen
    rw [h0]
    simp
  have h3 : 0 < lhsRows := by omega
  have h4 : 0 < rhsCols := by omega
  positivity

/-- The operations returned for a compatible multiply: the decompositions of the
MAC operations of all index triples, in loop order. -/
theorem decompose_compatible (a : MatrixAnalyzer) (e : MatrixMultExprAST)
    (h : (a.getMatrixDimensions e.LHS.Name).2 = (a.getMatrixDimensions e.RHS.Name).1) :
    a.decomposeMatrixMultiplication (some e)
      = some ((triples (a.getMatrixDimensions e.LHS.Name).1.toNat
                (a.getMatrixDimensions e.RHS.Name).2.toNat
                (a.getMatrixDimensions e.LHS.Name).2.toNat).flatMap
          (fun t => decompose8BitMAC (macOperation e (t.1 : Int) (t.2.1 : Int) (t.2.2 : Int)))) := by
  simp only [decomposeMatrixMultiplication, h, ne_eq, not_true_eq_false, if_false]
  rw [← h, loopI_eq]
  unfold mapOperationsToClusters
  by_cases hn : triples (a.getMatrixDimensions e.LHS.Name).1.toNat
      (a.getMatrixDimensions e.RHS.Name).2.toNat
      (a.getMatrixDimensions e.LHS.Name).2.toNat = []
  · rw [hn]
    rfl
  · have hc := triples_nonempty_clusters _ _ _ hn
    have hc1 : a.getRequiredClusters (some e) ≠ 0 := hc
    simp [hc1]

end MatrixAnalyzer

/-- The types within one decomposed MAC: four MULTIPLY, then four ADD. -/
theorem MatrixAnalyzer.block_types (op : PIMOperation) (t : Nat) (ht : t < 8) :
    ((MatrixAnalyzer.decompose8BitMAC op)[t]?).map (fun o => o.type)
      = some (if t < 4 then PIMOperationType.MULTIPLY else PIMOperationType.ADD) := by
  interval_cases t <;> rfl

/-- No operation of a decomposed MAC is a MAC. -/
theorem MatrixAnalyzer.block_no_mac (op o : PIMOperation)
    (h : o ∈ MatrixAnalyzer.decompose8BitMAC op) : o.type ≠ PIMOperationType.MAC := by
  simp only [MatrixAnalyzer.decompose8BitMAC, List.nil_append, List.cons_append,
    List.mem_cons, List.mem_singleton, List.not_mem_nil, or_false] at h
  rcases h with h | h | h | h | h | h | h | h <;> rw [h] <;> simp

/-! ## Claims about the matrix analyzer -/

/-- C18: for a multiply expression whose registered operand shapes have
`lhsCols != rhsRows`, `decomposeMatrixMultiplication` returns the empty operation
sequence. -/
theorem MatrixAnalyzer.decompose_mismatch (a : MatrixAnalyzer) (e : MatrixMultExprAST)
    (h : (a.getMatrixDimensions e.LHS.Name).2 ≠ (a.getMatrixDimensions e.RHS.Name).1) :
    a.decomposeMatrixMultiplication (some e) = some [] := by
  simp [MatrixAnalyzer.decomposeMatrixMultiplication, h]

/-- Witness for C18: A registered as 2 x 3, B as 2 x 2. -/
theorem MatrixAnalyzer.decompose_mismatch_witness :
    ((((⟨fun _ => none⟩ : MatrixAnalyzer).setMatrixDimensions "A" 2 3).setMatrixDimensions
        "B" 2 2).getMatrixDimensions "A").2
      ≠ ((((⟨fun _ => none⟩ : MatrixAnalyzer).setMatrixDimensions "A" 2 3).setMatrixDimensions
        "B" 2 2).getMatrixDimensions "B").1
    ∧ (((⟨fun _ => none⟩ : MatrixAnalyzer).setMatrixDimensions "A" 2 3).setMatrixDimensions
        "B" 2 2).decomposeMatrixMultiplication
          (some { LHS := ⟨"A", 2, 3⟩, RHS := ⟨"B", 2, 2⟩, ResultName := "C" }) = some [] :=
  ⟨by decide,
   MatrixAnalyzer.decompose_mismatch
     (((⟨fun _ => none⟩ : MatrixAnalyzer).setMatrixDimensions "A" 2 3).setMatrixDimensions
        "B" 2 2)
     { LHS := ⟨"A", 2, 3⟩, RHS := ⟨"B", 2, 2⟩, ResultName := "C" } (by decide)⟩

/-- C19: for registered non-negative shapes `R x K` and `K x C`,
`decomposeMatrixMultiplication` returns exactly `R*C*K` consecutive blocks of 8
operations (`8*R*C*K` operations in all), each block being 4 operations of type
MULTIPLY followed by 4 of type ADD, and no operation of type MAC remains. -/
theorem MatrixAnalyzer.decompose_blocks (a : MatrixAnalyzer) (e : MatrixMultExprAST)
    (R K C : Nat)
    (hl : a.getMatrixDimensions e.LHS.Name = ((R : Int), (K : Int)))
    (hr : a.getMatrixDimensions e.RHS.Name = ((K : Int), (C : Int))) :
    ∃ ops, a.decomposeMatrixMultiplication (some e) = some ops
      ∧ ops.length = 8 * (R * C * K)
      ∧ (∀ b t, b < R * C * K → t < 8 →
          (ops[8 * b + t]?).map (fun o => o.type)
            = some (if t < 4 then PIMOperationType.MULTIPLY else PIMOperationType.ADD))
      ∧ (∀ o ∈ ops, o.type ≠ PIMOperationType.MAC) := by
  have hc := MatrixAnalyzer.decompose_compatible a e (by rw [hl, hr])
  rw [hl, hr] at hc
  simp only [Int.toNat_ofNat] at hc
  refine ⟨_, hc, ?_, ?_, ?_⟩
  · rw [MatrixAnalyzer.flatMap_length_block _ 8
        (fun _ => MatrixAnalyzer.decompose8BitMAC_length _),
      MatrixAnalyzer.triples_length]
  · intro b t hb ht
    rw [MatrixAnalyzer.flatMap_getElem_block _ 8
      (fun _ => MatrixAnalyzer.decompose8BitMAC_length _) _ b t ht]
    have hb1 : b < (MatrixAnalyzer.triples R C K).length := by
      rw [MatrixAnalyzer.triples_length]; exact hb
    rw [List.getElem?_eq_getElem hb1, Option.some_bind]
    exact MatrixAnalyzer.block_types _ t ht
  · intro o ho
    obtain ⟨x, _, hx⟩ := List.mem_flatMap.mp ho
    exact MatrixAnalyzer.block_no_mac _ o hx

/-- Witness for C19: A registered as 2 x 3 and B as 3 x 2 give 12 blocks, 96
operations. -/
theorem MatrixAnalyzer.decompose_blocks_witness :
    ∃ ops, (((⟨fun _ => none⟩ : MatrixAnalyzer).setMatrixDimensions "A" 2 3).setMatrixDimensions
        "B" 3 2).decomposeMatrixMultiplication
          (some { LHS := ⟨"A", 2, 3⟩, RHS := ⟨"B", 3, 2⟩, ResultName := "C" }) = some ops
      ∧ ops.length = 96 :=
  let ⟨ops, e, len, _⟩ :=
    MatrixAnalyzer.decompose_blocks
      (((⟨fun _ => none⟩ : MatrixAnalyzer).setMatrixDimensions "A" 2 3).setMatrixDimensions
        "B" 3 2)
      { LHS := ⟨"A", 2, 3⟩, RHS := ⟨"B", 3, 2⟩, ResultName := "C" } 2 3 2
      (by decide) (by decide)
  ⟨ops, e, len⟩

/-- C20: for every operation with operand names `L`, `R` and result name `C`,
`decompose8BitMAC` returns exactly 8 operations, in this order, as (type,
lhsMatrix, rhsMatrix, resultMatrix): (MULTIPLY, L_L, R_L, V0), (MULTIPLY, L_L, R_H,
V1), (MULTIPLY, L_H, R_L, V2), (MULTIPLY, L_H, R_H, V3), (ADD, V0_H, V1_L, A1),
(ADD, A1, V2_L, A2), (ADD, V1_H, V2_H, A3), (ADD, A3, V3, C). -/
theorem MatrixAnalyzer.decompose8BitMAC_stages (macOp : PIMOperation) :
    (MatrixAnalyzer.decompose8BitMAC macOp).map
        (fun o => (o.type, o.lhsMatrix, o.rhsMatrix, o.resultMatrix))
      = [(PIMOperationType.MULTIPLY, macOp.lhsMatrix ++ "_L", macOp.rhsMatrix ++ "_L", "V0"),
         (PIMOperationType.MULTIPLY, macOp.lhsMatrix ++ "_L", macOp.rhsMatrix ++ "_H", "V1"),
         (PIMOperationType.MULTIPLY, macOp.lhsMatrix ++ "_H", macOp.rhsMatrix ++ "_L", "V2"),
         (PIMOperationType.MULTIPLY, macOp.lhsMatrix ++ "_H", macOp.rhsMatrix ++ "_H", "V3"),
         (PIMOperationType.ADD, "V0_H", "V1_L", "A1"),
         (PIMOperationType.ADD, "A1", "V2_L", "A2"),
         (PIMOperationType.ADD, "V1_H", "V2_H", "A3"),
         (PIMOperationType.ADD, "A3", "V3", macOp.resultMatrix)]
    ∧ (MatrixAnalyzer.decompose8BitMAC macOp).length = 8 :=
  ⟨rfl, rfl⟩

/-! ## The SIMD generator -/

namespace SIMDGenerator

/-- A loop that pushes one element per iteration is a `map`. -/
theorem foldl_push_map {α β : Type} (f : α → β) (l : List α) (init : List β) :
    l.foldl (fun acc x => acc ++ [f x]) init = init ++ l.map f := by
  induction l generalizing init with
  | nil => simp
  | cons x xs ih =>
    simp only [List.foldl_cons, List.map_cons]
    rw [ih, List.append_assoc]
    rfl

/-- The PROG instruction emitted for a cluster and a core. -/
theorem generateSIMDLUTProgramming_eq (sg : SIMDGenerator) (opcode : PIMOpcode) :
    sg.generateSIMDLUTProgramming opcode
      = (List.range sg.ClustersPerRow).flatMap (fun clusterId =>
          (List.range sg.CoresPerCluster).map (fun coreId =>
            ({ type := PIMInstructionType.PROG,
               coreId := ((clusterId * sg.CoresPerCluster + coreId) % 2 ^ 32) % 2 ^ 8,
               opcode := opcode, address := 0 } : PIMInstruction))) := by
  unfold generateSIMDLUTProgramming
  simp only [PIMInstruction.default]
  have h : ∀ (clusterId : Nat) (init : List PIMInstruction),
      (List.range sg.CoresPerCluster).foldl
        (fun instructions (coreId : Nat) => instructions ++
          [({ type := PIMInstructionType.PROG,
              coreId := ((clusterId * sg.CoresPerCluster + coreId) % 2 ^ 32) % 2 ^ 8,
              opcode := opcode, address := 0 } : PIMInstruction)]) init
      = init ++ (List.range sg.CoresPerCluster).map (fun coreId =>
          ({ type := PIMInstructionType.PROG,
             coreId := ((clusterId * sg.CoresPerCluster + coreId) % 2 ^ 32) % 2 ^ 8,
             opcode := opcode, address := 0 } : PIMInstruction)) :=
    fun clusterId init => foldl_push_map _ _ init
  simp only [h]
  rw [MatrixAnalyzer.foldl_append_flatMap, List.nil_append]

/-- Membership of a key after `mapPush`. -/
theorem mapPush_keys_mem {α : Type} (g : List (Nat × List α)) (key : Nat) (value : α)
    (x : Nat) :
    x ∈ (mapPush g key value).map Prod.fst ↔ x = key ∨ x ∈ g.map Prod.fst := by
  induction g with
  | nil => simp [mapPush]
  | cons p rest ih =>
    obtain ⟨k, vs⟩ := p
    unfold mapPush
    split_ifs with h1 h2
    · subst h1
      simp only [List.map_cons, List.mem_cons]
      tauto
    · simp only [List.map_cons, List.mem_cons]
    · simp only [List.map_cons, List.mem_cons, ih]
      tauto

/-- The operation `mapPush` keeps the keys strictly increasing. -/
theorem mapPush_keys_sorted {α : Type} (g : List (Nat × List α)) (key : Nat) (value : α)
    (h : (g.map Prod.fst).Pairwise (· < ·)) :
    ((mapPush g key value).map Prod.fst).Pairwise (· < ·) := by
  induction g with
  | nil => simp [mapPush]
  | cons p rest ih =>
    obtain ⟨k, vs⟩ := p
    simp only [List.map_cons, List.pairwise_cons] at h
    obtain ⟨hk, hrest⟩ := h
    unfold mapPush
    split_ifs with h1 h2
    · simp only [List.map_cons, List.pairwise_cons]
      exact ⟨hk, hrest⟩
    · simp only [List.map_cons, List.pairwise_cons, List.mem_cons]
      refine ⟨?_, hk, hrest⟩
      intro a ha
      rcases ha with ha | ha
      · rw [ha]; exact h2
      · exact Nat.lt_trans h2 (hk a ha)
    · simp only [List.map_cons, List.pairwise_cons]
      refine ⟨?_, ih hrest⟩
      intro a ha
      rcases (mapPush_keys_mem rest key value a).mp ha with ha | ha
      · rw [ha]; omega
      · exact hk a ha

/-- The keys of the groups built from an address list: strictly increasing, and
exactly the values of the list. -/
theorem groups_keys (addresses : List Nat) (init : List (Nat × List Nat))
    (h : (init.map Prod.fst).Pairwise (· < ·)) :
    ((addresses.foldl (fun groups addr => mapPush groups addr addr) init).map
        Prod.fst).Pairwise (· < ·)
    ∧ ∀ x, x ∈ (addresses.foldl (fun groups addr => mapPush groups addr addr) init).map
        Prod.fst ↔ x ∈ addresses ∨ x ∈ init.map Prod.fst := by
  induction addresses generalizing init with
  | nil => simp [h]
  | cons a rest ih =>
    simp only [List.foldl_cons]
    obtain ⟨h1, h2⟩ := ih (mapPush init a a) (mapPush_keys_sorted init a a h)
    refine ⟨h1, ?_⟩
    intro x
    rw [h2 x, mapPush_keys_mem, List.mem_cons]
    tauto

/-- The instructions of `generateSIMDMemoryAccess`: one per group, in key order. -/
theorem generateSIMDMemoryAccess_eq (isRead : Bool) (addresses : List Nat) :
    generateSIMDMemoryAccess isRead addresses
      = ((addresses.foldl (fun groups addr => mapPush groups addr addr) []).map Prod.fst).map
          (fun addr =>
            ({ type := if isRead then PIMInstructionType.MEMORY_READ
                       else PIMInstructionType.MEMORY_WRITE,
               coreId := 0, opcode := PIMOpcode.ADD, address := addr } : PIMInstruction)) := by
  unfold generateSIMDMemoryAccess
  simp only [PIMInstruction.default]
  rw [foldl_push_map, List.nil_append, List.map_map]
  rfl

/-- With `NumColsPerRow >= 1` and fuel `2^32`, `getElementLocation` returns for
all arguments. -/
theorem getElementLocation_returns (m : MemoryMapper) (hC : 0 < m.NumColsPerRow)
    (fuel : Nat) (hf : 2 ^ 32 ≤ fuel) (L : MatrixMemoryLayout) (row col : Nat) :
    ∃ p, m.getElementLocation fuel L row col = some p := by
  unfold MemoryMapper.getElementLocation
  split_ifs
  · exact ⟨_, rfl⟩
  · apply MemoryMapper.elementCarryLoop_terminates m hC
    have h1 : (L.startLocation.columnOffset + (row * L.cols + col) % 2 ^ 32) % 2 ^ 32
        < 2 ^ 32 := Nat.mod_lt _ (by norm_num)
    have h2 := Nat.div_le_self
      ((L.startLocation.columnOffset + (row * L.cols + col) % 2 ^ 32) % 2 ^ 32)
      m.NumColsPerRow
    show ((L.startLocation.columnOffset + (row * L.cols + col) % 2 ^ 32) % 2 ^ 32)
      / m.NumColsPerRow < fuel
    omega
  · apply MemoryMapper.elementCarryLoop_terminates m hC
    have h1 : (L.startLocation.columnOffset + (col * L.rows + row) % 2 ^ 32) % 2 ^ 32
        < 2 ^ 32 := Nat.mod_lt _ (by norm_num)
    have h2 := Nat.div_le_self
      ((L.startLocation.columnOffset + (col * L.rows + row) % 2 ^ 32) % 2 ^ 32)
      m.NumColsPerRow
    show ((L.startLocation.columnOffset + (col * L.rows + row) % 2 ^ 32) % 2 ^ 32)
      / m.NumColsPerRow < fuel
    omega

/-- A loop that pushes the row address of a location per iteration, when every
location is found. -/
theorem foldlM_rows (f : Nat → Option PhysicalMemoryLocation) (l : List Nat)
    (h : ∀ k ∈ l, ∃ p, f k = some p) (init : List Nat) :
    l.foldlM (fun readAddresses (k : Nat) =>
        match f k with
        | none => none
        | some loc => some (readAddresses ++ [loc.rowAddress])) init
      = some (init ++ l.map (fun k =>
          match f k with
          | some loc => loc.rowAddress
          | none => 0)) := by
  induction l generalizing init with
  | nil => simp
  | cons x xs ih =>
    obtain ⟨p, hp⟩ := h x (List.mem_cons_self _ _)
    rw [List.foldlM_cons]
    simp only [hp, Option.bind_eq_bind, Option.some_bind, List.map_cons]
    rw [ih (fun k hk => h k (List.mem_cons_of_mem _ hk)), List.append_assoc]
    rfl

/-- A loop in the option monad whose body always appends a block. -/
theorem foldlM_append {α β : Type} (g : α → List β) (l : List α) (init : List β) :
    l.foldlM (fun acc x => (some (acc ++ g x) : Option (List β))) init
      = some (init ++ l.flatMap g) := by
  induction l generalizing init with
  | nil => simp
  | cons x xs ih =>
    rw [List.foldlM_cons]
    simp only [Option.bind_eq_bind, Option.some_bind, List.flatMap_cons]
    rw [ih, List.append_assoc]

/-- The loop body for one result element appends its block, when every
`getElementLocation` returns. -/
theorem elementStep_eq (fuel : Nat) (m : MemoryMapper) (hC : 0 < m.NumColsPerRow)
    (hf : 2 ^ 32 ≤ fuel) (layoutA layoutB layoutC : MatrixMemoryLayout)
    (instructions : List PIMInstruction) (i j : Nat) :
    elementStep fuel m layoutA layoutB layoutC instructions i j
      = some (instructions ++ elementBlock fuel m layoutA layoutB layoutC i j) := by
  have hA : readRowOfA fuel m layoutA i []
      = some ([] ++ (List.range layoutA.cols).map (fun k => elementRow fuel m layoutA i k)) :=
    foldlM_rows (fun k => m.getElementLocation fuel layoutA i k) _
      (fun k _ => getElementLocation_returns m hC fuel hf layoutA i k) []
  have hB : ∀ init, readColOfB fuel m layoutB j init
      = some (init ++ (List.range layoutB.rows).map (fun k => elementRow fuel m layoutB k j)) :=
    fun init => foldlM_rows (fun k => m.getElementLocation fuel layoutB k j) _
      (fun k _ => getElementLocation_returns m hC fuel hf layoutB k j) init
  obtain ⟨p, hp⟩ := getElementLocation_returns m hC fuel hf layoutC i j
  have hrow : elementRow fuel m layoutC i j = p.rowAddress := by
    simp only [elementRow, hp]
  unfold elementStep
  rw [hA]
  simp only [List.nil_append, hB, hp, elementBlock, hrow, List.append_assoc]

/-- The output of `generateMatrixMultSIMD` for an accepted multiply: the LUT
block followed by the blocks of all result elements in row-major order. -/
theorem generateMatrixMultSIMD_eq (fuel : Nat) (sg : SIMDGenerator)
    (matrixA matrixB resultMatrix : String) (m : MemoryMapper)
    (hC : 0 < m.NumColsPerRow) (hf : 2 ^ 32 ≤ fuel)
    (hacc : (m.getMatrixLayout matrixA).cols = (m.getMatrixLayout matrixB).rows) :
    generateMatrixMultSIMD fuel sg matrixA matrixB resultMatrix m
      = some (sg.generateSIMDLUTProgramming PIMOpcode.MAC
          ++ (pairs (m.getMatrixLayout matrixA).rows (m.getMatrixLayout matrixB).cols).flatMap
              (fun ij => elementBlock fuel m (m.getMatrixLayout matrixA)
                (m.getMatrixLayout matrixB) (m.getMatrixLayout resultMatrix) ij.1 ij.2)) := by
  unfold generateMatrixMultSIMD
  simp only [hacc, ne_eq, not_true_eq_false, if_false, List.nil_append,
    elementStep_eq fuel m hC hf, foldlM_append]
  congr 1
  simp only [pairs, List.flatMap_assoc, List.flatMap_map]

end SIMDGenerator

namespace SIMDGenerator

/-- The number of index pairs. -/
theorem pairs_length (R C : Nat) : (pairs R C).length = R * C := by
  unfold pairs
  rw [MatrixAnalyzer.flatMap_length_block _ C (fun i => by simp), List.length_range]
  ring

/-- The pair at position `i*C + j` is `(i, j)`. -/
theorem pairs_getElem (R C i j : Nat) (hi : i < R) (hj : j < C) :
    (pairs R C)[i * C + j]? = some (i, j) := by
  unfold pairs
  rw [Nat.mul_comm i C,
    MatrixAnalyzer.flatMap_getElem_block _ C (fun i => by simp) _ i j hj]
  simp [List.getElem?_range hi, List.getElem?_range hj]

/-- Every instruction of the LUT block is a PROG. -/
theorem lut_all_prog (sg : SIMDGenerator) (opcode : PIMOpcode) (x : PIMInstruction)
    (h : x ∈ sg.generateSIMDLUTProgramming opcode) : x.type = PIMInstructionType.PROG := by
  rw [generateSIMDLUTProgramming_eq] at h
  obtain ⟨c, _, hc⟩ := List.mem_flatMap.mp h
  obtain ⟨k, _, hk⟩ := List.mem_map.mp hc
  rw [← hk]

/-- Every instruction of a memory-access block has the requested direction and
default core and opcode. -/
theorem access_type (isRead : Bool) (addresses : List Nat) (x : PIMInstruction)
    (h : x ∈ generateSIMDMemoryAccess isRead addresses) :
    x.type = (if isRead then PIMInstructionType.MEMORY_READ
              else PIMInstructionType.MEMORY_WRITE)
    ∧ x.coreId = 0 ∧ x.opcode = PIMOpcode.ADD := by
  rw [generateSIMDMemoryAccess_eq] at h
  obtain ⟨a, _, ha⟩ := List.mem_map.mp h
  rw [← ha]
  exact ⟨rfl, rfl, rfl⟩

/-- The write block for a single address. -/
theorem write_single (a : Nat) :
    generateSIMDMemoryAccess false [a]
      = [{ type := PIMInstructionType.MEMORY_WRITE, coreId := 0, opcode := PIMOpcode.ADD,
           address := a }] := rfl

/-- The type of every instruction of an element block. -/
theorem elementBlock_no_prog (fuel : Nat) (m : MemoryMapper) (LA LB LC : MatrixMemoryLayout)
    (i j : Nat) (x : PIMInstruction) (h : x ∈ elementBlock fuel m LA LB LC i j) :
    x.type ≠ PIMInstructionType.PROG := by
  unfold elementBlock at h
  rw [List.mem_append, List.mem_append] at h
  rcases h with (h | h) | h
  · rw [(access_type true _ x h).1]; simp
  · simp only [generateSIMDCompute, PIMInstruction.default, List.nil_append,
      List.cons_append, List.mem_cons, List.mem_singleton, List.not_mem_nil, or_false] at h
    rcases h with h | h <;> rw [h] <;> simp
  · rw [(access_type false _ x h).1]; simp

/-- Counting in a concatenation of blocks that each contain `c` matches. -/
theorem countP_flatMap_const {α β : Type} (p : β → Bool) (f : α → List β) (c : Nat)
    (h : ∀ x, (f x).countP p = c) (l : List α) :
    (l.flatMap f).countP p = c * l.length := by
  induction l with
  | nil => simp
  | cons x xs ih =>
    rw [List.flatMap_cons, List.countP_append, ih, h, List.length_cons, Nat.mul_succ]
    omega

/-- No match in a list none of whose elements has the counted type. -/
theorem countP_type_zero (l : List PIMInstruction) (t : PIMInstructionType)
    (h : ∀ x ∈ l, x.type ≠ t) : l.countP (fun x => decide (x.type = t)) = 0 := by
  rw [List.countP_eq_zero]
  intro x hx
  simpa using h x hx

/-- An element block contains exactly one EXE, one END and one MEMORY_WRITE. -/
theorem block_counts (fuel : Nat) (m : MemoryMapper) (LA LB LC : MatrixMemoryLayout)
    (i j : Nat) :
    (elementBlock fuel m LA LB LC i j).countP
        (fun x => decide (x.type = PIMInstructionType.EXE)) = 1
    ∧ (elementBlock fuel m LA LB LC i j).countP
        (fun x => decide (x.type = PIMInstructionType.END)) = 1
    ∧ (elementBlock fuel m LA LB LC i j).countP
        (fun x => decide (x.type = PIMInstructionType.MEMORY_WRITE)) = 1 := by
  unfold elementBlock
  simp only [List.countP_append, write_single]
  have hr : ∀ t, t ≠ PIMInstructionType.MEMORY_READ →
      (generateSIMDMemoryAccess true
        ((List.range LA.cols).map (fun k => elementRow fuel m LA i k)
          ++ (List.range LB.rows).map (fun k => elementRow fuel m LB k j))).countP
        (fun x => decide (x.type = t)) = 0 := by
    intro t ht
    apply countP_type_zero
    intro x hx
    rw [(access_type true _ x hx).1]
    simpa using ht.symm
  rw [hr _ (by decide), hr _ (by decide), hr _ (by decide)]
  refine ⟨rfl, rfl, rfl⟩

/-- Lists without EXE satisfy `ExeThenEnd`. -/
theorem exeThenEnd_of_no_exe (l : List PIMInstruction)
    (h : ∀ x ∈ l, x.type ≠ PIMInstructionType.EXE) : ExeThenEnd l := by
  intro idx x hx ht
  exact absurd ht (h x (List.getElem?_mem hx))

/-- The property `ExeThenEnd` is kept by concatenation. -/
theorem exeThenEnd_append (l1 l2 : List PIMInstruction) (h1 : ExeThenEnd l1)
    (h2 : ExeThenEnd l2) : ExeThenEnd (l1 ++ l2) := by
  intro idx x hx ht
  by_cases hlt : idx < l1.length
  · rw [List.getElem?_append_left hlt] at hx
    obtain ⟨ho, y, hy, hyt⟩ := h1 idx x hx ht
    refine ⟨ho, y, ?_, hyt⟩
    have hlt1 : idx + 1 < l1.length := (List.getElem?_eq_some.mp hy).1
    rw [List.getElem?_append_left hlt1]
    exact hy
  · have hge : l1.length ≤ idx := by omega
    rw [List.getElem?_append_right hge] at hx
    obtain ⟨ho, y, hy, hyt⟩ := h2 (idx - l1.length) x hx ht
    refine ⟨ho, y, ?_, hyt⟩
    rw [List.getElem?_append_right (by omega)]
    have e : idx + 1 - l1.length = idx - l1.length + 1 := by omega
    rw [e]
    exact hy

/-- The property `ExeThenEnd` holds for a concatenation of blocks that have it. -/
theorem exeThenEnd_flatMap {α : Type} (f : α → List PIMInstruction)
    (h : ∀ a, ExeThenEnd (f a)) (l : List α) : ExeThenEnd (l.flatMap f) := by
  induction l with
  | nil => intro idx x hx; simp at hx
  | cons a rest ih =>
    rw [List.flatMap_cons]
    exact exeThenEnd_append _ _ (h a) ih

/-- An element block satisfies `ExeThenEnd`. -/
theorem block_exeThenEnd (fuel : Nat) (m : MemoryMapper) (LA LB LC : MatrixMemoryLayout)
    (i j : Nat) : ExeThenEnd (elementBlock fuel m LA LB LC i j) := by
  unfold elementBlock
  apply exeThenEnd_append
  · apply exeThenEnd_append
    · apply exeThenEnd_of_no_exe
      intro x hx
      rw [(access_type true _ x hx).1]; simp
    · intro idx x hx ht
      rcases idx with _ | _ | idx
      · simp only [generateSIMDCompute, PIMInstruction.default, List.nil_append,
          List.cons_append, List.getElem?_cons_zero, Option.some.injEq] at hx
        subst hx
        exact ⟨rfl, _, rfl, rfl⟩
      · simp only [generateSIMDCompute, PIMInstruction.default, List.nil_append,
          List.cons_append, List.getElem?_cons_succ, List.getElem?_cons_zero,
          Option.some.injEq] at hx
        subst hx
        simp at ht
      · simp [generateSIMDCompute] at hx
  · apply exeThenEnd_of_no_exe
    intro x hx
    rw [(access_type false _ x hx).1]; simp

end SIMDGenerator

/-! ## Claims about the decomposition indices and resource counts -/

/-- The last operation of every block of a compatible multiply: an ADD of A3 and
V3 into the result name, with all six indices at their default 0. -/
theorem MatrixAnalyzer.block_last (a : MatrixAnalyzer) (e : MatrixMultExprAST)
    (R K C : Nat)
    (hl : a.getMatrixDimensions e.LHS.Name = ((R : Int), (K : Int)))
    (hr : a.getMatrixDimensions e.RHS.Name = ((K : Int), (C : Int))) :
    ∃ ops, a.decomposeMatrixMultiplication (some e) = some ops
      ∧ ∀ b, b < R * C * K →
          ops[8 * b + 7]?
            = some { type := PIMOperationType.ADD, lhsMatrix := "A3", rhsMatrix := "V3",
                     resultMatrix := e.ResultName, lhsRow := 0, lhsCol := 0, rhsRow := 0,
                     rhsCol := 0, resultRow := 0, resultCol := 0 } := by
  have hc := MatrixAnalyzer.decompose_compatible a e (by rw [hl, hr])
  rw [hl, hr] at hc
  simp only [Int.toNat_ofNat] at hc
  refine ⟨_, hc, ?_⟩
  intro b hb
  rw [MatrixAnalyzer.flatMap_getElem_block _ 8
    (fun _ => MatrixAnalyzer.decompose8BitMAC_length _) _ b 7 (by decide)]
  have hb1 : b < (MatrixAnalyzer.triples R C K).length := by
    rw [MatrixAnalyzer.triples_length]; exact hb
  rw [List.getElem?_eq_getElem hb1, Option.some_bind]
  rfl

/-- C21 (what the code does): with A registered as 2 x 3 and B as 3 x 2, the block
for `(i, j, k) = (1, 1, 0)` has index `(1*2 + 1)*3 + 0 = 9`; its last operation, at
position `8*9 + 7`, is an ADD into the result name "C" whose `resultRow` and
`resultCol` are 0, not 1 and 1: `decompose8BitMAC` does not copy the indices of
the MAC operation. -/
theorem MatrixAnalyzer.last_stage_indices :
    ∃ ops, (((⟨fun _ => none⟩ : MatrixAnalyzer).setMatrixDimensions "A" 2 3).setMatrixDimensions
        "B" 3 2).decomposeMatrixMultiplication
          (some { LHS := ⟨"A", 2, 3⟩, RHS := ⟨"B", 3, 2⟩, ResultName := "C" }) = some ops
      ∧ ops[8 * ((1 * 2 + 1) * 3 + 0) + 7]?
          = some { type := PIMOperationType.ADD, lhsMatrix := "A3", rhsMatrix := "V3",
                   resultMatrix := "C", lhsRow := 0, lhsCol := 0, rhsRow := 0,
                   rhsCol := 0, resultRow := 0, resultCol := 0 } :=
  let ⟨ops, e, h⟩ :=
    MatrixAnalyzer.block_last
      (((⟨fun _ => none⟩ : MatrixAnalyzer).setMatrixDimensions "A" 2 3).setMatrixDimensions
        "B" 3 2)
      { LHS := ⟨"A", 2, 3⟩, RHS := ⟨"B", 3, 2⟩, ResultName := "C" } 2 3 2
      (by decide) (by decide)
  ⟨ops, e, h 9 (by decide)⟩

/-- C23: whenever `layoutA.cols != layoutB.rows`, `generateMatrixMultSIMD` returns
the empty instruction list, for every allocator state, generator and fuel. -/
theorem SIMDGenerator.mismatch_empty (fuel : Nat) (sg : SIMDGenerator)
    (matrixA matrixB resultMatrix : String) (m : MemoryMapper)
    (h : (m.getMatrixLayout matrixA).cols ≠ (m.getMatrixLayout matrixB).rows) :
    SIMDGenerator.generateMatrixMultSIMD fuel sg matrixA matrixB resultMatrix m = some [] := by
  simp [SIMDGenerator.generateMatrixMultSIMD, h]

/-- Witness for C23: a 2 x 3 left operand with a 2 x 2 right operand. -/
theorem SIMDGenerator.mismatch_empty_witness :
    (MemoryMapper.runCalls 5 MemoryMapper.new
        [MemoryMapper.Call.mapMatrix "A" 2 3, MemoryMapper.Call.mapMatrix "B" 2 2,
         MemoryMapper.Call.mapMatrix "C" 2 2]).bind
      (fun m1 => SIMDGenerator.generateMatrixMultSIMD 5 SIMDGenerator.new "A" "B" "C" m1)
      = some []
    ∧ SIMDGenerator.generateMatrixMultSIMD 0 SIMDGenerator.new "A" "B" "C"
        (MemoryMapper.recordLayout MemoryMapper.new ⟨0, 0, 0, 6⟩ "A" 2 3) = some [] :=
  ⟨by decide,
   SIMDGenerator.mismatch_empty 0 SIMDGenerator.new "A" "B" "C"
     (MemoryMapper.recordLayout MemoryMapper.new ⟨0, 0, 0, 6⟩ "A" 2 3) (by decide)⟩

/-- C24: for an accepted multiply (given `NumColsPerRow >= 1` and fuel `2^32`, so
that the method returns) the output is the LUT block followed by a rest without
PROG; the LUT block has exactly `ClustersPerRow*CoresPerCluster` instructions, all
PROG, the one at position `cluster*CoresPerCluster + core` with coreId
`(cluster*CoresPerCluster + core) mod 256` and opcode MAC; with the defaults (4, 9)
these are 36 PROG instructions with coreIds 0..35 in increasing order. -/
theorem SIMDGenerator.lut_prefix (fuel : Nat) (sg : SIMDGenerator)
    (matrixA matrixB resultMatrix : String) (m : MemoryMapper)
    (hC : 0 < m.NumColsPerRow) (hf : 2 ^ 32 ≤ fuel)
    (hacc : (m.getMatrixLayout matrixA).cols = (m.getMatrixLayout matrixB).rows) :
    (∃ rest, SIMDGenerator.generateMatrixMultSIMD fuel sg matrixA matrixB resultMatrix m
          = some (sg.generateSIMDLUTProgramming PIMOpcode.MAC ++ rest)
        ∧ ∀ x ∈ rest, x.type ≠ PIMInstructionType.PROG)
    ∧ (sg.generateSIMDLUTProgramming PIMOpcode.MAC).length
        = sg.ClustersPerRow * sg.CoresPerCluster
    ∧ (∀ x ∈ sg.generateSIMDLUTProgramming PIMOpcode.MAC, x.type = PIMInstructionType.PROG)
    ∧ (∀ cluster core, cluster < sg.ClustersPerRow → core < sg.CoresPerCluster →
        (sg.generateSIMDLUTProgramming PIMOpcode.MAC)[cluster * sg.CoresPerCluster + core]?
          = some { type := PIMInstructionType.PROG,
                   coreId := (cluster * sg.CoresPerCluster + core) % 256,
                   opcode := PIMOpcode.MAC, address := 0 })
    ∧ (SIMDGenerator.new.generateSIMDLUTProgramming PIMOpcode.MAC).map
          (fun x => (x.type, x.coreId, x.opcode))
        = (List.range 36).map (fun n => (PIMInstructionType.PROG, n, PIMOpcode.MAC)) := by
  refine ⟨?_, ?_, ?_, ?_, by decide⟩
  · refine ⟨_, SIMDGenerator.generateMatrixMultSIMD_eq fuel sg matrixA matrixB resultMatrix m
      hC hf hacc, ?_⟩
    intro x hx
    obtain ⟨ij, _, hij⟩ := List.mem_flatMap.mp hx
    exact SIMDGenerator.elementBlock_no_prog fuel m _ _ _ _ _ x hij
  · rw [SIMDGenerator.generateSIMDLUTProgramming_eq,
      MatrixAnalyzer.flatMap_length_block _ sg.CoresPerCluster (fun c => by simp),
      List.length_range]
    ring
  · intro x hx
    exact SIMDGenerator.lut_all_prog sg _ x hx
  · intro cluster core hcl hco
    rw [SIMDGenerator.generateSIMDLUTProgramming_eq, Nat.mul_comm cluster sg.CoresPerCluster,
      MatrixAnalyzer.flatMap_getElem_block _ sg.CoresPerCluster (fun c => by simp) _
        cluster core hco]
    have hcomm := Nat.mul_comm cluster sg.CoresPerCluster
    simp [List.getElem?_range hcl, List.getElem?_range hco]
    omega

/-- Witness for C24: the state reached by the default session for a 2 x 3 by
3 x 2 multiply (A, B and C recorded at columns 0, 6 and 12 of row 0) and the
default generator; the accepted multiply returns the LUT block followed by 16
instructions, none of them PROG. -/
theorem SIMDGenerator.lut_prefix_witness :
    (0 < (MemoryMapper.recordLayout (MemoryMapper.recordLayout (MemoryMapper.recordLayout
          MemoryMapper.new ⟨0, 0, 0, 6⟩ "A" 2 3) ⟨0, 0, 0, 12⟩ "B" 3 2) ⟨0, 0, 0, 16⟩ "C" 2
          2).NumColsPerRow
      ∧ 2 ^ 32 ≤ 2 ^ 32
      ∧ ((MemoryMapper.recordLayout (MemoryMapper.recordLayout (MemoryMapper.recordLayout
          MemoryMapper.new ⟨0, 0, 0, 6⟩ "A" 2 3) ⟨0, 0, 0, 12⟩ "B" 3 2) ⟨0, 0, 0, 16⟩ "C" 2
          2).getMatrixLayout "A").cols = 3
      ∧ ((MemoryMapper.recordLayout (MemoryMapper.recordLayout (MemoryMapper.recordLayout
          MemoryMapper.new ⟨0, 0, 0, 6⟩ "A" 2 3) ⟨0, 0, 0, 12⟩ "B" 3 2) ⟨0, 0, 0, 16⟩ "C" 2
          2).getMatrixLayout "B").rows = 3)
    ∧ MemoryMapper.runCalls (2 ^ 32) MemoryMapper.new
        [MemoryMapper.Call.mapMatrix "A" 2 3, MemoryMapper.Call.mapMatrix "B" 3 2,
         MemoryMapper.Call.mapMatrix "C" 2 2]
      = some (MemoryMapper.recordLayout (MemoryMapper.recordLayout (MemoryMapper.recordLayout
          MemoryMapper.new ⟨0, 0, 0, 6⟩ "A" 2 3) ⟨0, 0, 0, 12⟩ "B" 3 2) ⟨0, 0, 0, 16⟩ "C" 2 2)
    ∧ ∃ rest, SIMDGenerator.generateMatrixMultSIMD (2 ^ 32) SIMDGenerator.new "A" "B" "C"
          (MemoryMapper.recordLayout (MemoryMapper.recordLayout (MemoryMapper.recordLayout
            MemoryMapper.new ⟨0, 0, 0, 6⟩ "A" 2 3) ⟨0, 0, 0, 12⟩ "B" 3 2) ⟨0, 0, 0, 16⟩ "C" 2 2)
        = some (SIMDGenerator.new.generateSIMDLUTProgramming PIMOpcode.MAC ++ rest)
      ∧ (∀ x ∈ rest, x.type ≠ PIMInstructionType.PROG)
      ∧ rest.length = 16 := by
  refine ⟨by decide, rfl, ?_⟩
  have h := SIMDGenerator.lut_prefix (2 ^ 32) SIMDGenerator.new "A" "B" "C"
    (MemoryMapper.recordLayout (MemoryMapper.recordLayout (MemoryMapper.recordLayout
      MemoryMapper.new ⟨0, 0, 0, 6⟩ "A" 2 3) ⟨0, 0, 0, 12⟩ "B" 3 2) ⟨0, 0, 0, 16⟩ "C" 2 2)
    (by decide) (le_refl _) (by decide)
  obtain ⟨⟨rest, e, hrest⟩, hlen, _⟩ := h
  refine ⟨rest, e, hrest, ?_⟩
  have h52 : (SIMDGenerator.generateMatrixMultSIMD (2 ^ 32) SIMDGenerator.new "A" "B" "C"
      (MemoryMapper.recordLayout (MemoryMapper.recordLayout (MemoryMapper.recordLayout
        MemoryMapper.new ⟨0, 0, 0, 6⟩ "A" 2 3) ⟨0, 0, 0, 12⟩ "B" 3 2) ⟨0, 0, 0, 16⟩ "C" 2
        2)).map List.length = some 52 := by decide
  rw [e, Option.map_some', List.length_append, hlen] at h52
  have h36 : SIMDGenerator.new.ClustersPerRow * SIMDGenerator.new.CoresPerCluster = 36 := rfl
  rw [h36] at h52
  have := Option.some.inj h52
  omega

/-- C25: `generateSIMDMemoryAccess(isRead, as)` returns instructions whose
addresses are strictly increasing and are exactly the values occurring in `as`
(so one instruction per distinct value), each of type MEMORY_READ if `isRead` and
MEMORY_WRITE otherwise. -/
theorem SIMDGenerator.memory_access_coalesced (isRead : Bool) (addresses : List Nat) :
    ((SIMDGenerator.generateSIMDMemoryAccess isRead addresses).map
        (fun x => x.address)).Pairwise (· < ·)
    ∧ (∀ a, a ∈ (SIMDGenerator.generateSIMDMemoryAccess isRead addresses).map
        (fun x => x.address) ↔ a ∈ addresses)
    ∧ (SIMDGenerator.generateSIMDMemoryAccess isRead addresses).length
        = addresses.dedup.length
    ∧ (∀ x ∈ SIMDGenerator.generateSIMDMemoryAccess isRead addresses,
        x.type = (if isRead then PIMInstructionType.MEMORY_READ
                  else PIMInstructionType.MEMORY_WRITE)) := by
  obtain ⟨h1, h2⟩ := SIMDGenerator.groups_keys addresses [] (by simp)
  have hmap : (SIMDGenerator.generateSIMDMemoryAccess isRead addresses).map (fun x => x.address)
      = (addresses.foldl (fun groups addr => mapPush groups addr addr) []).map Prod.fst := by
    rw [SIMDGenerator.generateSIMDMemoryAccess_eq, List.map_map]
    exact List.map_id' _
  have hmem : ∀ a, a ∈ (SIMDGenerator.generateSIMDMemoryAccess isRead addresses).map
      (fun x => x.address) ↔ a ∈ addresses := by
    intro a
    rw [hmap, h2 a]
    simp
  refine ⟨by rw [hmap]; exact h1, hmem, ?_, fun x hx => (SIMDGenerator.access_type _ _ x hx).1⟩
  have hnd : ((SIMDGenerator.generateSIMDMemoryAccess isRead addresses).map
      (fun x => x.address)).Nodup := by
    rw [hmap]
    exact h1.imp (fun h => Nat.ne_of_lt h)
  have hperm := (List.perm_ext_iff_of_nodup hnd (List.nodup_dedup addresses)).mpr
    (fun a => by rw [hmem a, List.mem_dedup])
  rw [← hperm.length_eq, List.length_map]

/-- Witness for C25: the read addresses 5, 3, 5, 9, 3 give three MEMORY_READ
instructions, at 3, 5 and 9. -/
theorem SIMDGenerator.memory_access_coalesced_witness :
    (SIMDGenerator.generateSIMDMemoryAccess true [5, 3, 5, 9, 3]).map (fun x => x.address)
        = [3, 5, 9]
    ∧ (5 ∈ (SIMDGenerator.generateSIMDMemoryAccess true [5, 3, 5, 9, 3]).map
        (fun x => x.address) ↔ 5 ∈ [5, 3, 5, 9, 3]) :=
  ⟨by decide, (SIMDGenerator.memory_access_coalesced true [5, 3, 5, 9, 3]).2.1 5⟩

/-- C26: for an accepted multiply (with `NumColsPerRow >= 1` and fuel `2^32`) every
`getElementLocation` returns, and the output is the LUT block followed by the
concatenation, over the pairs `(i, j)` in row-major order, of the coalesced
MEMORY_READs of the row addresses of `A[i][0..K)` and `B[0..K)[j]`, the pair
EXE MAC, END, and one MEMORY_WRITE at the row address of
`getElementLocation(layoutC, i, j)`, where `K = layoutA.cols`. -/
theorem SIMDGenerator.element_blocks (fuel : Nat) (sg : SIMDGenerator)
    (matrixA matrixB resultMatrix : String) (m : MemoryMapper)
    (hC : 0 < m.NumColsPerRow) (hf : 2 ^ 32 ≤ fuel)
    (hacc : (m.getMatrixLayout matrixA).cols = (m.getMatrixLayout matrixB).rows) :
    (∀ L row col, ∃ p, m.getElementLocation fuel L row col = some p
        ∧ SIMDGenerator.elementRow fuel m L row col = p.rowAddress)
    ∧ SIMDGenerator.generateMatrixMultSIMD fuel sg matrixA matrixB resultMatrix m
      = some (sg.generateSIMDLUTProgramming PIMOpcode.MAC
          ++ (SIMDGenerator.pairs (m.getMatrixLayout matrixA).rows
                (m.getMatrixLayout matrixB).cols).flatMap
              (fun ij =>
                SIMDGenerator.generateSIMDMemoryAccess true
                    ((List.range (m.getMatrixLayout matrixA).cols).map
                        (fun k => SIMDGenerator.elementRow fuel m (m.getMatrixLayout matrixA)
                          ij.1 k)
                      ++ (List.range (m.getMatrixLayout matrixA).cols).map
                        (fun k => SIMDGenerator.elementRow fuel m (m.getMatrixLayout matrixB)
                          k ij.2))
                  ++ [{ type := PIMInstructionType.EXE, coreId := 0, opcode := PIMOpcode.MAC,
                        address := 0 },
                      { type := PIMInstructionType.END, coreId := 0, opcode := PIMOpcode.ADD,
                        address := 0 }]
                  ++ [{ type := PIMInstructionType.MEMORY_WRITE, coreId := 0,
                        opcode := PIMOpcode.ADD,
                        address := SIMDGenerator.elementRow fuel m
                          (m.getMatrixLayout resultMatrix) ij.1 ij.2 }]))
    ∧ (SIMDGenerator.pairs (m.getMatrixLayout matrixA).rows
        (m.getMatrixLayout matrixB).cols).length
        = (m.getMatrixLayout matrixA).rows * (m.getMatrixLayout matrixB).cols
    ∧ (∀ i j, i < (m.getMatrixLayout matrixA).rows → j < (m.getMatrixLayout matrixB).cols →
        (SIMDGenerator.pairs (m.getMatrixLayout matrixA).rows
          (m.getMatrixLayout matrixB).cols)[i * (m.getMatrixLayout matrixB).cols + j]?
          = some (i, j)) := by
  refine ⟨?_, ?_, SIMDGenerator.pairs_length _ _, SIMDGenerator.pairs_getElem _ _⟩
  · intro L row col
    obtain ⟨p, hp⟩ := SIMDGenerator.getElementLocation_returns m hC fuel hf L row col
    exact ⟨p, hp, by simp only [SIMDGenerator.elementRow, hp]⟩
  · rw [SIMDGenerator.generateMatrixMultSIMD_eq fuel sg matrixA matrixB resultMatrix m
      hC hf hacc]
    simp only [SIMDGenerator.elementBlock, SIMDGenerator.write_single, hacc]
    rfl

/-- Witness for C26: the default mapper with A (2 x 3), B (3 x 2) and C (2 x 2)
recorded at columns 0, 6 and 12 of row 0; the pair at position `1*2 + 1` is (1, 1). -/
theorem SIMDGenerator.element_blocks_witness :
    (0 < MemoryMapper.new.NumColsPerRow ∧ 1 < 2)
    ∧ (SIMDGenerator.pairs
        ((MemoryMapper.recordLayout (MemoryMapper.recordLayout (MemoryMapper.recordLayout
          MemoryMapper.new ⟨0, 0, 0, 6⟩ "A" 2 3) ⟨0, 0, 0, 12⟩ "B" 3 2) ⟨0, 0, 0, 16⟩ "C" 2
          2).getMatrixLayout "A").rows
        ((MemoryMapper.recordLayout (MemoryMapper.recordLayout (MemoryMapper.recordLayout
          MemoryMapper.new ⟨0, 0, 0, 6⟩ "A" 2 3) ⟨0, 0, 0, 12⟩ "B" 3 2) ⟨0, 0, 0, 16⟩ "C" 2
          2).getMatrixLayout "B").cols)[1 * 2 + 1]? = some (1, 1) :=
  ⟨by decide,
   (SIMDGenerator.element_blocks (2 ^ 32) SIMDGenerator.new "A" "B" "C"
     (MemoryMapper.recordLayout (MemoryMapper.recordLayout (MemoryMapper.recordLayout
       MemoryMapper.new ⟨0, 0, 0, 6⟩ "A" 2 3) ⟨0, 0, 0, 12⟩ "B" 3 2) ⟨0, 0, 0, 16⟩ "C" 2 2)
     (by decide) (le_refl _) (by decide)).2.2.2 1 1 (by decide) (by decide)⟩

namespace SIMDGenerator

/-- Filtering a concatenation of blocks that each keep one element. -/
theorem filter_flatMap_single {α β : Type} (p : β → Bool) (f : α → List β) (g : α → β)
    (h : ∀ a, (f a).filter p = [g a]) (l : List α) :
    (l.flatMap f).filter p = l.map g := by
  induction l with
  | nil => rfl
  | cons a rest ih =>
    rw [List.flatMap_cons, List.filter_append, ih, h, List.map_cons]
    rfl

/-- The MEMORY_WRITE instructions of an element block: the single write. -/
theorem block_writes (fuel : Nat) (m : MemoryMapper) (LA LB LC : MatrixMemoryLayout)
    (i j : Nat) :
    (elementBlock fuel m LA LB LC i j).filter
        (fun x => decide (x.type = PIMInstructionType.MEMORY_WRITE))
      = [{ type := PIMInstructionType.MEMORY_WRITE, coreId := 0, opcode := PIMOpcode.ADD,
           address := elementRow fuel m LC i j }] := by
  unfold elementBlock
  rw [List.filter_append, List.filter_append, write_single]
  have hr : (generateSIMDMemoryAccess true
      ((List.range LA.cols).map (fun k => elementRow fuel m LA i k)
        ++ (List.range LB.rows).map (fun k => elementRow fuel m LB k j))).filter
      (fun x => decide (x.type = PIMInstructionType.MEMORY_WRITE)) = [] := by
    rw [List.filter_eq_nil_iff]
    intro x hx
    rw [(access_type true _ x hx).1]
    simp
  rw [hr]
  rfl

/-- The LUT block contains no MEMORY_WRITE. -/
theorem lut_writes (sg : SIMDGenerator) (opcode : PIMOpcode) :
    (sg.generateSIMDLUTProgramming opcode).filter
        (fun x => decide (x.type = PIMInstructionType.MEMORY_WRITE)) = [] := by
  rw [List.filter_eq_nil_iff]
  intro x hx
  rw [lut_all_prog sg opcode x hx]
  simp

/-- The LUT block contains no instruction of a type other than PROG. -/
theorem lut_count (sg : SIMDGenerator) (opcode : PIMOpcode) (t : PIMInstructionType)
    (ht : t ≠ PIMInstructionType.PROG) :
    (sg.generateSIMDLUTProgramming opcode).countP (fun x => decide (x.type = t)) = 0 := by
  apply countP_type_zero
  intro x hx
  rw [lut_all_prog sg opcode x hx]
  exact fun h => ht h.symm

/-- Counting a type in the LUT block followed by the element blocks, given its
count in each element block. -/
theorem output_count (fuel : Nat) (sg : SIMDGenerator) (m : MemoryMapper)
    (LA LB LC : MatrixMemoryLayout) (R C : Nat) (t : PIMInstructionType)
    (ht : t ≠ PIMInstructionType.PROG)
    (hb : ∀ i j, (elementBlock fuel m LA LB LC i j).countP
      (fun x => decide (x.type = t)) = 1) :
    (sg.generateSIMDLUTProgramming PIMOpcode.MAC
        ++ (pairs R C).flatMap (fun ij => elementBlock fuel m LA LB LC ij.1 ij.2)).countP
      (fun x => decide (x.type = t)) = R * C := by
  rw [List.countP_append, lut_count sg _ t ht]
  have h := countP_flatMap_const (fun x : PIMInstruction => decide (x.type = t))
    (fun ij : Nat × Nat => elementBlock fuel m LA LB LC ij.1 ij.2) 1
    (fun ij => hb ij.1 ij.2) (pairs R C)
  rw [h, pairs_length]
  omega

/-- The output of an accepted multiply satisfies `ExeThenEnd`. -/
theorem output_exeThenEnd (fuel : Nat) (sg : SIMDGenerator) (m : MemoryMapper)
    (LA LB LC : MatrixMemoryLayout) (R C : Nat) :
    ExeThenEnd (sg.generateSIMDLUTProgramming PIMOpcode.MAC
      ++ (pairs R C).flatMap (fun ij => elementBlock fuel m LA LB LC ij.1 ij.2)) := by
  apply exeThenEnd_append
  · apply exeThenEnd_of_no_exe
    intro x hx
    rw [lut_all_prog sg _ x hx]
    simp
  · exact exeThenEnd_flatMap
      (fun ij : Nat × Nat => elementBlock fuel m LA LB LC ij.1 ij.2)
      (fun ij => block_exeThenEnd fuel m LA LB LC ij.1 ij.2) (pairs R C)

/-- The write addresses of the output of an accepted multiply. -/
theorem output_writes (fuel : Nat) (sg : SIMDGenerator) (m : MemoryMapper)
    (LA LB LC : MatrixMemoryLayout) (R C : Nat) :
    ((sg.generateSIMDLUTProgramming PIMOpcode.MAC
        ++ (pairs R C).flatMap (fun ij => elementBlock fuel m LA LB LC ij.1 ij.2)).filter
      (fun x => decide (x.type = PIMInstructionType.MEMORY_WRITE))).map (fun x => x.address)
      = (pairs R C).map (fun ij => elementRow fuel m LC ij.1 ij.2) := by
  rw [List.filter_append, lut_writes, List.nil_append]
  have h := filter_flatMap_single
    (fun x : PIMInstruction => decide (x.type = PIMInstructionType.MEMORY_WRITE))
    (fun ij : Nat × Nat => elementBlock fuel m LA LB LC ij.1 ij.2)
    (fun ij : Nat × Nat =>
      ({ type := PIMInstructionType.MEMORY_WRITE, coreId := 0, opcode := PIMOpcode.ADD,
         address := elementRow fuel m LC ij.1 ij.2 } : PIMInstruction))
    (fun ij => block_writes fuel m LA LB LC ij.1 ij.2) (pairs R C)
  rw [h, List.map_map]
  apply List.map_congr_left
  intro ij _
  rfl

end SIMDGenerator

/-- C27: for an accepted multiply (with `NumColsPerRow >= 1` and fuel `2^32`) the
output contains exactly `layoutA.rows*layoutB.cols` EXE instructions, as many END
and as many MEMORY_WRITE instructions; every EXE has opcode MAC and is immediately
followed by an END; in the default session for a 2 x 3 by 3 x 2 multiply there are
exactly 4 EXE and 4 END. -/
theorem SIMDGenerator.compute_pairs (fuel : Nat) (sg : SIMDGenerator)
    (matrixA matrixB resultMatrix : String) (m : MemoryMapper)
    (hC : 0 < m.NumColsPerRow) (hf : 2 ^ 32 ≤ fuel)
    (hacc : (m.getMatrixLayout matrixA).cols = (m.getMatrixLayout matrixB).rows) :
    (∃ out, SIMDGenerator.generateMatrixMultSIMD fuel sg matrixA matrixB resultMatrix m
          = some out
        ∧ out.countP (fun x => decide (x.type = PIMInstructionType.EXE))
            = (m.getMatrixLayout matrixA).rows * (m.getMatrixLayout matrixB).cols
        ∧ out.countP (fun x => decide (x.type = PIMInstructionType.END))
            = (m.getMatrixLayout matrixA).rows * (m.getMatrixLayout matrixB).cols
        ∧ out.countP (fun x => decide (x.type = PIMInstructionType.MEMORY_WRITE))
            = (m.getMatrixLayout matrixA).rows * (m.getMatrixLayout matrixB).cols
        ∧ ∀ (idx : Nat) (x : PIMInstruction), out[idx]? = some x →
            x.type = PIMInstructionType.EXE →
            x.opcode = PIMOpcode.MAC
            ∧ ∃ y, out[idx + 1]? = some y ∧ y.type = PIMInstructionType.END)
    ∧ ((SIMDGenerator.multiplySession (2 ^ 32) 2 3 2).bind
          (fun m1 => SIMDGenerator.generateMatrixMultSIMD (2 ^ 32) SIMDGenerator.new
            "A" "B" "C" m1)).map
        (fun out => (out.countP (fun x => decide (x.type = PIMInstructionType.EXE)),
          out.countP (fun x => decide (x.type = PIMInstructionType.END))))
      = some (4, 4) := by
  have heq := SIMDGenerator.generateMatrixMultSIMD_eq fuel sg matrixA matrixB resultMatrix m
    hC hf hacc
  constructor
  swap
  · decide
  refine ⟨_, heq, ?_, ?_, ?_, ?_⟩
  · exact SIMDGenerator.output_count fuel sg m _ _ _ _ _ PIMInstructionType.EXE (by decide)
      (fun i j => (SIMDGenerator.block_counts fuel m _ _ _ i j).1)
  · exact SIMDGenerator.output_count fuel sg m _ _ _ _ _ PIMInstructionType.END (by decide)
      (fun i j => (SIMDGenerator.block_counts fuel m _ _ _ i j).2.1)
  · exact SIMDGenerator.output_count fuel sg m _ _ _ _ _ PIMInstructionType.MEMORY_WRITE
      (by decide) (fun i j => (SIMDGenerator.block_counts fuel m _ _ _ i j).2.2)
  · exact SIMDGenerator.output_exeThenEnd fuel sg m _ _ _ _ _

/-- Witness for C27: the default mapper with A (2 x 3), B (3 x 2) and C (2 x 2)
recorded at columns 0, 6 and 12 of row 0. -/
theorem SIMDGenerator.compute_pairs_witness :
    (0 < MemoryMapper.new.NumColsPerRow)
    ∧ ∃ out, SIMDGenerator.generateMatrixMultSIMD (2 ^ 32) SIMDGenerator.new "A" "B" "C"
        (MemoryMapper.recordLayout (MemoryMapper.recordLayout (MemoryMapper.recordLayout
          MemoryMapper.new ⟨0, 0, 0, 6⟩ "A" 2 3) ⟨0, 0, 0, 12⟩ "B" 3 2) ⟨0, 0, 0, 16⟩ "C" 2 2)
        = some out
      ∧ out.countP (fun x => decide (x.type = PIMInstructionType.EXE)) = 2 * 2 :=
  ⟨by decide,
   let ⟨out, e, h, _⟩ :=
     (SIMDGenerator.compute_pairs (2 ^ 32) SIMDGenerator.new "A" "B" "C"
       (MemoryMapper.recordLayout (MemoryMapper.recordLayout (MemoryMapper.recordLayout
         MemoryMapper.new ⟨0, 0, 0, 6⟩ "A" 2 3) ⟨0, 0, 0, 12⟩ "B" 3 2) ⟨0, 0, 0, 16⟩ "C" 2 2)
       (by decide) (le_refl _) (by decide)).1
   ⟨out, e, h⟩⟩

/-- C28 (as stated, refuted): in the default session for A (2 x 3), B (3 x 2) and
C (2 x 2) the four MEMORY_WRITE instructions all have address 0: the addresses are
not pairwise distinct, because the instruction address is the row address and the
four result cells lie in row 0. -/
theorem SIMDGenerator.write_addresses_counterexample :
    ((SIMDGenerator.multiplySession (2 ^ 32) 2 3 2).bind
        (fun m1 => SIMDGenerator.generateMatrixMultSIMD (2 ^ 32) SIMDGenerator.new
          "A" "B" "C" m1)).map
      (fun out => (out.filter
        (fun x => decide (x.type = PIMInstructionType.MEMORY_WRITE))).map (fun x => x.address))
      = some [0, 0, 0, 0] := by
  decide

/-- C28 (amended): for an accepted multiply (with `NumColsPerRow >= 1` and fuel
`2^32`) the MEMORY_WRITE instructions of the output are, in row-major order of the
result cells `(i, j)`, one per cell, with address the row address of
`getElementLocation(layoutC, i, j)`; in the default session for A (2 x 3),
B (3 x 2), C (2 x 2) the four cells are at the pairwise distinct locations
(0,0,0,12), (0,0,0,13), (0,0,0,14), (0,0,0,15), all in row 0, and the four write
addresses are 0, 0, 0, 0. -/
theorem SIMDGenerator.write_addresses (fuel : Nat) (sg : SIMDGenerator)
    (matrixA matrixB resultMatrix : String) (m : MemoryMapper)
    (hC : 0 < m.NumColsPerRow) (hf : 2 ^ 32 ≤ fuel)
    (hacc : (m.getMatrixLayout matrixA).cols = (m.getMatrixLayout matrixB).rows) :
    (∃ out, SIMDGenerator.generateMatrixMultSIMD fuel sg matrixA matrixB resultMatrix m
          = some out
        ∧ (out.filter (fun x => decide (x.type = PIMInstructionType.MEMORY_WRITE))).map
            (fun x => x.address)
          = (SIMDGenerator.pairs (m.getMatrixLayout matrixA).rows
              (m.getMatrixLayout matrixB).cols).map
              (fun ij => SIMDGenerator.elementRow fuel m (m.getMatrixLayout resultMatrix)
                ij.1 ij.2))
    ∧ (SIMDGenerator.multiplySession (2 ^ 32) 2 3 2).bind
        (fun m1 => (SIMDGenerator.generateMatrixMultSIMD (2 ^ 32) SIMDGenerator.new
          "A" "B" "C" m1).map
          (fun out =>
            ((out.filter (fun x => decide (x.type = PIMInstructionType.MEMORY_WRITE))).map
                (fun x => x.address),
              (SIMDGenerator.pairs 2 2).map (fun ij =>
                m1.getElementLocation (2 ^ 32) (m1.getMatrixLayout "C") ij.1 ij.2))))
      = some ([0, 0, 0, 0],
          [some ⟨0, 0, 0, 12⟩, some ⟨0, 0, 0, 13⟩, some ⟨0, 0, 0, 14⟩, some ⟨0, 0, 0, 15⟩]) := by
  have heq := SIMDGenerator.generateMatrixMultSIMD_eq fuel sg matrixA matrixB resultMatrix m
    hC hf hacc
  constructor
  swap
  · decide
  exact ⟨_, heq, SIMDGenerator.output_writes fuel sg m _ _ _ _ _⟩

/-- Witness for C28: the default mapper with A (2 x 3), B (3 x 2) and C (2 x 2)
recorded at columns 0, 6 and 12 of row 0. -/
theorem SIMDGenerator.write_addresses_witness :
    (0 < MemoryMapper.new.NumColsPerRow)
    ∧ ∃ out, SIMDGenerator.generateMatrixMultSIMD (2 ^ 32) SIMDGenerator.new "A" "B" "C"
        (MemoryMapper.recordLayout (MemoryMapper.recordLayout (MemoryMapper.recordLayout
          MemoryMapper.new ⟨0, 0, 0, 6⟩ "A" 2 3) ⟨0, 0, 0, 12⟩ "B" 3 2) ⟨0, 0, 0, 16⟩ "C" 2 2)
        = some out :=
  ⟨by decide,
   let ⟨out, e, _⟩ :=
     (SIMDGenerator.write_addresses (2 ^ 32) SIMDGenerator.new "A" "B" "C"
       (MemoryMapper.recordLayout (MemoryMapper.recordLayout (MemoryMapper.recordLayout
         MemoryMapper.new ⟨0, 0, 0, 6⟩ "A" 2 3) ⟨0, 0, 0, 12⟩ "B" 3 2) ⟨0, 0, 0, 16⟩ "C" 2 2)
       (by decide) (le_refl _) (by decide)).1
   ⟨out, e⟩⟩

/-- C29 (what the code does): with A (2 x 3), B (3 x 2) and the result mapped as
1 x 1 in a fresh default session, `generateMatrixMultSIMD` does not reject the
multiply: it returns 52 instructions, the 36 PROG and four element blocks with 4
EXE and 4 MEMORY_WRITE (three of them for cells outside the 1 x 1 result,
written at the default location's row 0). -/
theorem SIMDGenerator.result_shape_unchecked :
    ((MemoryMapper.runCalls (2 ^ 32) MemoryMapper.new
        [MemoryMapper.Call.mapMatrix "A" 2 3, MemoryMapper.Call.mapMatrix "B" 3 2,
         MemoryMapper.Call.mapMatrix "C" 1 1]).bind
        (fun m1 => SIMDGenerator.generateMatrixMultSIMD (2 ^ 32) SIMDGenerator.new
          "A" "B" "C" m1)).map
      (fun out => (out.length,
        out.countP (fun x => decide (x.type = PIMInstructionType.EXE)),
        (out.filter (fun x => decide (x.type = PIMInstructionType.MEMORY_WRITE))).map
          (fun x => x.address)))
      = some (52, 4, [0, 0, 0, 0]) := by
  decide

/-- C30 (what the code does): with no matrix mapped at all, the three default
layouts are 0 x 0, the dimension check passes and `generateMatrixMultSIMD` returns
the 36 PROG instructions of the LUT block; with A (2 x 3) and B (3 x 2) mapped and
the result name not mapped it returns all 52 instructions. -/
theorem SIMDGenerator.unmapped_not_rejected :
    SIMDGenerator.generateMatrixMultSIMD 0 SIMDGenerator.new "A" "B" "C" MemoryMapper.new
        = some (SIMDGenerator.new.generateSIMDLUTProgramming PIMOpcode.MAC)
    ∧ (SIMDGenerator.new.generateSIMDLUTProgramming PIMOpcode.MAC).length = 36
    ∧ ((MemoryMapper.runCalls (2 ^ 32) MemoryMapper.new
          [MemoryMapper.Call.mapMatrix "A" 2 3, MemoryMapper.Call.mapMatrix "B" 3 2]).bind
          (fun m1 => SIMDGenerator.generateMatrixMultSIMD (2 ^ 32) SIMDGenerator.new
            "A" "B" "C" m1)).map (fun out => out.length)
        = some 52 := by
  refine ⟨by decide, by decide, by decide⟩

/-! ## The regrouping pass `mapToSIMD` -/

/-- The first loop of `mapToSIMD` splits the input by type, keeping the input
order inside each vector. -/
theorem SIMDGenerator.foldl_classify (l : List PIMInstruction) :
    ∀ b : SIMDBuckets, l.foldl classify b
      = { simdInstructions := b.simdInstructions
            ++ l.filter (fun x => decide (x.type = PIMInstructionType.END)),
          progInstructions := b.progInstructions
            ++ l.filter (fun x => decide (x.type = PIMInstructionType.PROG)),
          exeInstructions := b.exeInstructions
            ++ l.filter (fun x => decide (x.type = PIMInstructionType.EXE)),
          memReadInstructions := b.memReadInstructions
            ++ l.filter (fun x => decide (x.type = PIMInstructionType.MEMORY_READ)),
          memWriteInstructions := b.memWriteInstructions
            ++ l.filter (fun x => decide (x.type = PIMInstructionType.MEMORY_WRITE)) } := by
  induction l with
  | nil => intro b; simp
  | cons x xs ih =>
    intro b
    rw [List.foldl_cons, ih]
    rcases x with ⟨t, c, o, a⟩
    cases t <;> simp [classify, List.filter_cons]

/-- The keys of the opcode groups are strictly increasing and are the positions
of the opcodes that occur. -/
theorem SIMDGenerator.opcodeGroups_keys (l : List PIMInstruction) :
    ((opcodeGroups l).map Prod.fst).Pairwise (· < ·)
    ∧ ∀ k, k ∈ (opcodeGroups l).map Prod.fst ↔ ∃ x ∈ l, x.opcode.toNat = k := by
  have gen : ∀ (l : List PIMInstruction) (init : List (Nat × List PIMInstruction)),
      (init.map Prod.fst).Pairwise (· < ·) →
      ((l.foldl (fun groups inst => mapPush groups inst.opcode.toNat inst) init).map
          Prod.fst).Pairwise (· < ·)
      ∧ ∀ k, k ∈ (l.foldl (fun groups inst => mapPush groups inst.opcode.toNat inst) init).map
          Prod.fst ↔ (∃ x ∈ l, x.opcode.toNat = k) ∨ k ∈ init.map Prod.fst := by
    intro l
    induction l with
    | nil => intro init h; simp [h]
    | cons a rest ih =>
      intro init h
      simp only [List.foldl_cons]
      obtain ⟨h1, h2⟩ := ih (mapPush init a.opcode.toNat a)
        (mapPush_keys_sorted init a.opcode.toNat a h)
      refine ⟨h1, ?_⟩
      intro k
      rw [h2 k, mapPush_keys_mem]
      simp only [List.mem_cons, exists_eq_or_imp]
      constructor
      · rintro (h | h | h)
        · exact Or.inl (Or.inr h)
        · exact Or.inl (Or.inl h.symm)
        · exact Or.inr h
      · rintro ((h | h) | h)
        · exact Or.inr (Or.inl h.symm)
        · exact Or.inl h
        · exact Or.inr (Or.inr h)
  obtain ⟨h1, h2⟩ := gen l [] (by simp)
  refine ⟨h1, ?_⟩
  intro k
  have := h2 k
  simpa [opcodeGroups] using this

/-- Reading a key back gives the opcode at that position. -/
theorem PIMOpcode.ofKey_toNat (o : PIMOpcode) : PIMOpcode.ofKey o.toNat = o := by
  cases o <;> rfl

/-- A strictly increasing list of positions below 4 is the list of the positions
0..3 it contains. -/
theorem SIMDGenerator.sorted_keys_eq (keys : List Nat) (hs : keys.Pairwise (· < ·))
    (hb : ∀ k ∈ keys, k < 4) :
    keys = [0, 1, 2, 3].filter (fun k => decide (k ∈ keys)) := by
  apply List.eq_of_perm_of_sorted (r := (· < ·))
  · rw [List.perm_ext_iff_of_nodup hs.nodup ((by decide : [0, 1, 2, 3].Nodup).filter _)]
    intro k
    simp only [List.mem_filter, decide_eq_true_eq, List.mem_cons, List.mem_singleton,
      List.not_mem_nil, or_false]
    constructor
    · intro h
      have := hb k h
      refine ⟨by omega, h⟩
    · intro h; exact h.2
  · exact hs
  · exact List.Pairwise.filter _ (by decide)

/-- The opcodes of the groups, in map order, are the opcodes that occur, in
increasing order of position. -/
theorem SIMDGenerator.opcodeGroups_opcodes (l : List PIMInstruction) :
    (opcodeGroups l).map (fun g => PIMOpcode.ofKey g.1)
      = allOpcodes.filter (fun o => decide (o ∈ l.map (fun x => x.opcode))) := by
  obtain ⟨hs, hm⟩ := SIMDGenerator.opcodeGroups_keys l
  have hb : ∀ k ∈ (opcodeGroups l).map Prod.fst, k < 4 := by
    intro k hk
    obtain ⟨x, _, hx⟩ := (hm k).mp hk
    rw [← hx]
    cases x.opcode <;> decide
  have hkeys := SIMDGenerator.sorted_keys_eq _ hs hb
  have e1 : (opcodeGroups l).map (fun g => PIMOpcode.ofKey g.1)
      = ((opcodeGroups l).map Prod.fst).map PIMOpcode.ofKey := by
    rw [List.map_map]; rfl
  rw [e1, hkeys]
  have e2 : allOpcodes = [0, 1, 2, 3].map PIMOpcode.ofKey := rfl
  rw [e2, List.filter_map]
  congr 1
  apply List.filter_congr
  intro k hk
  simp only [Function.comp, decide_eq_decide]
  rw [hm k]
  simp only [List.mem_map]
  constructor
  · rintro ⟨x, hx, e⟩
    exact ⟨x, hx, by rw [← e, PIMOpcode.ofKey_toNat]⟩
  · rintro ⟨x, hx, e⟩
    refine ⟨x, hx, ?_⟩
    rw [e]
    simp only [List.mem_cons, List.mem_singleton, List.not_mem_nil, or_false] at hk
    rcases hk with h | h | h | h <;> subst h <;> rfl

/-- A block appended only when its source vector is not empty is the block
itself, if an empty source gives an empty block. -/
theorem SIMDGenerator.guarded_append {α β : Type} (l : List α) (X Y : List β)
    (h : l = [] → Y = []) :
    (if (!l.isEmpty) = true then X ++ Y else X) = X ++ Y := by
  cases l with
  | nil => simp [h rfl]
  | cons a rest => simp

/-- Mapping before a flatMap. -/
theorem SIMDGenerator.flatMap_of_map {α β γ : Type} (f : α → β) (g : β → List γ)
    (l : List α) : l.flatMap (fun a => g (f a)) = (l.map f).flatMap g := by
  induction l with
  | nil => rfl
  | cons a rest ih => simp [List.flatMap_cons, ih]

/-- One block per opcode group is one block per opcode that occurs, in increasing
order of position. -/
theorem SIMDGenerator.groups_flatMap {γ : Type} (f : PIMOpcode → List γ)
    (t : PIMInstructionType) (l : List PIMInstruction) :
    (opcodeGroups (l.filter (fun x => decide (x.type = t)))).flatMap
        (fun group => f (PIMOpcode.ofKey group.1))
      = (allOpcodes.filter (fun o => decide (o ∈ opcodesOf t l))).flatMap f := by
  rw [SIMDGenerator.flatMap_of_map (fun g : Nat × List PIMInstruction => PIMOpcode.ofKey g.1) f,
    SIMDGenerator.opcodeGroups_opcodes]
  rfl

/-- The output of `mapToSIMD`: the END instructions of the input, then one LUT
block per opcode of a PROG instruction, one compute pair per opcode of an EXE
instruction, the coalesced reads and the coalesced writes. -/
theorem SIMDGenerator.mapToSIMD_eq (sg : SIMDGenerator) (l : List PIMInstruction) :
    sg.mapToSIMD l
      = l.filter (fun x => decide (x.type = PIMInstructionType.END))
        ++ (allOpcodes.filter (fun o => decide (o ∈ opcodesOf PIMInstructionType.PROG l))).flatMap
            (fun o => sg.generateSIMDLUTProgramming o)
        ++ (allOpcodes.filter (fun o => decide (o ∈ opcodesOf PIMInstructionType.EXE l))).flatMap
            (fun o => generateSIMDCompute o)
        ++ generateSIMDMemoryAccess true (addressesOf PIMInstructionType.MEMORY_READ l)
        ++ generateSIMDMemoryAccess false (addressesOf PIMInstructionType.MEMORY_WRITE l) := by
  unfold mapToSIMD
  simp only [SIMDGenerator.foldl_classify, List.nil_append]
  rw [MatrixAnalyzer.foldl_append_flatMap, MatrixAnalyzer.foldl_append_flatMap,
    foldl_push_map, foldl_push_map]
  rw [SIMDGenerator.guarded_append _ _ _ (fun h => by rw [h]; rfl),
    SIMDGenerator.guarded_append _ _ _ (fun h => by rw [h]; rfl),
    SIMDGenerator.guarded_append _ _ _ (fun h => by rw [h]; rfl),
    SIMDGenerator.guarded_append _ _ _ (fun h => by rw [h]; rfl)]
  rw [SIMDGenerator.groups_flatMap (fun o => sg.generateSIMDLUTProgramming o)
      PIMInstructionType.PROG l,
    SIMDGenerator.groups_flatMap (fun o => generateSIMDCompute o) PIMInstructionType.EXE l]
  rfl

/-- The instructions of a type no element of the list has. -/
theorem SIMDGenerator.filter_type_nil (l : List PIMInstruction) (t : PIMInstructionType)
    (h : ∀ x ∈ l, x.type ≠ t) : l.filter (fun x => decide (x.type = t)) = [] := by
  rw [List.filter_eq_nil_iff]
  intro x hx
  simpa using h x hx

/-- The instructions of the type all elements of the list have. -/
theorem SIMDGenerator.filter_type_self (l : List PIMInstruction) (t : PIMInstructionType)
    (h : ∀ x ∈ l, x.type = t) : l.filter (fun x => decide (x.type = t)) = l := by
  rw [List.filter_eq_self]
  intro x hx
  simpa using h x hx

/-- The types of the instructions of the LUT blocks of `mapToSIMD`. -/
theorem SIMDGenerator.lut_blocks_type (sg : SIMDGenerator) (ops : List PIMOpcode)
    (x : PIMInstruction)
    (h : x ∈ ops.flatMap (fun o => sg.generateSIMDLUTProgramming o)) :
    x.type = PIMInstructionType.PROG := by
  rw [List.mem_flatMap] at h
  obtain ⟨o, _, hx⟩ := h
  exact lut_all_prog sg o x hx

/-- The types of the instructions of the compute pairs of `mapToSIMD`. -/
theorem SIMDGenerator.compute_blocks_type (ops : List PIMOpcode) (x : PIMInstruction)
    (h : x ∈ ops.flatMap (fun o => generateSIMDCompute o)) :
    x.type = PIMInstructionType.EXE ∨ x.type = PIMInstructionType.END := by
  rw [List.mem_flatMap] at h
  obtain ⟨o, _, hx⟩ := h
  simp only [generateSIMDCompute, PIMInstruction.default, List.nil_append, List.cons_append,
    List.mem_cons, List.mem_singleton, List.not_mem_nil, or_false] at hx
  rcases hx with hx | hx
  · left; rw [hx]
  · right; rw [hx]

/-- The addresses of a coalesced access block are strictly increasing and are the
addresses requested. -/
theorem SIMDGenerator.access_addresses (isRead : Bool) (addresses : List Nat) :
    ((generateSIMDMemoryAccess isRead addresses).map (fun x => x.address)).Pairwise (· < ·)
    ∧ ∀ a, a ∈ (generateSIMDMemoryAccess isRead addresses).map (fun x => x.address)
        ↔ a ∈ addresses := by
  have e : (generateSIMDMemoryAccess isRead addresses).map (fun x => x.address)
      = (addresses.foldl (fun groups addr => mapPush groups addr addr) []).map Prod.fst := by
    rw [generateSIMDMemoryAccess_eq, List.map_map]
    simp [Function.comp]
  rw [e]
  obtain ⟨h1, h2⟩ := groups_keys addresses [] (by simp)
  refine ⟨h1, ?_⟩
  intro a
  rw [h2 a]
  simp

/-- In a list split in two, an element of a kind absent from the second part
comes before an element of a kind absent from the first part. -/
theorem SIMDGenerator.split_precedes {α : Type} (p q : α → Prop) (pre post : List α)
    (hpre : ∀ y ∈ pre, ¬ q y) (hpost : ∀ x ∈ post, ¬ p x)
    (i j : Nat) (x y : α) (hi : (pre ++ post)[i]? = some x) (hj : (pre ++ post)[j]? = some y)
    (hx : p x) (hy : q y) : i < j := by
  have hi1 : i < pre.length := by
    by_contra hge
    rw [List.getElem?_append_right (by omega)] at hi
    exact hpost x (List.getElem?_mem hi) hx
  have hj1 : pre.length ≤ j := by
    by_contra hlt
    rw [List.getElem?_append_left (by omega)] at hj
    exact hpre y (List.getElem?_mem hj) hy
  omega

/-- The canonical LUT block of an opcode: `ClustersPerRow * CoresPerCluster` PROG
instructions carrying that opcode. -/
theorem SIMDGenerator.lut_block_shape (sg : SIMDGenerator) (o : PIMOpcode) :
    (sg.generateSIMDLUTProgramming o).length = sg.ClustersPerRow * sg.CoresPerCluster
    ∧ ∀ x ∈ sg.generateSIMDLUTProgramming o,
        x.type = PIMInstructionType.PROG ∧ x.opcode = o := by
  constructor
  · rw [generateSIMDLUTProgramming_eq,
      MatrixAnalyzer.flatMap_length_block _ sg.CoresPerCluster (fun _ => by simp), List.length_range,
      Nat.mul_comm]
  · intro x hx
    refine ⟨lut_all_prog sg o x hx, ?_⟩
    rw [generateSIMDLUTProgramming_eq, List.mem_flatMap] at hx
    obtain ⟨c, _, hx⟩ := hx
    rw [List.mem_map] at hx
    obtain ⟨k, _, hx⟩ := hx
    rw [← hx]

/-- C31: `mapToSIMD` passes every instruction whose type is none of PROG, EXE,
MEMORY_READ and MEMORY_WRITE (every END) through unchanged and in input order,
and these instructions are the prefix of the output: the regenerated LUT blocks,
compute pairs, reads and writes all come after them. -/
theorem SIMDGenerator.end_passthrough (sg : SIMDGenerator) (l : List PIMInstruction) :
    sg.mapToSIMD l
      = l.filter (fun x => decide (x.type ≠ PIMInstructionType.PROG
            ∧ x.type ≠ PIMInstructionType.EXE ∧ x.type ≠ PIMInstructionType.MEMORY_READ
            ∧ x.type ≠ PIMInstructionType.MEMORY_WRITE))
        ++ ((allOpcodes.filter
              (fun o => decide (o ∈ opcodesOf PIMInstructionType.PROG l))).flatMap
              (fun o => sg.generateSIMDLUTProgramming o)
            ++ (allOpcodes.filter
              (fun o => decide (o ∈ opcodesOf PIMInstructionType.EXE l))).flatMap
              (fun o => generateSIMDCompute o)
            ++ generateSIMDMemoryAccess true (addressesOf PIMInstructionType.MEMORY_READ l)
            ++ generateSIMDMemoryAccess false
                (addressesOf PIMInstructionType.MEMORY_WRITE l)) := by
  rw [SIMDGenerator.mapToSIMD_eq]
  have e : l.filter (fun x => decide (x.type ≠ PIMInstructionType.PROG
            ∧ x.type ≠ PIMInstructionType.EXE ∧ x.type ≠ PIMInstructionType.MEMORY_READ
            ∧ x.type ≠ PIMInstructionType.MEMORY_WRITE))
      = l.filter (fun x => decide (x.type = PIMInstructionType.END)) := by
    apply List.filter_congr
    intro x _
    rcases x with ⟨t, c, o, a⟩
    cases t <;> simp
  rw [e]
  simp only [List.append_assoc]

/-- The PROG, MEMORY_READ and MEMORY_WRITE instructions of the output of
`mapToSIMD`. -/
theorem SIMDGenerator.mapToSIMD_filter (sg : SIMDGenerator) (l : List PIMInstruction) :
    (sg.mapToSIMD l).filter (fun x => decide (x.type = PIMInstructionType.PROG))
      = (allOpcodes.filter (fun o => decide (o ∈ opcodesOf PIMInstructionType.PROG l))).flatMap
          (fun o => sg.generateSIMDLUTProgramming o)
    ∧ (sg.mapToSIMD l).filter (fun x => decide (x.type = PIMInstructionType.MEMORY_READ))
      = generateSIMDMemoryAccess true (addressesOf PIMInstructionType.MEMORY_READ l)
    ∧ (sg.mapToSIMD l).filter (fun x => decide (x.type = PIMInstructionType.MEMORY_WRITE))
      = generateSIMDMemoryAccess false (addressesOf PIMInstructionType.MEMORY_WRITE l) := by
  have hA : ∀ x ∈ l.filter (fun x => decide (x.type = PIMInstructionType.END)),
      x.type = PIMInstructionType.END := by
    intro x hx
    simpa using (List.mem_filter.mp hx).2
  have hP := SIMDGenerator.lut_blocks_type sg
    (allOpcodes.filter (fun o => decide (o ∈ opcodesOf PIMInstructionType.PROG l)))
  have hE := SIMDGenerator.compute_blocks_type
    (allOpcodes.filter (fun o => decide (o ∈ opcodesOf PIMInstructionType.EXE l)))
  have hR := fun x hx =>
    (access_type true (addressesOf PIMInstructionType.MEMORY_READ l) x hx).1
  have hW := fun x hx =>
    (access_type false (addressesOf PIMInstructionType.MEMORY_WRITE l) x hx).1
  simp only [if_true, Bool.false_eq_true, if_false] at hR hW
  rw [SIMDGenerator.mapToSIMD_eq]
  simp only [List.filter_append]
  refine ⟨?_, ?_, ?_⟩
  · rw [SIMDGenerator.filter_type_nil _ _ (fun x hx => by rw [hA x hx]; decide),
      SIMDGenerator.filter_type_self _ _ hP,
      SIMDGenerator.filter_type_nil _ _
        (fun x hx => by rcases hE x hx with h | h <;> rw [h] <;> decide),
      SIMDGenerator.filter_type_nil _ _ (fun x hx => by rw [hR x hx]; decide),
      SIMDGenerator.filter_type_nil _ _ (fun x hx => by rw [hW x hx]; decide)]
    simp
  · rw [SIMDGenerator.filter_type_nil _ _ (fun x hx => by rw [hA x hx]; decide),
      SIMDGenerator.filter_type_nil _ _ (fun x hx => by rw [hP x hx]; decide),
      SIMDGenerator.filter_type_nil _ _
        (fun x hx => by rcases hE x hx with h | h <;> rw [h] <;> decide),
      SIMDGenerator.filter_type_self _ _ hR,
      SIMDGenerator.filter_type_nil _ _ (fun x hx => by rw [hW x hx]; decide)]
    simp
  · rw [SIMDGenerator.filter_type_nil _ _ (fun x hx => by rw [hA x hx]; decide),
      SIMDGenerator.filter_type_nil _ _ (fun x hx => by rw [hP x hx]; decide),
      SIMDGenerator.filter_type_nil _ _
        (fun x hx => by rcases hE x hx with h | h <;> rw [h] <;> decide),
      SIMDGenerator.filter_type_nil _ _ (fun x hx => by rw [hR x hx]; decide),
      SIMDGenerator.filter_type_self _ _ hW]
    simp

/-- C32: in the output of `mapToSIMD` the PROG instructions are exactly one
canonical LUT block (`ClustersPerRow * CoresPerCluster` PROG instructions carrying
the opcode) for each distinct opcode among the PROG instructions of the input and
none for other opcodes, in increasing order of the opcodes; the MEMORY_READ
addresses are strictly increasing (one instruction per address) and are exactly
the addresses of the MEMORY_READ instructions of the input; the same holds for
MEMORY_WRITE. -/
theorem SIMDGenerator.regenerated_blocks (sg : SIMDGenerator) (l : List PIMInstruction) :
    (sg.mapToSIMD l).filter (fun x => decide (x.type = PIMInstructionType.PROG))
      = (allOpcodes.filter (fun o => decide (o ∈ opcodesOf PIMInstructionType.PROG l))).flatMap
          (fun o => sg.generateSIMDLUTProgramming o)
    ∧ (∀ o, (sg.generateSIMDLUTProgramming o).length = sg.ClustersPerRow * sg.CoresPerCluster
        ∧ ∀ x ∈ sg.generateSIMDLUTProgramming o,
            x.type = PIMInstructionType.PROG ∧ x.opcode = o)
    ∧ (addressesOf PIMInstructionType.MEMORY_READ (sg.mapToSIMD l)).Pairwise (· < ·)
    ∧ (∀ a, a ∈ addressesOf PIMInstructionType.MEMORY_READ (sg.mapToSIMD l)
        ↔ a ∈ addressesOf PIMInstructionType.MEMORY_READ l)
    ∧ (addressesOf PIMInstructionType.MEMORY_WRITE (sg.mapToSIMD l)).Pairwise (· < ·)
    ∧ (∀ a, a ∈ addressesOf PIMInstructionType.MEMORY_WRITE (sg.mapToSIMD l)
        ↔ a ∈ addressesOf PIMInstructionType.MEMORY_WRITE l) := by
  obtain ⟨hP, hR, hW⟩ := SIMDGenerator.mapToSIMD_filter sg l
  refine ⟨hP, SIMDGenerator.lut_block_shape sg, ?_, ?_, ?_, ?_⟩
  · unfold addressesOf; rw [hR]
    exact (SIMDGenerator.access_addresses true _).1
  · unfold addressesOf; rw [hR]
    exact (SIMDGenerator.access_addresses true _).2
  · unfold addressesOf; rw [hW]
    exact (SIMDGenerator.access_addresses false _).1
  · unfold addressesOf; rw [hW]
    exact (SIMDGenerator.access_addresses false _).2

/-- C33: in the output of `mapToSIMD` every PROG instruction precedes every EXE
instruction and every MEMORY_READ precedes every MEMORY_WRITE. -/
theorem SIMDGenerator.emitted_order (sg : SIMDGenerator) (l : List PIMInstruction)
    (i j : Nat) (x y : PIMInstruction)
    (hi : (sg.mapToSIMD l)[i]? = some x) (hj : (sg.mapToSIMD l)[j]? = some y) :
    (x.type = PIMInstructionType.PROG → y.type = PIMInstructionType.EXE → i < j)
    ∧ (x.type = PIMInstructionType.MEMORY_READ → y.type = PIMInstructionType.MEMORY_WRITE
        → i < j) := by
  have hA : ∀ x ∈ l.filter (fun x => decide (x.type = PIMInstructionType.END)),
      x.type = PIMInstructionType.END := by
    intro x hx
    simpa using (List.mem_filter.mp hx).2
  have hP := SIMDGenerator.lut_blocks_type sg
    (allOpcodes.filter (fun o => decide (o ∈ opcodesOf PIMInstructionType.PROG l)))
  have hE := SIMDGenerator.compute_blocks_type
    (allOpcodes.filter (fun o => decide (o ∈ opcodesOf PIMInstructionType.EXE l)))
  have hR := fun x hx =>
    (access_type true (addressesOf PIMInstructionType.MEMORY_READ l) x hx).1
  have hW := fun x hx =>
    (access_type false (addressesOf PIMInstructionType.MEMORY_WRITE l) x hx).1
  simp only [if_true, Bool.false_eq_true, if_false] at hR hW
  rw [SIMDGenerator.mapToSIMD_eq] at hi hj
  constructor
  · intro hx hy
    simp only [List.append_assoc] at hi hj
    rw [← List.append_assoc] at hi hj
    refine SIMDGenerator.split_precedes (fun z => z.type = PIMInstructionType.PROG)
      (fun z => z.type = PIMInstructionType.EXE) _ _ ?_ ?_ i j x y hi hj hx hy
    · intro z hz
      beta_reduce
      rcases List.mem_append.mp hz with h | h
      · rw [hA z h]; decide
      · rw [hP z h]; decide
    · intro z hz
      beta_reduce
      rcases List.mem_append.mp hz with h | h
      · rcases hE z h with h | h <;> rw [h] <;> decide
      · rcases List.mem_append.mp h with h | h
        · rw [hR z h]; decide
        · rw [hW z h]; decide
  · intro hx hy
    refine SIMDGenerator.split_precedes (fun z => z.type = PIMInstructionType.MEMORY_READ)
      (fun z => z.type = PIMInstructionType.MEMORY_WRITE) _ _ ?_ ?_ i j x y hi hj hx hy
    · intro z hz
      beta_reduce
      rcases List.mem_append.mp hz with h | h
      · rcases List.mem_append.mp h with h | h
        · rcases List.mem_append.mp h with h | h
          · rw [hA z h]; decide
          · rw [hP z h]; decide
        · rcases hE z h with h | h <;> rw [h] <;> decide
      · rw [hR z h]; decide
    · intro z hz
      beta_reduce
      rw [hW z hz]; decide

/-- Witness for C33: a one-cluster, two-core generator and the input
[WRITE 5, EXE MAC, READ 3, PROG MAC, END]; the output is END, two PROG, EXE, END,
READ 3, WRITE 5. -/
theorem SIMDGenerator.emitted_order_witness :
    (({ ClustersPerRow := 1, CoresPerCluster := 2 } : SIMDGenerator).mapToSIMD
        [{ type := PIMInstructionType.MEMORY_WRITE, coreId := 0, opcode := PIMOpcode.ADD,
           address := 5 },
         { type := PIMInstructionType.EXE, coreId := 0, opcode := PIMOpcode.MAC, address := 0 },
         { type := PIMInstructionType.MEMORY_READ, coreId := 0, opcode := PIMOpcode.ADD,
           address := 3 },
         { type := PIMInstructionType.PROG, coreId := 7, opcode := PIMOpcode.MAC, address := 0 },
         { type := PIMInstructionType.END, coreId := 0, opcode := PIMOpcode.ADD,
           address := 0 }])[2]?
      = some { type := PIMInstructionType.PROG, coreId := 1, opcode := PIMOpcode.MAC,
               address := 0 }
    ∧ ((PIMInstructionType.PROG = PIMInstructionType.PROG →
          PIMInstructionType.EXE = PIMInstructionType.EXE → 2 < 3)
      ∧ (PIMInstructionType.PROG = PIMInstructionType.MEMORY_READ →
          PIMInstructionType.EXE = PIMInstructionType.MEMORY_WRITE → 2 < 3)) :=
  ⟨by decide,
   SIMDGenerator.emitted_order { ClustersPerRow := 1, CoresPerCluster := 2 }
    [{ type := PIMInstructionType.MEMORY_WRITE, coreId := 0, opcode := PIMOpcode.ADD,
       address := 5 },
     { type := PIMInstructionType.EXE, coreId := 0, opcode := PIMOpcode.MAC, address := 0 },
     { type := PIMInstructionType.MEMORY_READ, coreId := 0, opcode := PIMOpcode.ADD,
       address := 3 },
     { type := PIMInstructionType.PROG, coreId := 7, opcode := PIMOpcode.MAC, address := 0 },
     { type := PIMInstructionType.END, coreId := 0, opcode := PIMOpcode.ADD, address := 0 }]
    2 3
    { type := PIMInstructionType.PROG, coreId := 1, opcode := PIMOpcode.MAC, address := 0 }
    { type := PIMInstructionType.EXE, coreId := 0, opcode := PIMOpcode.MAC, address := 0 }
    (by decide) (by decide)⟩

/-! ## Claims about the instruction selector -/

/-- C34: for every opcode, `InstructionSelector::generateLUTProgrammingInstructions`
returns one PROG instruction per core of the designated subset and nothing else, in
increasing coreId order: cores 0..4 for ADD, 5..8 for MULTIPLY, 0..8 for MAC and
only core 0 for RELU. -/
theorem InstructionSelector.lut_cores (opcode : PIMOpcode) :
    (InstructionSelector.generateLUTProgrammingInstructions opcode).map
        (fun x => (x.type, x.coreId))
      = (match opcode with
          | PIMOpcode.ADD => [0, 1, 2, 3, 4]
          | PIMOpcode.MULTIPLY => [5, 6, 7, 8]
          | PIMOpcode.MAC => [0, 1, 2, 3, 4, 5, 6, 7, 8]
          | PIMOpcode.RELU => [0]).map (fun c => (PIMInstructionType.PROG, c)) := by
  cases opcode <;> rfl

/-- C35 (what the code does): the PROG instructions of
`InstructionSelector::generateSIMDInstructions(op, n)` all carry the opcode ADD of
the default constructor, whatever `op` is, because
`generateLUTProgrammingInstructions` never assigns `progInst.opcode`; for
`op = MAC` the output is nine PROG instructions with opcode ADD, then EXE MAC,
then END. -/
theorem InstructionSelector.prog_opcode_default :
    (∀ (op : PIMOpcode) (n : Int) (x : PIMInstruction),
      x ∈ InstructionSelector.generateSIMDInstructions op n →
      x.type = PIMInstructionType.PROG → x.opcode = PIMOpcode.ADD)
    ∧ (InstructionSelector.generateSIMDInstructions PIMOpcode.MAC 4).map
        (fun x => (x.type, x.opcode))
      = List.replicate 9 (PIMInstructionType.PROG, PIMOpcode.ADD)
        ++ [(PIMInstructionType.EXE, PIMOpcode.MAC), (PIMInstructionType.END, PIMOpcode.ADD)] := by
  refine ⟨?_, by decide⟩
  intro op n x hx ht
  have hall : (InstructionSelector.generateSIMDInstructions op n).all
      (fun x => decide (x.type = PIMInstructionType.PROG → x.opcode = PIMOpcode.ADD))
      = true := by
    cases op <;> rfl
  exact of_decide_eq_true (List.all_eq_true.mp hall x hx) ht

/-! ## Claims about termination, cluster ids and the emitted words -/

/-- The carry loop of `getElementLocation` exits within the fuel exactly when the
fuel exceeds the number of whole rows in the column offset: it passes through its
body `columnOffset div NumColsPerRow` times. -/
theorem MemoryMapper.elementCarryLoop_isSome (m : MemoryMapper) (hC : 0 < m.NumColsPerRow) :
    ∀ (fuel : Nat) (l : PhysicalMemoryLocation),
      (elementCarryLoop m fuel l).isSome = true ↔ l.columnOffset / m.NumColsPerRow < fuel := by
  intro fuel
  induction fuel with
  | zero => intro l; simp [elementCarryLoop]
  | succ n ih =>
    intro l
    unfold elementCarryLoop
    by_cases h : l.columnOffset ≥ m.NumColsPerRow
    · rw [if_pos h, ih, elementCarryBody_col, Nat.div_eq_sub_div hC h]
      omega
    · rw [if_neg h]
      have : l.columnOffset / m.NumColsPerRow = 0 := Nat.div_eq_of_lt (by omega)
      simp [this]

/-- With zero columns per row the carry loop never exits. -/
theorem MemoryMapper.elementCarryLoop_zero_cols (m : MemoryMapper) (hC : m.NumColsPerRow = 0) :
    ∀ (fuel : Nat) (l : PhysicalMemoryLocation), elementCarryLoop m fuel l = none := by
  intro fuel
  induction fuel with
  | zero => intro l; rfl
  | succ n ih =>
    intro l
    unfold elementCarryLoop
    rw [if_pos (by omega), ih]

/-- C36: the carry loop of `allocateMemory` terminates whenever
`NumColsPerRow >= 1` and `col + size < 2^32`, after exactly
`(col + size) div NumColsPerRow` passes through its body: the call returns within a
budget of `fuel` evaluations of the loop condition exactly when `fuel` exceeds that
quotient (one more evaluation than passes).  With `NumColsPerRow = 0` the
condition never fails and the call returns within no budget. -/
theorem MemoryMapper.carry_loop_iterations (m : MemoryMapper) (size fuel : Nat) :
    (1 ≤ m.NumColsPerRow → m.NextAvailableCol + size < 2 ^ 32 →
      ((allocateMemory fuel m size).isSome = true
        ↔ (m.NextAvailableCol + size) / m.NumColsPerRow < fuel))
    ∧ (m.NumColsPerRow = 0 → allocateMemory fuel m size = none) := by
  constructor
  · intro hC hsz
    rw [allocateMemory_eq, Option.isSome_map', MemoryMapper.elementCarryLoop_isSome m hC,
      show (advanced m size).columnOffset = m.NextAvailableCol + size from
        Nat.mod_eq_of_lt hsz]
  · intro hC
    rw [allocateMemory_eq, MemoryMapper.elementCarryLoop_zero_cols m hC]
    rfl

/-- Witness for C36: with the default parameters a request of 5000 cells makes two
passes, so a budget of three evaluations suffices and two do not; with zero
columns per row no budget suffices. -/
theorem MemoryMapper.carry_loop_iterations_witness :
    (1 ≤ MemoryMapper.new.NumColsPerRow ∧ MemoryMapper.new.NextAvailableCol + 5000 < 2 ^ 32
      ∧ ((allocateMemory 3 MemoryMapper.new 5000).isSome = true
        ↔ (MemoryMapper.new.NextAvailableCol + 5000) / MemoryMapper.new.NumColsPerRow < 3))
    ∧ allocateMemory 10 { MemoryMapper.new with NumColsPerRow := 0 } 1 = none :=
  ⟨⟨by decide, by decide,
    (MemoryMapper.carry_loop_iterations MemoryMapper.new 5000 3).1 (by decide) (by decide)⟩,
   (MemoryMapper.carry_loop_iterations { MemoryMapper.new with NumColsPerRow := 0 } 1 10).2 rfl⟩

/-- C37 (counterexample): with the default parameters (512 = 128 * 4 rows) the
location (bank 2^28, subarray 0, row 0) gets cluster id 0, although
`g * NumClustersPerSubarray = 2^34`; and with 2^26 + 1 banks the in-range
locations (bank 2^26, subarray 0, row 0) and (bank 0, subarray 0, row 0) of
different banks both get cluster id 0. -/
theorem MemoryMapper.cluster_wrap_counterexample :
    MemoryMapper.new.NumRowsPerSubarray = 128 * MemoryMapper.new.NumClustersPerSubarray
    ∧ getClusterIdForLocation MemoryMapper.new
        { bankId := 2 ^ 28, subarrayId := 0, rowAddress := 0, columnOffset := 0 } = some 0
    ∧ ¬ ((2 ^ 28 * MemoryMapper.new.NumSubarraysPerBank + 0)
          * MemoryMapper.new.NumClustersPerSubarray ≤ 0)
    ∧ InRange { MemoryMapper.new with NumBanks := 2 ^ 26 + 1 }
        { bankId := 2 ^ 26, subarrayId := 0, rowAddress := 0, columnOffset := 0 }
    ∧ InRange { MemoryMapper.new with NumBanks := 2 ^ 26 + 1 }
        { bankId := 0, subarrayId := 0, rowAddress := 0, columnOffset := 0 }
    ∧ getClusterIdForLocation { MemoryMapper.new with NumBanks := 2 ^ 26 + 1 }
        { bankId := 2 ^ 26, subarrayId := 0, rowAddress := 0, columnOffset := 0 }
      = getClusterIdForLocation { MemoryMapper.new with NumBanks := 2 ^ 26 + 1 }
        { bankId := 0, subarrayId := 0, rowAddress := 0, columnOffset := 0 } := by
  refine ⟨by decide, by decide, by decide, by decide, by decide, by decide⟩

/-- The cluster id of a location whose subarray range does not wrap. -/
theorem MemoryMapper.clusterId_bounds (m : MemoryMapper) (t : Nat)
    (hR : m.NumRowsPerSubarray = t * m.NumClustersPerSubarray) (hpos : 0 < m.NumRowsPerSubarray)
    (l : PhysicalMemoryLocation) (hrow : l.rowAddress < m.NumRowsPerSubarray)
    (hfit : (l.bankId * m.NumSubarraysPerBank + l.subarrayId + 1) * m.NumClustersPerSubarray
      ≤ 2 ^ 32) :
    ∃ id, getClusterIdForLocation m l = some id
      ∧ (l.bankId * m.NumSubarraysPerBank + l.subarrayId) * m.NumClustersPerSubarray ≤ id
      ∧ id < (l.bankId * m.NumSubarraysPerBank + l.subarrayId + 1)
          * m.NumClustersPerSubarray := by
  have hK : 0 < m.NumClustersPerSubarray := by
    rcases Nat.eq_zero_or_pos m.NumClustersPerSubarray with h | h
    · rw [h] at hR; omega
    · exact h
  have ht : 0 < t := by
    rcases Nat.eq_zero_or_pos t with h | h
    · rw [h] at hR; omega
    · exact h
  have hdiv : m.NumRowsPerSubarray / m.NumClustersPerSubarray = t := by
    rw [hR]; exact Nat.mul_div_cancel _ hK
  have hw : l.rowAddress / t < m.NumClustersPerSubarray := by
    rw [Nat.div_lt_iff_lt_mul ht, Nat.mul_comm, ← hR]; exact hrow
  obtain ⟨g, hg⟩ : ∃ g, g = l.bankId * m.NumSubarraysPerBank + l.subarrayId := ⟨_, rfl⟩
  rw [← hg] at hfit ⊢
  have hexp : (g + 1) * m.NumClustersPerSubarray
      = g * m.NumClustersPerSubarray + m.NumClustersPerSubarray := by
    rw [Nat.add_mul, Nat.one_mul]
  have hgK : g ≤ g * m.NumClustersPerSubarray := Nat.le_mul_of_pos_right _ hK
  have hg32 : g < 2 ^ 32 := by omega
  have hd0 : 0 ≤ l.rowAddress / t := Nat.zero_le _
  have hup : g * m.NumClustersPerSubarray + l.rowAddress / t
      < (g + 1) * m.NumClustersPerSubarray := by
    rw [hexp]; exact Nat.add_lt_add_left hw _
  have hlt : g * m.NumClustersPerSubarray + l.rowAddress / t < 2 ^ 32 :=
    lt_of_lt_of_le hup hfit
  refine ⟨g * m.NumClustersPerSubarray + l.rowAddress / t, ?_, Nat.le_add_right _ _, hup⟩
  unfold getClusterIdForLocation
  have hK0 : ¬ m.NumClustersPerSubarray = 0 := by omega
  have ht0 : ¬ t = 0 := by omega
  simp only [← hg, hdiv, Nat.mod_eq_of_lt hg32]
  rw [if_neg hK0, if_neg ht0, Nat.mod_eq_of_lt hlt]

/-- C37 (amended): in a configuration in which NumRowsPerSubarray is a positive
multiple of NumClustersPerSubarray, a location with `rowAddress <
NumRowsPerSubarray` whose range `(g + 1) * NumClustersPerSubarray` fits in 32 bits
(`g = bankId * NumSubarraysPerBank + subarrayId`) gets a cluster id in
`[g * NumClustersPerSubarray, (g + 1) * NumClustersPerSubarray)`; and if
`NumBanks * NumSubarraysPerBank * NumClustersPerSubarray <= 2^32`, two in-range
locations in different (bank, subarray) pairs never get the same cluster id. -/
theorem MemoryMapper.clusterId_range (m : MemoryMapper) (t : Nat)
    (hR : m.NumRowsPerSubarray = t * m.NumClustersPerSubarray)
    (hpos : 0 < m.NumRowsPerSubarray) :
    (∀ l : PhysicalMemoryLocation, l.rowAddress < m.NumRowsPerSubarray →
      (l.bankId * m.NumSubarraysPerBank + l.subarrayId + 1) * m.NumClustersPerSubarray
        ≤ 2 ^ 32 →
      ∃ id, getClusterIdForLocation m l = some id
        ∧ (l.bankId * m.NumSubarraysPerBank + l.subarrayId) * m.NumClustersPerSubarray ≤ id
        ∧ id < (l.bankId * m.NumSubarraysPerBank + l.subarrayId + 1)
            * m.NumClustersPerSubarray)
    ∧ (m.NumBanks * m.NumSubarraysPerBank * m.NumClustersPerSubarray ≤ 2 ^ 32 →
        ∀ l1 l2 : PhysicalMemoryLocation, InRange m l1 → InRange m l2 →
          (l1.bankId, l1.subarrayId) ≠ (l2.bankId, l2.subarrayId) →
          getClusterIdForLocation m l1 ≠ getClusterIdForLocation m l2) := by
  refine ⟨fun l hrow hfit => MemoryMapper.clusterId_bounds m t hR hpos l hrow hfit, ?_⟩
  intro hcap l1 l2 h1 h2 hne
  have hfit : ∀ l : PhysicalMemoryLocation, InRange m l →
      (l.bankId * m.NumSubarraysPerBank + l.subarrayId + 1) * m.NumClustersPerSubarray
        ≤ 2 ^ 32 := by
    intro l hl
    have h : l.bankId * m.NumSubarraysPerBank + l.subarrayId + 1
        ≤ m.NumBanks * m.NumSubarraysPerBank := by
      have := Nat.mul_le_mul_right m.NumSubarraysPerBank (Nat.succ_le_of_lt hl.1)
      rw [Nat.succ_mul] at this
      have := hl.2.1
      omega
    exact le_trans (Nat.mul_le_mul_right _ h) hcap
  obtain ⟨id1, e1, lo1, hi1⟩ :=
    MemoryMapper.clusterId_bounds m t hR hpos l1 h1.2.2.1 (hfit l1 h1)
  obtain ⟨id2, e2, lo2, hi2⟩ :=
    MemoryMapper.clusterId_bounds m t hR hpos l2 h2.2.2.1 (hfit l2 h2)
  rw [e1, e2]
  intro he
  have hid : id1 = id2 := Option.some.inj he
  subst hid
  obtain ⟨g1, hg1⟩ : ∃ g, g = l1.bankId * m.NumSubarraysPerBank + l1.subarrayId := ⟨_, rfl⟩
  obtain ⟨g2, hg2⟩ : ∃ g, g = l2.bankId * m.NumSubarraysPerBank + l2.subarrayId := ⟨_, rfl⟩
  rw [← hg1] at lo1 hi1
  rw [← hg2] at lo2 hi2
  have hgg : g1 = g2 := by
    rcases Nat.lt_trichotomy g1 g2 with h | h | h
    · have := Nat.mul_le_mul_right m.NumClustersPerSubarray (Nat.succ_le_of_lt h)
      exfalso; simp only [Nat.succ_eq_add_one] at this; omega
    · exact h
    · have := Nat.mul_le_mul_right m.NumClustersPerSubarray (Nat.succ_le_of_lt h)
      exfalso; simp only [Nat.succ_eq_add_one] at this; omega
  apply hne
  have hS : 0 < m.NumSubarraysPerBank := by have := h1.2.1; omega
  have hb : l1.bankId = l2.bankId := by
    have a1 : g1 / m.NumSubarraysPerBank = l1.bankId := by
      rw [hg1, Nat.add_comm, Nat.add_mul_div_right _ _ hS, Nat.div_eq_of_lt h1.2.1]; simp
    have a2 : g2 / m.NumSubarraysPerBank = l2.bankId := by
      rw [hg2, Nat.add_comm, Nat.add_mul_div_right _ _ hS, Nat.div_eq_of_lt h2.2.1]; simp
    rw [← a1, ← a2, hgg]
  have hs : l1.subarrayId = l2.subarrayId := by
    rw [hg1, hg2, hb] at hgg; omega
  rw [hb, hs]

/-- Witness for C37: the default parameters, the locations (bank 1, subarray 2, row
130) and (bank 1, subarray 3, row 130). -/
theorem MemoryMapper.clusterId_range_witness :
    (∃ id, getClusterIdForLocation MemoryMapper.new
        { bankId := 1, subarrayId := 2, rowAddress := 130, columnOffset := 0 } = some id
      ∧ 72 ≤ id ∧ id < 76)
    ∧ getClusterIdForLocation MemoryMapper.new
        { bankId := 1, subarrayId := 2, rowAddress := 130, columnOffset := 0 }
      ≠ getClusterIdForLocation MemoryMapper.new
        { bankId := 1, subarrayId := 3, rowAddress := 130, columnOffset := 0 } :=
  ⟨(MemoryMapper.clusterId_range MemoryMapper.new 128 (by decide) (by decide)).1
      { bankId := 1, subarrayId := 2, rowAddress := 130, columnOffset := 0 }
      (by decide) (by decide),
   (MemoryMapper.clusterId_range MemoryMapper.new 128 (by decide) (by decide)).2 (by decide)
      { bankId := 1, subarrayId := 2, rowAddress := 130, columnOffset := 0 }
      { bankId := 1, subarrayId := 3, rowAddress := 130, columnOffset := 0 }
      (by decide) (by decide) (by decide)⟩

/-- C38: the instruction kind is recoverable from the binary word: two
instructions of different type never have the same encoding, whatever their
coreId, opcode and address (MEMORY_WRITE shares the kind bits 00 of PROG but is
the only type that sets bit 14). -/
theorem CodeGenerator.kind_recoverable (p q : PIMInstruction) (h : p.type ≠ q.type) :
    CodeGenerator.encodeInstruction p ≠ CodeGenerator.encodeInstruction q := by
  have hp := CodeGenerator.encodePIM_eq p
  have hq := CodeGenerator.encodePIM_eq q
  intro he
  rw [he] at hp
  rw [hp] at hq
  clear hp he
  rcases p with ⟨pt, pc, po, pa⟩
  rcases q with ⟨qt, qc, qo, qa⟩
  cases pt <;> cases qt <;>
    simp only [PIMInstructionType.toNat, reduceCtorEq, if_true, if_false, ne_eq,
      not_true_eq_false, not_false_eq_true] at h hq <;> omega

/-- Witness for C38: a PROG of core 0 and a MEMORY_WRITE, both with address 7,
share the kind bits 00 and are told apart by bit 14. -/
theorem CodeGenerator.kind_recoverable_witness :
    PIMInstructionType.PROG ≠ PIMInstructionType.MEMORY_WRITE
    ∧ CodeGenerator.encodeInstruction
        { type := PIMInstructionType.PROG, coreId := 0, opcode := PIMOpcode.ADD, address := 7 }
      ≠ CodeGenerator.encodeInstruction
        { type := PIMInstructionType.MEMORY_WRITE, coreId := 0, opcode := PIMOpcode.ADD,
          address := 7 } :=
  ⟨by decide,
   CodeGenerator.kind_recoverable
    { type := PIMInstructionType.PROG, coreId := 0, opcode := PIMOpcode.ADD, address := 7 }
    { type := PIMInstructionType.MEMORY_WRITE, coreId := 0, opcode := PIMOpcode.ADD,
      address := 7 }
    (by decide)⟩

/-! ## The default multiply session -/

/-- The session invariant of a fresh default `MemoryMapper`. -/
theorem MemoryMapper.sessionInv_new : MemoryMapper.SessionInv MemoryMapper.new 0 [] := by
  refine ⟨Nat.zero_le _, by decide, ?_, ?_, ?_, ?_⟩
  · simp [MemoryMapper.linear, MemoryMapper.cursor, MemoryMapper.new]
  · intro n
    simp [MemoryMapper.isMatrixMapped, MemoryMapper.new]
  · intro n L h
    simp [MemoryMapper.new] at h
  · intro n1 n2 L1 L2 _ h
    simp [MemoryMapper.new] at h

/-- A location whose linear address is below the row length lies in row 0. -/
theorem MemoryMapper.row_zero_of_linear (m : MemoryMapper) (p : PhysicalMemoryLocation)
    (h : MemoryMapper.linear m p < m.NumColsPerRow) : p.rowAddress = 0 := by
  unfold MemoryMapper.linear at h
  by_contra hne
  have h1 : 1 ≤ (p.bankId * m.NumSubarraysPerBank + p.subarrayId) * m.NumRowsPerSubarray
      + p.rowAddress := by omega
  have h2 := Nat.mul_le_mul_right m.NumColsPerRow h1
  omega

/-- In a session that used at most one row, every element of a recorded layout
lies in row 0. -/
theorem MemoryMapper.element_row_zero (m : MemoryMapper) (hp : MemoryMapper.PositiveParams m)
    (hu : MemoryMapper.ParamsU32 m) (u : Nat) (hrow : u ≤ m.NumColsPerRow)
    (L : MatrixMemoryLayout) (hok : MemoryMapper.LayoutOk m u L)
    (r c fuel : Nat) (hr : r < L.rows) (hc : c < L.cols) (hf : 2 ^ 32 ≤ fuel) :
    SIMDGenerator.elementRow fuel m L r c = 0 := by
  have hcap : u ≤ MemoryMapper.capacity m := by
    have h1 : 1 ≤ m.NumBanks * m.NumSubarraysPerBank * m.NumRowsPerSubarray :=
      Nat.mul_pos (Nat.mul_pos hp.1 hp.2.1) hp.2.2.1
    have h2 := Nat.mul_le_mul_right m.NumColsPerRow h1
    unfold MemoryMapper.capacity
    omega
  obtain ⟨p, e, _, hl⟩ := MemoryMapper.element_linear m hp hu u hcap L hok r c fuel hr hc hf
  unfold SIMDGenerator.elementRow
  rw [e]
  apply MemoryMapper.row_zero_of_linear m p
  rw [hl]
  have hoff : r * L.cols + c < L.rows * L.cols := by
    have := Nat.mul_le_mul_right L.cols (Nat.succ_le_of_lt hr)
    rw [Nat.succ_mul] at this
    omega
  rcases hok.2.2.2 with h0 | hle
  · omega
  · omega

/-- The default multiply session: in a fresh default `MemoryMapper`, mapping three
distinct names as `rowsA x colsA`, `colsA x colsB` and `rowsA x colsB` with at
most 2048 cells in total succeeds, records the three shapes and keeps every
layout inside the first 2048 cells. -/
theorem MemoryMapper.multiply_session (nA nB nC : String) (rowsA colsA colsB fuel : Nat)
    (hAB : nA ≠ nB) (hAC : nA ≠ nC) (hBC : nB ≠ nC)
    (htot : rowsA * colsA + colsA * colsB + rowsA * colsB ≤ 2048) (hf : 2 ^ 32 ≤ fuel) :
    ∃ m3, MemoryMapper.runCalls fuel MemoryMapper.new
        [MemoryMapper.Call.mapMatrix nA rowsA colsA, MemoryMapper.Call.mapMatrix nB colsA colsB,
         MemoryMapper.Call.mapMatrix nC rowsA colsB] = some m3
      ∧ MemoryMapper.PositiveParams m3 ∧ MemoryMapper.ParamsU32 m3
      ∧ m3.NumColsPerRow = 2048
      ∧ (m3.getMatrixLayout nA).rows = rowsA ∧ (m3.getMatrixLayout nA).cols = colsA
      ∧ (m3.getMatrixLayout nB).rows = colsA ∧ (m3.getMatrixLayout nB).cols = colsB
      ∧ (m3.getMatrixLayout nC).rows = rowsA ∧ (m3.getMatrixLayout nC).cols = colsB
      ∧ MemoryMapper.LayoutOk m3 2048 (m3.getMatrixLayout nA)
      ∧ MemoryMapper.LayoutOk m3 2048 (m3.getMatrixLayout nB)
      ∧ MemoryMapper.LayoutOk m3 2048 (m3.getMatrixLayout nC) := by
  have hcapnew : MemoryMapper.capacity MemoryMapper.new = 134217728 := by decide
  obtain ⟨l1, e1, inv1⟩ := MemoryMapper.step_mapMatrix MemoryMapper.new 0 [] nA rowsA colsA fuel
    (by decide) (by decide) MemoryMapper.sessionInv_new rfl
    (by show rowsA * colsA + 2048 ≤ 2 ^ 32; omega) (by rw [hcapnew]; omega) hf
  obtain ⟨l2, e2, inv2⟩ := MemoryMapper.step_mapMatrix
    (MemoryMapper.recordLayout MemoryMapper.new l1 nA rowsA colsA) (0 + rowsA * colsA) [nA]
    nB colsA colsB fuel
    (by decide : MemoryMapper.PositiveParams MemoryMapper.new)
    (by decide : MemoryMapper.ParamsU32 MemoryMapper.new) inv1
    (by simp [MemoryMapper.isMatrixMapped, MemoryMapper.recordLayout, MemoryMapper.new,
          Ne.symm hAB])
    (by show colsA * colsB + 2048 ≤ 2 ^ 32; omega)
    (by show _ ≤ MemoryMapper.capacity MemoryMapper.new; rw [hcapnew]; omega) hf
  obtain ⟨l3, e3, inv3⟩ := MemoryMapper.step_mapMatrix
    (MemoryMapper.recordLayout (MemoryMapper.recordLayout MemoryMapper.new l1 nA rowsA colsA)
      l2 nB colsA colsB) (0 + rowsA * colsA + colsA * colsB) [nB, nA]
    nC rowsA colsB fuel
    (by decide : MemoryMapper.PositiveParams MemoryMapper.new)
    (by decide : MemoryMapper.ParamsU32 MemoryMapper.new) inv2
    (by simp [MemoryMapper.isMatrixMapped, MemoryMapper.recordLayout, MemoryMapper.new,
          Ne.symm hAC, Ne.symm hBC])
    (by show rowsA * colsB + 2048 ≤ 2 ^ 32; omega)
    (by show _ ≤ MemoryMapper.capacity MemoryMapper.new; rw [hcapnew]; omega) hf
  have hok := inv3.2.2.2.2.1
  have eA : (MemoryMapper.recordLayout (MemoryMapper.recordLayout
      (MemoryMapper.recordLayout MemoryMapper.new l1 nA rowsA colsA) l2 nB colsA colsB)
      l3 nC rowsA colsB).MatrixLayouts nA
      = some (MemoryMapper.freshLayout MemoryMapper.new rowsA colsA) := by
    simp [MemoryMapper.recordLayout, hAC, hAB]
  have eB : (MemoryMapper.recordLayout (MemoryMapper.recordLayout
      (MemoryMapper.recordLayout MemoryMapper.new l1 nA rowsA colsA) l2 nB colsA colsB)
      l3 nC rowsA colsB).MatrixLayouts nB
      = some (MemoryMapper.freshLayout
          (MemoryMapper.recordLayout MemoryMapper.new l1 nA rowsA colsA) colsA colsB) := by
    simp [MemoryMapper.recordLayout, hBC]
  have eC : (MemoryMapper.recordLayout (MemoryMapper.recordLayout
      (MemoryMapper.recordLayout MemoryMapper.new l1 nA rowsA colsA) l2 nB colsA colsB)
      l3 nC rowsA colsB).MatrixLayouts nC
      = some (MemoryMapper.freshLayout (MemoryMapper.recordLayout
          (MemoryMapper.recordLayout MemoryMapper.new l1 nA rowsA colsA) l2 nB colsA colsB)
          rowsA colsB) := by
    simp [MemoryMapper.recordLayout]
  have hle : 0 + rowsA * colsA + colsA * colsB + rowsA * colsB ≤ 2048 := by omega
  refine ⟨MemoryMapper.recordLayout (MemoryMapper.recordLayout
      (MemoryMapper.recordLayout MemoryMapper.new l1 nA rowsA colsA) l2 nB colsA colsB)
      l3 nC rowsA colsB, ?_, (by decide : MemoryMapper.PositiveParams MemoryMapper.new),
    (by decide : MemoryMapper.ParamsU32 MemoryMapper.new), rfl, ?_⟩
  · simp only [MemoryMapper.runCalls, e1, e2, e3]
  · simp only [MemoryMapper.getMatrixLayout, eA, eB, eC]
    exact ⟨rfl, rfl, rfl, rfl, rfl, rfl,
      MemoryMapper.LayoutOk.mono _ _ 2048 _ (hok nA _ eA) hle,
      MemoryMapper.LayoutOk.mono _ _ 2048 _ (hok nB _ eB) hle,
      MemoryMapper.LayoutOk.mono _ _ 2048 _ (hok nC _ eC) hle⟩

/-- Coalescing a non-empty list of accesses that all hit row 0 gives the single
access of row 0. -/
theorem SIMDGenerator.access_zeros (isRead : Bool) (addresses : List Nat)
    (hne : addresses ≠ []) (hz : ∀ a ∈ addresses, a = 0) :
    SIMDGenerator.generateSIMDMemoryAccess isRead addresses
      = [{ type := if isRead then PIMInstructionType.MEMORY_READ
                   else PIMInstructionType.MEMORY_WRITE,
           coreId := 0, opcode := PIMOpcode.ADD, address := 0 }] := by
  obtain ⟨hs, hm⟩ := SIMDGenerator.groups_keys addresses [] (by simp)
  have hkeys : (addresses.foldl (fun groups addr => mapPush groups addr addr) []).map Prod.fst
      = [0] := by
    obtain ⟨a0, ha0⟩ := List.exists_mem_of_ne_nil addresses hne
    have h0 : 0 ∈ (addresses.foldl (fun groups addr => mapPush groups addr addr) []).map
        Prod.fst := by
      rw [hm 0]; left; rw [← hz a0 ha0]; exact ha0
    have hall : ∀ k ∈ (addresses.foldl (fun groups addr => mapPush groups addr addr) []).map
        Prod.fst, k = 0 := by
      intro k hk
      rcases (hm k).mp hk with h | h
      · exact hz k h
      · simp at h
    revert hs h0 hall
    generalize (addresses.foldl (fun groups addr => mapPush groups addr addr) []).map Prod.fst
      = keys
    intro hs h0 hall
    cases keys with
    | nil => simp at h0
    | cons k rest =>
      have hk : k = 0 := hall k (List.mem_cons_self _ _)
      cases rest with
      | nil => rw [hk]
      | cons k2 rest2 =>
        have hk2 : k2 = 0 := hall k2 (by simp)
        have hlt : k < k2 := (List.pairwise_cons.mp hs).1 k2 (by simp)
        omega
  rw [SIMDGenerator.generateSIMDMemoryAccess_eq, hkeys]
  rfl

/-- The index pairs are the pairs of a row index and a column index in range. -/
theorem SIMDGenerator.mem_pairs (R C : Nat) (ij : Nat × Nat) :
    ij ∈ SIMDGenerator.pairs R C ↔ ij.1 < R ∧ ij.2 < C := by
  rcases ij with ⟨i, j⟩
  simp only [SIMDGenerator.pairs, List.mem_flatMap, List.mem_map, List.mem_range,
    Prod.mk.injEq]
  constructor
  · rintro ⟨a, ha, b, hb, e1, e2⟩
    exact ⟨by omega, by omega⟩
  · rintro ⟨hi, hj⟩
    exact ⟨i, hi, j, hj, rfl, rfl⟩

/-- The same block for every element is that many copies of the block. -/
theorem SIMDGenerator.flatMap_same_block {α β : Type} (f : α → List β) (b : List β)
    (l : List α) (h : ∀ x ∈ l, f x = b) :
    l.flatMap f = (List.replicate l.length b).flatten := by
  induction l with
  | nil => rfl
  | cons x xs ih =>
    rw [List.flatMap_cons, h x (List.mem_cons_self _ _),
      ih (fun y hy => h y (List.mem_cons_of_mem _ hy)), List.length_cons,
      List.replicate_succ, List.flatten_cons]

/-- The length of a number of copies of a block. -/
theorem SIMDGenerator.length_copies {β : Type} (b : List β) (n : Nat) :
    (List.replicate n b).flatten.length = n * b.length := by
  induction n with
  | zero => simp
  | succ k ih =>
    rw [List.replicate_succ, List.flatten_cons, List.length_append, ih, Nat.succ_mul]
    omega

/-- C39: for three distinct names mapped as `rowsA x colsA`, `colsA x colsB` and
`rowsA x colsB` in a fresh default `MemoryMapper`, with `colsA >= 1` and at most
2048 cells in total, `generateMatrixMultSIMD` with the default generator returns
the 36 PROG instructions of the LUT block followed by `rowsA * colsB` copies of
[MEMORY_READ address 0, EXE MAC, END, MEMORY_WRITE address 0], which is
`36 + 4 * rowsA * colsB` instructions. -/
theorem SIMDGenerator.default_program (nA nB nC : String) (rowsA colsA colsB fuel : Nat)
    (hAB : nA ≠ nB) (hAC : nA ≠ nC) (hBC : nB ≠ nC) (hK : 1 ≤ colsA)
    (htot : rowsA * colsA + colsA * colsB + rowsA * colsB ≤ 2048) (hf : 2 ^ 32 ≤ fuel) :
    ∃ m3 out, MemoryMapper.runCalls fuel MemoryMapper.new
        [MemoryMapper.Call.mapMatrix nA rowsA colsA, MemoryMapper.Call.mapMatrix nB colsA colsB,
         MemoryMapper.Call.mapMatrix nC rowsA colsB] = some m3
      ∧ SIMDGenerator.generateMatrixMultSIMD fuel SIMDGenerator.new nA nB nC m3 = some out
      ∧ out = SIMDGenerator.new.generateSIMDLUTProgramming PIMOpcode.MAC
          ++ (List.replicate (rowsA * colsB)
              [{ type := PIMInstructionType.MEMORY_READ, coreId := 0, opcode := PIMOpcode.ADD,
                 address := 0 },
               { type := PIMInstructionType.EXE, coreId := 0, opcode := PIMOpcode.MAC,
                 address := 0 },
               { type := PIMInstructionType.END, coreId := 0, opcode := PIMOpcode.ADD,
                 address := 0 },
               { type := PIMInstructionType.MEMORY_WRITE, coreId := 0, opcode := PIMOpcode.ADD,
                 address := 0 }]).flatten
      ∧ (SIMDGenerator.new.generateSIMDLUTProgramming PIMOpcode.MAC).length = 36
      ∧ (∀ x ∈ SIMDGenerator.new.generateSIMDLUTProgramming PIMOpcode.MAC,
          x.type = PIMInstructionType.PROG)
      ∧ out.length = 36 + 4 * rowsA * colsB := by
  obtain ⟨m3, erun, hp, hu, hC, rA, cA, rB, cB, rC, cC, okA, okB, okC⟩ :=
    MemoryMapper.multiply_session nA nB nC rowsA colsA colsB fuel hAB hAC hBC htot hf
  have hrowle : 2048 ≤ m3.NumColsPerRow := by omega
  have hgen := SIMDGenerator.generateMatrixMultSIMD_eq fuel SIMDGenerator.new nA nB nC m3
    (by omega) hf (by rw [cA, rB])
  have hblock : ∀ ij ∈ SIMDGenerator.pairs (m3.getMatrixLayout nA).rows
      (m3.getMatrixLayout nB).cols,
      SIMDGenerator.elementBlock fuel m3 (m3.getMatrixLayout nA) (m3.getMatrixLayout nB)
        (m3.getMatrixLayout nC) ij.1 ij.2
      = [{ type := PIMInstructionType.MEMORY_READ, coreId := 0, opcode := PIMOpcode.ADD,
           address := 0 },
         { type := PIMInstructionType.EXE, coreId := 0, opcode := PIMOpcode.MAC,
           address := 0 },
         { type := PIMInstructionType.END, coreId := 0, opcode := PIMOpcode.ADD,
           address := 0 },
         { type := PIMInstructionType.MEMORY_WRITE, coreId := 0, opcode := PIMOpcode.ADD,
           address := 0 }] := by
    intro ij hij
    rw [SIMDGenerator.mem_pairs, rA, cB] at hij
    unfold SIMDGenerator.elementBlock
    rw [SIMDGenerator.access_zeros true, SIMDGenerator.access_zeros false]
    · rfl
    · simp
    · intro a ha
      rw [List.mem_singleton] at ha
      rw [ha]
      exact MemoryMapper.element_row_zero m3 hp hu 2048 hrowle _ okC ij.1 ij.2 fuel
        (by rw [rC]; exact hij.1) (by rw [cC]; exact hij.2) hf
    · rw [cA]
      intro h
      have := congrArg List.length h
      simp at this
      omega
    · intro a ha
      rcases List.mem_append.mp ha with h | h
      · obtain ⟨k, hk, e⟩ := List.mem_map.mp h
        rw [← e]
        exact MemoryMapper.element_row_zero m3 hp hu 2048 hrowle _ okA ij.1 k fuel
          (by rw [rA]; exact hij.1) (List.mem_range.mp hk) hf
      · obtain ⟨k, hk, e⟩ := List.mem_map.mp h
        rw [← e]
        exact MemoryMapper.element_row_zero m3 hp hu 2048 hrowle _ okB k ij.2 fuel
          (List.mem_range.mp hk) (by rw [cB]; exact hij.2) hf
  have hlut := (SIMDGenerator.lut_block_shape SIMDGenerator.new PIMOpcode.MAC)
  rw [SIMDGenerator.flatMap_same_block _ _ _ hblock, SIMDGenerator.pairs_length, rA, cB] at hgen
  refine ⟨m3, _, erun, hgen, rfl, hlut.1, fun x hx => (hlut.2 x hx).1, ?_⟩
  rw [List.length_append, hlut.1, SIMDGenerator.length_copies]
  show 36 + rowsA * colsB * 4 = 36 + 4 * rowsA * colsB
  ring

/-- Witness for C39: the three shapes of the test driver, (2,2,2), (4,4,4) and
(3,4,2), with the names A, B and C: 52, 100 and 60 instructions. -/
theorem SIMDGenerator.default_program_witness :
    (∃ m3 out, SIMDGenerator.multiplySession (2 ^ 32) 2 2 2 = some m3
      ∧ SIMDGenerator.generateMatrixMultSIMD (2 ^ 32) SIMDGenerator.new "A" "B" "C" m3
          = some out
      ∧ out.length = 52)
    ∧ (∃ m3 out, SIMDGenerator.multiplySession (2 ^ 32) 4 4 4 = some m3
      ∧ SIMDGenerator.generateMatrixMultSIMD (2 ^ 32) SIMDGenerator.new "A" "B" "C" m3
          = some out
      ∧ out.length = 100)
    ∧ (∃ m3 out, SIMDGenerator.multiplySession (2 ^ 32) 3 4 2 = some m3
      ∧ SIMDGenerator.generateMatrixMultSIMD (2 ^ 32) SIMDGenerator.new "A" "B" "C" m3
          = some out
      ∧ out.length = 60) := by
  refine ⟨?_, ?_, ?_⟩
  · obtain ⟨m3, out, e1, e2, _, _, _, hlen⟩ :=
      SIMDGenerator.default_program "A" "B" "C" 2 2 2 (2 ^ 32) (by decide) (by decide)
        (by decide) (by decide) (by decide) (le_refl _)
    exact ⟨m3, out, e1, e2, hlen⟩
  · obtain ⟨m3, out, e1, e2, _, _, _, hlen⟩ :=
      SIMDGenerator.default_program "A" "B" "C" 4 4 4 (2 ^ 32) (by decide) (by decide)
        (by decide) (by decide) (by decide) (le_refl _)
    exact ⟨m3, out, e1, e2, hlen⟩
  · obtain ⟨m3, out, e1, e2, _, _, _, hlen⟩ :=
      SIMDGenerator.default_program "A" "B" "C" 3 4 2 (2 ^ 32) (by decide) (by decide)
        (by decide) (by decide) (by decide) (le_refl _)
    exact ⟨m3, out, e1, e2, hlen⟩

/-! ## Field widths of the emitted program -/

/-- The row address `getElementLocation` yields for a layout with an in-range
start is a row of the subarray, also for an index out of bounds. -/
theorem MemoryMapper.elementRow_lt (m : MemoryMapper) (hp : MemoryMapper.PositiveParams m)
    (hu : MemoryMapper.ParamsU32 m) (L : MatrixMemoryLayout)
    (hin : MemoryMapper.InRange m L.startLocation) (row col fuel : Nat) (hf : 2 ^ 32 ≤ fuel) :
    SIMDGenerator.elementRow fuel m L row col < m.NumRowsPerSubarray := by
  by_cases hb : row < L.rows ∧ col < L.cols
  · obtain ⟨p, e, hr, _⟩ :=
      MemoryMapper.getElementLocation_spec m hp hu L hin row col fuel hb.1 hb.2 hf
    unfold SIMDGenerator.elementRow
    rw [e]
    exact hr.2.2.1
  · have hoob : MemoryMapper.indexOutOfBounds L row col = true := by
      simp only [MemoryMapper.indexOutOfBounds, Bool.or_eq_true, decide_eq_true_eq]
      omega
    unfold SIMDGenerator.elementRow MemoryMapper.getElementLocation
    rw [if_pos hoob]
    exact hp.2.2.1

/-- The start of the layout `getMatrixLayout` returns is in range, also for a name
that is not mapped. -/
theorem MemoryMapper.getMatrixLayout_inRange (m : MemoryMapper)
    (hn : MemoryMapper.Normalized m) (name : String) :
    MemoryMapper.InRange m (m.getMatrixLayout name).startLocation := by
  unfold MemoryMapper.getMatrixLayout
  cases h : m.MatrixLayouts name with
  | none => exact ⟨hn.1.1, hn.1.2.1, hn.1.2.2.1, hn.1.2.2.2⟩
  | some L => exact hn.2.2.2 name L h

/-- The masks of the encoder lose nothing on an instruction whose address is below
512 and whose coreId is below 64. -/
theorem CodeGenerator.encode_fields (x : PIMInstruction) (ha : x.address < 512)
    (hc : x.coreId < 64) :
    CodeGenerator.encodeInstruction x % 2 ^ 9 = x.address
    ∧ (x.type = PIMInstructionType.PROG →
        CodeGenerator.encodeInstruction x / 2 ^ 16 % 2 ^ 6 = x.coreId) := by
  have he := CodeGenerator.encodePIM_eq x
  rcases x with ⟨t, c, o, a⟩
  simp only at ha hc
  cases t <;>
    simp only [PIMInstructionType.toNat, reduceCtorEq, if_true, if_false] at he <;>
    rw [he] <;> simp only [reduceCtorEq, false_implies, true_implies, and_true] <;> omega

/-- The fields of the instructions of an element block of a normalized mapper. -/
theorem SIMDGenerator.elementBlock_fields (fuel : Nat) (hf : 2 ^ 32 ≤ fuel) (m : MemoryMapper)
    (hp : MemoryMapper.PositiveParams m) (hu : MemoryMapper.ParamsU32 m)
    (LA LB LC : MatrixMemoryLayout)
    (hA : MemoryMapper.InRange m LA.startLocation) (hB : MemoryMapper.InRange m LB.startLocation)
    (hC : MemoryMapper.InRange m LC.startLocation)
    (i j : Nat) (x : PIMInstruction) (h : x ∈ SIMDGenerator.elementBlock fuel m LA LB LC i j) :
    x.address < m.NumRowsPerSubarray ∧ x.coreId = 0 := by
  unfold SIMDGenerator.elementBlock at h
  rw [List.mem_append, List.mem_append] at h
  rcases h with (h | h) | h
  · refine ⟨?_, (SIMDGenerator.access_type true _ x h).2.1⟩
    have hx : x.address ∈ (SIMDGenerator.generateSIMDMemoryAccess true
        ((List.range LA.cols).map (fun k => SIMDGenerator.elementRow fuel m LA i k)
          ++ (List.range LB.rows).map (fun k => SIMDGenerator.elementRow fuel m LB k j))).map
        (fun x => x.address) := List.mem_map.mpr ⟨x, h, rfl⟩
    rw [(SIMDGenerator.access_addresses true _).2] at hx
    rcases List.mem_append.mp hx with h1 | h1
    · obtain ⟨k, _, e⟩ := List.mem_map.mp h1
      rw [← e]
      exact MemoryMapper.elementRow_lt m hp hu LA hA i k fuel hf
    · obtain ⟨k, _, e⟩ := List.mem_map.mp h1
      rw [← e]
      exact MemoryMapper.elementRow_lt m hp hu LB hB k j fuel hf
  · simp only [SIMDGenerator.generateSIMDCompute, PIMInstruction.default, List.nil_append,
      List.cons_append, List.mem_cons, List.mem_singleton, List.not_mem_nil, or_false] at h
    rcases h with h | h <;> rw [h] <;> exact ⟨hp.2.2.1, rfl⟩
  · refine ⟨?_, (SIMDGenerator.access_type false _ x h).2.1⟩
    have hx : x.address ∈ (SIMDGenerator.generateSIMDMemoryAccess false
        [SIMDGenerator.elementRow fuel m LC i j]).map (fun x => x.address) :=
      List.mem_map.mpr ⟨x, h, rfl⟩
    rw [(SIMDGenerator.access_addresses false _).2, List.mem_singleton] at hx
    rw [hx]
    exact MemoryMapper.elementRow_lt m hp hu LC hC i j fuel hf

/-- The fields of the instructions of the LUT block of the default generator. -/
theorem SIMDGenerator.lut_fields (o : PIMOpcode) (x : PIMInstruction)
    (h : x ∈ SIMDGenerator.new.generateSIMDLUTProgramming o) :
    x.address = 0 ∧ x.coreId < 36 := by
  rw [SIMDGenerator.generateSIMDLUTProgramming_eq, List.mem_flatMap] at h
  obtain ⟨c, hc, h⟩ := h
  obtain ⟨k, hk, h⟩ := List.mem_map.mp h
  rw [List.mem_range] at hc hk
  rw [← h]
  have hc4 : c < 4 := hc
  have hk9 : k < 9 := hk
  refine ⟨rfl, ?_⟩
  show (c * 9 + k) % 2 ^ 32 % 2 ^ 8 < 36
  have h1 : c * 9 + k < 36 := by omega
  rw [Nat.mod_eq_of_lt (lt_of_lt_of_le h1 (by decide)),
    Nat.mod_eq_of_lt (lt_of_lt_of_le h1 (by decide))]
  exact h1

/-- A fresh default `MemoryMapper` is normalized. -/
theorem MemoryMapper.normalized_new : MemoryMapper.Normalized MemoryMapper.new := by
  refine ⟨by decide, by decide, by decide, ?_⟩
  intro n L h
  simp [MemoryMapper.new] at h

/-- C40: after any session of `allocateMemory` and `mapMatrix` calls on a fresh
default `MemoryMapper` (512 rows per subarray), `generateMatrixMultSIMD` with the
default generator (4 clusters of 9 cores) returns a program in which every
instruction has `address < 512` and `coreId < 64`; so bits 8..0 of its encoding
are its address and, for a PROG, bits 21..16 are its coreId; and the encodings of
the PROG instructions of the program are pairwise distinct. -/
theorem SIMDGenerator.fields_fit (calls : List MemoryMapper.Call) (nA nB nC : String)
    (fuel : Nat) (hf : 2 ^ 32 ≤ fuel) :
    ∃ m1 out, MemoryMapper.runCalls fuel MemoryMapper.new calls = some m1
      ∧ SIMDGenerator.generateMatrixMultSIMD fuel SIMDGenerator.new nA nB nC m1 = some out
      ∧ (∀ x ∈ out, x.address < 512 ∧ x.coreId < 64
          ∧ CodeGenerator.encodeInstruction x % 2 ^ 9 = x.address
          ∧ (x.type = PIMInstructionType.PROG →
              CodeGenerator.encodeInstruction x / 2 ^ 16 % 2 ^ 6 = x.coreId))
      ∧ ((out.filter (fun x => decide (x.type = PIMInstructionType.PROG))).map
          CodeGenerator.encodeInstruction).Nodup := by
  obtain ⟨locs, m1, e, hn, sp, _⟩ :=
    MemoryMapper.runCallsLog_normalized fuel hf calls MemoryMapper.new
      MemoryMapper.normalized_new
  have erun : MemoryMapper.runCalls fuel MemoryMapper.new calls = some m1 := by
    rw [← MemoryMapper.runCallsLog_state, e]
    rfl
  have hR : m1.NumRowsPerSubarray = 512 := sp.2.2.1
  have hfields : ∀ x : PIMInstruction, x.address < 512 → x.coreId < 64 →
      x.address < 512 ∧ x.coreId < 64
        ∧ CodeGenerator.encodeInstruction x % 2 ^ 9 = x.address
        ∧ (x.type = PIMInstructionType.PROG →
            CodeGenerator.encodeInstruction x / 2 ^ 16 % 2 ^ 6 = x.coreId) :=
    fun x ha hc => ⟨ha, hc, CodeGenerator.encode_fields x ha hc⟩
  by_cases hacc : (m1.getMatrixLayout nA).cols = (m1.getMatrixLayout nB).rows
  · have hgen := SIMDGenerator.generateMatrixMultSIMD_eq fuel SIMDGenerator.new nA nB nC m1
      hn.1.2.2.2 hf hacc
    refine ⟨m1, _, erun, hgen, ?_, ?_⟩
    · intro x hx
      rcases List.mem_append.mp hx with h | h
      · obtain ⟨h0, hc⟩ := SIMDGenerator.lut_fields PIMOpcode.MAC x h
        exact hfields x (by omega) (by omega)
      · obtain ⟨ij, _, h⟩ := List.mem_flatMap.mp h
        obtain ⟨ha, hc⟩ := SIMDGenerator.elementBlock_fields fuel hf m1 hn.1 hn.2.1 _ _ _
          (MemoryMapper.getMatrixLayout_inRange m1 hn nA)
          (MemoryMapper.getMatrixLayout_inRange m1 hn nB)
          (MemoryMapper.getMatrixLayout_inRange m1 hn nC) ij.1 ij.2 x h
        exact hfields x (by omega) (by omega)
    · rw [List.filter_append,
        SIMDGenerator.filter_type_self _ _ (SIMDGenerator.lut_all_prog SIMDGenerator.new _),
        SIMDGenerator.filter_type_nil _ PIMInstructionType.PROG, List.append_nil]
      · decide
      · intro x hx
        obtain ⟨ij, _, h⟩ := List.mem_flatMap.mp hx
        exact SIMDGenerator.elementBlock_no_prog fuel m1 _ _ _ ij.1 ij.2 x h
  · refine ⟨m1, [], erun, ?_, ?_, ?_⟩
    · unfold SIMDGenerator.generateMatrixMultSIMD
      simp only [ne_eq]
      rw [if_pos hacc]
    · intro x hx
      simp at hx
    · simp

/-- Witness for C40: the session of the (3,4,2) test shape. -/
theorem SIMDGenerator.fields_fit_witness :
    2 ^ 32 ≤ 2 ^ 32
    ∧ ∃ m1 out, MemoryMapper.runCalls (2 ^ 32) MemoryMapper.new
        [MemoryMapper.Call.mapMatrix "A" 3 4, MemoryMapper.Call.mapMatrix "B" 4 2,
         MemoryMapper.Call.mapMatrix "C" 3 2] = some m1
      ∧ SIMDGenerator.generateMatrixMultSIMD (2 ^ 32) SIMDGenerator.new "A" "B" "C" m1
          = some out
      ∧ (∀ x ∈ out, x.address < 512 ∧ x.coreId < 64
          ∧ CodeGenerator.encodeInstruction x % 2 ^ 9 = x.address
          ∧ (x.type = PIMInstructionType.PROG →
              CodeGenerator.encodeInstruction x / 2 ^ 16 % 2 ^ 6 = x.coreId))
      ∧ ((out.filter (fun x => decide (x.type = PIMInstructionType.PROG))).map
          CodeGenerator.encodeInstruction).Nodup :=
  ⟨le_refl _,
   SIMDGenerator.fields_fit
    [MemoryMapper.Call.mapMatrix "A" 3 4, MemoryMapper.Call.mapMatrix "B" 4 2,
     MemoryMapper.Call.mapMatrix "C" 3 2] "A" "B" "C" (2 ^ 32) (le_refl _)⟩

end ppim
